import Mathlib

/-!
# Verification of RelayNode's block relay compressor (src/c++/relayprocess.cpp)

A shallow embedding of the relay compressor/decompressor into Lean 4:

* byte sequences are `List Nat` (each element a byte value; machine-width
  truncation is written out explicitly as `% 256`, `% 65536`, ... where the
  C++ code truncates);
* the transaction caches, varint codec and wire helpers declared in the
  headers (not part of `src/`) are modelled from the specification document
  (each such definition carries a `Modelled from the spec:` doc comment);
* the C++ functions of `relayprocess.cpp` are translated one by one; in-place
  loops become structurally recursive functions over lists, carrying exactly
  the state the loop mutates.
-/

namespace RelayNode

/-- A byte sequence (blocks, transactions, hashes, wire messages). -/
abbrev Blob := List Nat

/-! ## `IndexPtr` and `tweak_sort` (relayprocess.cpp:209-232)

`struct IndexPtr { uint16_t index; size_t pos; }`. -/

structure IndexPtr where
  index : Nat
  pos : Nat
  deriving DecidableEq, Repr

/-- `uint16_t index -= d` for a `size_t` subtrahend `d`: the subtraction is
performed modulo 2^16 (the C++ integral conversion back into `uint16_t`).
For `a < 65536` and `d ≤ a` this is plain subtraction. -/
def u16sub (a d : Nat) : Nat := (a + (65536 - d % 65536)) % 65536

/-- The merge guard `left[j].index - (k - split) <= ptrs[k].index` of
`tweak_sort` (relayprocess.cpp:226).  `left[j].index` is promoted to `int`
and then converted to `size_t` (the type of `k - split`), so when
`left[j].index < k - split` the difference wraps around to a value far above
any `uint16_t` and the comparison is false.  `a` is the left index, `d` the
number of right-half elements already merged, `r` the right index. -/
def mergeGuard (a d r : Nat) : Bool :=
  if a < d then false else decide (a - d ≤ r)

/-- One left-half element `l` of the merge loop of `tweak_sort`
(relayprocess.cpp:223-231): right-half elements `r` are copied out unchanged
(incrementing the emitted count `d = k - split`) for as long as the guard
rejects `l`; then `l` is emitted with its index decremented by `d`
(`ptrs[i].index -= (k - split)`), and the continuation `k` handles the
remaining left elements against the remaining right ones.  When the right
half is exhausted (`k >= end`) the guard is skipped and `l` is emitted
directly. -/
def mergeStepR (l : IndexPtr) (k : List IndexPtr → Nat → List IndexPtr) :
    List IndexPtr → Nat → List IndexPtr
  | [], d => ⟨u16sub l.index d, l.pos⟩ :: k [] d
  | r :: rs, d =>
    if mergeGuard l.index d r.index then
      ⟨u16sub l.index d, l.pos⟩ :: k (r :: rs) d
    else
      r :: mergeStepR l k rs (d + 1)

/-- The merge loop of `tweak_sort` (relayprocess.cpp:223-231), as a function
of the saved copy `left` of the left half, the not-yet-consumed tail of the
right half, and the count `d = k - split` of right-half elements already
emitted.  The in-place loop writes `ptrs[i]` for `i` strictly below every
position it still reads (`i ≤ k` throughout), so it is exactly this
functional merge. -/
def mergeStep : List IndexPtr → List IndexPtr → Nat → List IndexPtr
  | [] => fun rs _ => rs
  | l :: ls => mergeStepR l (mergeStep ls)

/-- `tweak_sort(ptrs, start, end)` (relayprocess.cpp:216-232) on the whole
vector, functionally: segments of length ≤ 1 are left alone
(`start + 1 >= end`), longer ones are split at `(end - start) / 2 + start`,
recursively sorted and merged with `mergeStep`.  The recursion of the C++
code touches only the segment `[start, end)`, so it is this recursion on
sublists.  `fuel` bounds the recursion depth; `tweak_sort` supplies
`l.length`, which suffices since both halves are strictly shorter than the
whole. -/
def tweakSortGo : Nat → List IndexPtr → List IndexPtr
  | 0, l => l
  | _ + 1, [] => []
  | _ + 1, [x] => [x]
  | fuel + 1, l =>
    mergeStep (tweakSortGo fuel (l.take (l.length / 2)))
      (tweakSortGo fuel (l.drop (l.length / 2))) 0

def tweak_sort (l : List IndexPtr) : List IndexPtr := tweakSortGo l.length l

/-! ### Reference formulations for `tweak_sort`

The spec describes `tweak_sort` as: stably sort the `(index, pos)` pairs by
`index` ascending, then subtract from each element's index its rank minus its
count of equal-keyed predecessors.  `specRefTweak` below is that literal
formulation.

The characterization that actually matches the code decodes each wire index
into the *original* cache position it denotes — the wire index of the `t`-th
cache reference is its index into the cache after the `t` earlier references
have already been removed, so it denotes the `v`-th smallest original
position not yet consumed — then sorts the references by original position
and gives each one the index it will have at the moment the receiver removes
it, namely its original position minus the number of positions removed
before it (`tweakSpec` below). -/

instance : Inhabited IndexPtr := ⟨⟨0, 0⟩⟩

/-- The elements of `[0, n)` that do not occur in `S`, in increasing order. -/
def notInUpTo (S : List Nat) (n : Nat) : List Nat :=
  (List.range n).filter (fun x => decide (x ∉ S))

/-- The number of elements of `S` that are `< x`. -/
def cntBelow (S : List Nat) (x : Nat) : Nat :=
  (S.filter (fun y => decide (y < x))).length

/-- The `v`-th (0-based) natural number not occurring in `S`.  Among
`0, …, S.length + v` at least `v + 1` numbers avoid `S`, so the window
`notInUpTo S (S.length + v + 1)` is long enough. -/
def nthNotIn (S : List Nat) (v : Nat) : Nat :=
  (notInUpTo S (S.length + v + 1)).getD v 0

/-- Decode a sequence of cache indices (each relative to the cache with all
previously decoded entries removed) into the original cache positions they
denote.  `taken` is the set of positions already consumed. -/
def decodeP (taken : List Nat) : List Nat → List Nat
  | [] => []
  | v :: vs => nthNotIn taken v :: decodeP (nthNotIn taken v :: taken) vs

/-- An `IndexPtr` annotated with the original cache position its wire index
denotes. -/
structure KeyedPtr where
  key : Nat
  pos : Nat
  deriving DecidableEq, Repr

def insertByKey (e : KeyedPtr) : List KeyedPtr → List KeyedPtr
  | [] => [e]
  | x :: xs => if e.key ≤ x.key then e :: x :: xs else x :: insertByKey e xs

/-- Insertion sort by `key` ascending (stable; the keys are distinct in every
use below). -/
def sortByKey : List KeyedPtr → List KeyedPtr
  | [] => []
  | x :: xs => insertByKey x (sortByKey xs)

/-- Pair each reference with its decoded original cache position. -/
def annotate (l : List IndexPtr) : List KeyedPtr :=
  List.zipWith (fun k p => ⟨k, p⟩) (decodeP [] (l.map IndexPtr.index))
    (l.map IndexPtr.pos)

/-- The index an entry at original position `e.key` has after every entry
whose original position is a smaller member of `keys` has been removed:
`key` minus the rank of `key` in `keys`. -/
def adjustKey (keys : List Nat) (e : KeyedPtr) : IndexPtr :=
  ⟨e.key - cntBelow keys e.key, e.pos⟩

/-- Declarative description of `tweak_sort`: decode the wire indices into
original cache positions, sort by original position, and replace each index
by the position minus its rank. -/
def tweakSpec (l : List IndexPtr) : List IndexPtr :=
  (sortByKey (annotate l)).map (adjustKey (decodeP [] (l.map IndexPtr.index)))

def insertByIndex (e : IndexPtr) : List IndexPtr → List IndexPtr
  | [] => [e]
  | x :: xs => if e.index ≤ x.index then e :: x :: xs else x :: insertByIndex e xs

/-- Stable sort of the pairs by `index` ascending (insertion sort). -/
def stableSortByIndex : List IndexPtr → List IndexPtr
  | [] => []
  | x :: xs => insertByIndex x (stableSortByIndex xs)

/-- Number of elements before position `i` of `s` carrying the same index as
`s[i]` (its "count of equal-keyed predecessors"). -/
def eqKeyedBefore (s : List IndexPtr) (i : Nat) : Nat :=
  ((s.take i).filter (fun e => decide (e.index = (s.getD i default).index))).length

/-- The spec's reference formulation of `tweak_sort`, literally: stably sort
by index ascending, then subtract from each element's index the number of
elements placed before it in the sorted order, i.e. its rank minus its count
of equal-keyed predecessors. -/
def specRefTweak (l : List IndexPtr) : List IndexPtr :=
  (List.range (stableSortByIndex l).length).map fun i =>
    ⟨((stableSortByIndex l).getD i default).index - (i - eqKeyedBefore (stableSortByIndex l) i),
      ((stableSortByIndex l).getD i default).pos⟩

/-- The number of naturals `< x` avoiding `S` (the index an entry at original
position `x` has once exactly the positions in `S` below it are removed). -/
def cntNotBelow (S : List Nat) (x : Nat) : Nat := (notInUpTo S x).length

/-! ## `MerkleTreeBuilder` (relayprocess.cpp:83-105)

The builder holds a flat `32·N`-byte buffer; we model it as a list with one
entry per 32-byte slot (`hashlist[32·k]` becomes index `k`), generic in the
hash type `α` and the fused double-SHA-256 `H2` of two slots
(`double_sha256_two_32_inputs`, external to `src/`). -/

section Merkle

variable {α : Type} [DecidableEq α] [Inhabited α]

/-- The inner row loop of `MerkleTreeBuilder::merkleRootMatches`
(relayprocess.cpp:96-99): `for (i = i0; i < rowSize; i += 2)` overwrite slot
`i * stepCount` with `H2` of the slots `i * stepCount` and
`min((i + 1) * stepCount, lastMax)`.  `fuel` bounds the iteration count;
`rowSize` iterations always suffice since `i` grows by 2. -/
def merkleRow (H2 : α → α → α) (rowSize stepCount lastMax : Nat) :
    Nat → Nat → List α → List α
  | 0, _, hl => hl
  | fuel + 1, i, hl =>
    if i < rowSize then
      merkleRow H2 rowSize stepCount lastMax fuel (i + 2)
        (hl.set (i * stepCount)
          (H2 (hl.getD (i * stepCount) default)
            (hl.getD (min ((i + 1) * stepCount) lastMax) default)))
    else hl

/-- The outer loop of `merkleRootMatches` (relayprocess.cpp:92-102): while
`rowSize > 1`, first compare the slots at `lastMax - stepCount` and `lastMax`
(the last two entries of the current row) and bail out (`none`) when they are
byte-equal, then fold the row in place and update
`lastMax := ((rowSize - 1) & ~1) * stepCount` (written
`((rowSize - 1) / 2) * 2 * stepCount`), `stepCount *= 2`,
`rowSize := (rowSize + 1) / 2`.  `fuel` bounds the number of rows. -/
def merkleLoop (H2 : α → α → α) :
    Nat → Nat → Nat → Nat → List α → Option (List α)
  | 0, _, _, _, hl => some hl
  | fuel + 1, rowSize, stepCount, lastMax, hl =>
    if 1 < rowSize then
      if hl.getD (lastMax - stepCount) default = hl.getD lastMax default then
        none
      else
        merkleLoop H2 fuel ((rowSize + 1) / 2) (stepCount * 2)
          ((((rowSize - 1) / 2) * 2) * stepCount)
          (merkleRow H2 rowSize stepCount lastMax rowSize 0 hl)
    else some hl

/-- `MerkleTreeBuilder::merkleRootMatches` (relayprocess.cpp:89-104): run the
fold starting from `rowSize = txcount`, `stepCount = 1`,
`lastMax = txcount - 1`; on completion compare slot `0` with the advertised
root (`memcmp(match, &hashlist[0], 32)`). -/
def merkleRootMatches (H2 : α → α → α) (hl : List α) (root : α) : Bool :=
  match merkleLoop H2 hl.length hl.length 1 (hl.length - 1) hl with
  | none => false
  | some hl' => decide (hl'.getD 0 default = root)

/-- One row of the reference pairwise fold: hash consecutive pairs, an odd
final element with itself. -/
def foldRow (H2 : α → α → α) : List α → List α
  | [] => []
  | [a] => [H2 a a]
  | a :: b :: rest => H2 a b :: foldRow H2 rest

def merkleSpecGo (H2 : α → α → α) : Nat → List α → α
  | 0, hl => hl.getD 0 default
  | fuel + 1, hl =>
    if hl.length ≤ 1 then hl.getD 0 default
    else merkleSpecGo H2 fuel (foldRow H2 hl)

/-- The in-order pairwise double-SHA-256 fold of the leaves (odd rows pairing
the final element with itself). -/
def merkleSpec (H2 : α → α → α) (hl : List α) : α :=
  merkleSpecGo H2 hl.length hl

/-- The last two entries of a row are equal (the condition of the in-loop
duplicate guard). -/
def lastTwoEq (l : List α) : Bool :=
  decide (2 ≤ l.length) &&
    decide (l.getD (l.length - 2) default = l.getD (l.length - 1) default)

def hasDupRowGo (H2 : α → α → α) : Nat → List α → Bool
  | 0, _ => false
  | fuel + 1, hl =>
    if hl.length ≤ 1 then false
    else lastTwoEq hl || hasDupRowGo H2 fuel (foldRow H2 hl)

/-- Some row of the reference fold (the leaves included) ends in two equal
hashes. -/
def merkleHasDup (H2 : α → α → α) (hl : List α) : Bool :=
  hasDupRowGo H2 hl.length hl

end Merkle

/-! ## The transaction caches and wire codec

`FlaggedArraySet`, `read_varint`/`move_forward`, `varint`, `getblockhash`,
`double_sha256`, `tx_to_msg` and the relay message constants are declared in
headers that are not part of `src/`; the definitions below are modelled from
the spec.  The three hash functions stay abstract parameters (`DS` for
`double_sha256`, `DS2` for `double_sha256_two_32_inputs`, `GH` for
`getblockhash`). -/

/-- Modelled from the spec: one entry of a `FlaggedArraySet` — the
transaction bytes, the legacy oversize flag, and the occupancy cost. -/
structure CacheEntry where
  blob : Blob
  flag : Bool
  cost : Nat
  deriving DecidableEq, Repr

instance : Inhabited CacheEntry := ⟨⟨[], false, 0⟩⟩

/-- Modelled from the spec: a `FlaggedArraySet` is an ordered,
content-addressed transaction store; removal by content or by current index
compacts the later indices down by one.  Capacity eviction is not modelled:
none of the claims verified here depends on it. -/
structure TxCache where
  entries : List CacheEntry
  deriving DecidableEq, Repr

/-- Modelled from the spec: content membership test. -/
def TxCache.contains (c : TxCache) (tx : Blob) : Bool :=
  c.entries.any fun e => decide (e.blob = tx)

/-- Modelled from the spec: the number of flagged (legacy oversize) entries. -/
def TxCache.flagCount (c : TxCache) : Nat :=
  (c.entries.filter fun e => e.flag).length

/-- Modelled from the spec: `add(tx, cost)` appends an unflagged entry at the
tail.  (`send_tx_cache.add(tx, tx->size())`, relayprocess.cpp:18.) -/
def TxCache.add (c : TxCache) (tx : Blob) (cost : Nat) : TxCache :=
  ⟨c.entries ++ [⟨tx, false, cost⟩]⟩

/-- Modelled from the spec: the legacy `add(tx, flag)` overload appends an
entry carrying the oversize flag.  (relayprocess.cpp:26.) -/
def TxCache.addOld (c : TxCache) (tx : Blob) (flag : Bool) : TxCache :=
  ⟨c.entries ++ [⟨tx, flag, tx.length⟩]⟩

/-- Modelled from the spec: `remove(txstart, readit)` looks the byte range up
by content; a hit returns the entry's current index and evicts it, a miss
returns `none` (the C++ `-1`).  (Called at relayprocess.cpp:166.) -/
def TxCache.removeContent (c : TxCache) (tx : Blob) : Option Nat × TxCache :=
  match c.entries.findIdx? (fun e => decide (e.blob = tx)) with
  | none => (none, c)
  | some i => (some i, ⟨c.entries.eraseIdx i⟩)

/-- Modelled from the spec: the receive-side `remove(index, data, hash)`
copies the blob at the given current index and evicts it; an out-of-range
index fails and leaves the cache unchanged.  (Called at
relayprocess.cpp:338.) -/
def TxCache.removeIndex (c : TxCache) (i : Nat) : Option Blob × TxCache :=
  if i < c.entries.length then
    (some (c.entries.getD i default).blob, ⟨c.entries.eraseIdx i⟩)
  else (none, c)

/-- The `k`-byte little-endian integer at `pos` (missing bytes read as 0; the
caller checks the bound). -/
def readLE (blk : Blob) (pos : Nat) : Nat → Nat
  | 0 => 0
  | k + 1 => blk.getD pos 0 % 256 + 256 * readLE blk (pos + 1) k

/-- Modelled from the spec: the Bitcoin variable-length integer reader used
by `maybe_compress_block` (`read_varint(readit, block.end())`,
relayprocess.cpp:135).  A first byte `< 0xfd` is the value itself; `0xfd`,
`0xfe`, `0xff` prefix a 2-, 4-, 8-byte little-endian value.  Reading past
the end throws (`none` here); non-canonical encodings are accepted. -/
def read_varint (blk : Blob) (pos : Nat) : Option (Nat × Nat) :=
  if pos < blk.length then
    if blk.getD pos 0 % 256 < 253 then some (blk.getD pos 0 % 256, pos + 1)
    else
      if blk.getD pos 0 % 256 = 253 then
        if pos + 3 ≤ blk.length then some (readLE blk (pos + 1) 2, pos + 3) else none
      else if blk.getD pos 0 % 256 = 254 then
        if pos + 5 ≤ blk.length then some (readLE blk (pos + 1) 4, pos + 5) else none
      else
        if pos + 9 ≤ blk.length then some (readLE blk (pos + 1) 8, pos + 9) else none
  else none

/-- The little-endian byte string of `n` on `k` bytes. -/
def leBytes : Nat → Nat → Blob
  | _, 0 => []
  | n, k + 1 => n % 256 :: leBytes (n / 256) k

/-- Modelled from the spec: the canonical Bitcoin varint writer
(`varint(state.tx_count)`, relayprocess.cpp:294). -/
def varint (n : Nat) : Blob :=
  if n < 253 then [n]
  else if n < 65536 then 253 :: leBytes n 2
  else if n < 4294967296 then 254 :: leBytes n 4
  else 255 :: leBytes n 8

/-- Modelled from the spec: `move_forward(it, k, end)` advances the cursor,
throwing (`none` here) when fewer than `k` bytes remain. -/
def move_forward (blk : Blob) (pos k : Nat) : Option Nat :=
  if pos + k ≤ blk.length then some (pos + k) else none

/-- The byte range `[a, b)` of a blob. -/
def slice (l : Blob) (a b : Nat) : Blob := (l.take b).drop a

/-- The 2-byte big-endian encoding of the low 16 bits
(`(index >> 8) & 0xff, index & 0xff`, relayprocess.cpp:188-189). -/
def be16 (n : Nat) : Blob := [n / 256 % 256, n % 256]

/-- The 3-byte big-endian encoding of the low 24 bits
(`(txlen >> 16) & 0xff, …`, relayprocess.cpp:182-184). -/
def be24 (n : Nat) : Blob := [n / 65536 % 256, n / 256 % 256, n % 256]

/-- The 4-byte big-endian (`htonl`) encoding of the low 32 bits. -/
def be32 (n : Nat) : Blob := [n / 16777216 % 256, n / 65536 % 256, n / 256 % 256, n % 256]

/-- Modelled from the spec: the 4-byte relay network magic.  Its value is
defined outside `src/` and is emitted but never inspected by the code
verified here, so a placeholder value stands in. -/
def RELAY_MAGIC_BYTES : Blob := [0, 0, 0, 0]

/-- Modelled from the spec: the 4-byte BLOCK message type tag (placeholder
value, emitted but never inspected). -/
def BLOCK_TYPE : Blob := [0, 0, 0, 1]

/-- Modelled from the spec: the 4-byte TX message type tag (placeholder
value, emitted but never inspected). -/
def TX_TYPE : Blob := [0, 0, 0, 2]

/-- Modelled from the spec: `tx_to_msg(tx)` wraps a transaction in the
12-byte relay header — magic, TX type tag, big-endian payload length —
followed by the transaction bytes.  (Returned at relayprocess.cpp:29.) -/
def tx_to_msg (tx : Blob) : Blob :=
  RELAY_MAGIC_BYTES ++ TX_TYPE ++ be32 tx.length ++ tx

/-- The signed `int32_t` assembled from four little-endian bytes
(`(b3 << 24) | (b2 << 16) | (b1 << 8) | b0`) is `< 4`: either the unsigned
value is below 4 or the sign bit is set.  (relayprocess.cpp:126-127 and
283-284.) -/
def versionLT4 (b0 b1 b2 b3 : Nat) : Bool :=
  decide (b0 % 256 + b1 % 256 * 256 + b2 % 256 * 65536 + b3 % 256 * 16777216 < 4) ||
    decide (2147483648 ≤ b0 % 256 + b1 % 256 * 256 + b2 % 256 * 65536 + b3 % 256 * 16777216)

/-- The difficulty screen of relayprocess.cpp:111 and 291: some of the hash
bytes 25–31 is nonzero. -/
def badWork (h : Blob) : Bool :=
  decide (h.getD 31 0 ≠ 0) || decide (h.getD 30 0 ≠ 0) || decide (h.getD 29 0 ≠ 0) ||
    decide (h.getD 28 0 ≠ 0) || decide (h.getD 27 0 ≠ 0) || decide (h.getD 26 0 ≠ 0) ||
    decide (h.getD 25 0 ≠ 0)

/-- Modelled from the spec: `std::set<…>::insert` on `blocksAlreadySeen` —
a no-op when the hash is present, an insertion otherwise (the set is kept as
the list of elements in insertion order; only membership matters). -/
def insertSeen (seen : List Blob) (h : Blob) : List Blob :=
  if h ∈ seen then seen else seen ++ [h]

/-- The mutable members of `RelayNodeCompressor` the verified functions
touch: the two transaction caches and the seen-block set. -/
structure RelayNodeState where
  send_tx_cache : TxCache
  recv_tx_cache : TxCache
  blocksAlreadySeen : List Blob
  deriving DecidableEq, Repr

/-- `RelayNodeCompressor::get_relay_transaction` (relayprocess.cpp:9-30),
with the four policy constants as parameters.  Returns the wire message (or
`none` for a policy rejection) and the updated send cache. -/
def get_relay_transaction (useOldFlags : Bool)
    (MAX_RELAY_TRANSACTION_BYTES OLD_MAX_RELAY_TRANSACTION_BYTES
      OLD_MAX_EXTRA_OVERSIZE_TRANSACTIONS OLD_MAX_RELAY_OVERSIZE_TRANSACTION_BYTES : Nat)
    (tx : Blob) (cache : TxCache) : Option Blob × TxCache :=
  if cache.contains tx then (none, cache)
  else if !useOldFlags then
    if tx.length > MAX_RELAY_TRANSACTION_BYTES then (none, cache)
    else (some (tx_to_msg tx), cache.add tx tx.length)
  else
    if tx.length > OLD_MAX_RELAY_TRANSACTION_BYTES &&
        (decide (cache.flagCount ≥ OLD_MAX_EXTRA_OVERSIZE_TRANSACTIONS) ||
          decide (tx.length > OLD_MAX_RELAY_OVERSIZE_TRANSACTION_BYTES)) then
      (none, cache)
    else (some (tx_to_msg tx), cache.addOld tx (tx.length > OLD_MAX_RELAY_TRANSACTION_BYTES))

/-! ### `maybe_compress_block` (relayprocess.cpp:107-203) -/

/-- The txin loop of the per-transaction skip (relayprocess.cpp:153-156):
for each input skip 36 bytes (outpoint), read the script length varint, skip
script plus 4 (sequence). -/
def skipTxInsGo (blk : Blob) : Nat → Nat → Option Nat
  | 0, pos => some pos
  | j + 1, pos =>
    (move_forward blk pos 36).bind fun pos1 =>
    (read_varint blk pos1).bind fun sl =>
    (move_forward blk sl.2 (sl.1 + 4)).bind fun pos2 =>
    skipTxInsGo blk j pos2

/-- The txout loop (relayprocess.cpp:159-162): for each output skip 8 bytes
(value), read the script length varint, skip the script. -/
def skipTxOutsGo (blk : Blob) : Nat → Nat → Option Nat
  | 0, pos => some pos
  | j + 1, pos =>
    (move_forward blk pos 8).bind fun pos1 =>
    (read_varint blk pos1).bind fun sl =>
    (move_forward blk sl.2 sl.1).bind fun pos2 =>
    skipTxOutsGo blk j pos2

/-- Skip one serialized transaction (relayprocess.cpp:150-164): 4-byte
version, txin count and inputs, txout count and outputs, 4-byte locktime.
Returns the position one past the transaction. -/
def skipTx (blk : Blob) (pos : Nat) : Option Nat :=
  (move_forward blk pos 4).bind fun pos1 =>
  (read_varint blk pos1).bind fun ins =>
  (skipTxInsGo blk ins.1 ins.2).bind fun pos2 =>
  (read_varint blk pos2).bind fun outs =>
  (skipTxOutsGo blk outs.1 outs.2).bind fun pos3 =>
  move_forward blk pos3 4

/-- One transaction of the compression loop: the raw bytes and the send
cache index found for them (`none` when the cache missed and the bytes go
inline). -/
structure CompressTxRecord where
  bytes : Blob
  cacheIdx : Option Nat
  deriving DecidableEq, Repr

/-- The compression loop over the declared transaction count
(relayprocess.cpp:147-191): skip one transaction, remove its byte range from
the send cache by content, recurse.  A parse failure (`read_exception`)
aborts but keeps the cache mutations already made, so the loop returns the
final cache alongside the optional record list and end position. -/
def compressTxLoop (blk : Blob) :
    Nat → Nat → TxCache → Option (List CompressTxRecord × Nat) × TxCache
  | 0, pos, cache => (some ([], pos), cache)
  | n + 1, pos, cache =>
    match skipTx blk pos with
    | none => (none, cache)
    | some txend =>
      match cache.removeContent (slice blk pos txend) with
      | (idx, cache') =>
        match compressTxLoop blk n txend cache' with
        | (none, cacheF) => (none, cacheF)
        | (some (recs, finPos), cacheF) =>
          (some (⟨slice blk pos txend, idx⟩ :: recs, finPos), cacheF)

/-- The bytes `maybe_compress_block` emits for one transaction
(relayprocess.cpp:177-190): a cache hit becomes the 2-byte big-endian index;
a miss becomes the `0xffff` escape, the 3-byte big-endian length, and the
raw transaction. -/
def txPiece (r : CompressTxRecord) : Blob :=
  match r.cacheIdx with
  | none => [255, 255] ++ be24 r.bytes.length ++ r.bytes
  | some idx => be16 idx

/-- The header walk of `maybe_compress_block` (relayprocess.cpp:122-137):
skip the 24-byte bitcoin message header and the 4-byte version (rejecting
version < 4), the 32-byte previous-block hash and the remaining 44 header
bytes, then read the transaction count varint and confine it to
`[1, 100000]`.  Any cursor overrun is the caught `read_exception`,
`INVALID_SIZE`.  Returns the count and the position after it. -/
def compressParseHeader (block : Blob) : Except String (Nat × Nat) :=
  match move_forward block 0 24 with
  | none => .error "INVALID_SIZE"
  | some pos1 =>
    match move_forward block pos1 4 with
    | none => .error "INVALID_SIZE"
    | some pos2 =>
      if versionLT4 (block.getD (pos2 - 4) 0) (block.getD (pos2 - 3) 0)
          (block.getD (pos2 - 2) 0) (block.getD (pos2 - 1) 0) then
        .error "SMALL_VERSION"
      else
        match move_forward block pos2 32 with
        | none => .error "INVALID_SIZE"
        | some pos3 =>
          match move_forward block pos3 44 with
          | none => .error "INVALID_SIZE"
          | some pos4 =>
            match read_varint block pos4 with
            | none => .error "INVALID_SIZE"
            | some (txcount, pos5) =>
              if txcount < 1 || txcount > 100000 then .error "TXCOUNT_RANGE"
              else .ok (txcount, pos5)

/-- `RelayNodeCompressor::maybe_compress_block` (relayprocess.cpp:107-203).
Order of business: the difficulty screen (`BAD_WORK`), the seen-block check
(`SEEN`), the header walk, the per-transaction loop (whose cache mutations
survive an abort), the optional merkle check against the root bytes at
offset 60 (after the 24-byte message header, 4-byte version and 32-byte
previous hash), the seen-set insertion, and on success the relay header —
magic, BLOCK tag, `htonl(txcount)` — followed by the 80 header bytes and the
per-transaction pieces. -/
def maybe_compress_block (DS : Blob → Blob) (DS2 : Blob → Blob → Blob)
    (hash block : Blob) (check_merkle : Bool) (st : RelayNodeState) :
    Except String Blob × RelayNodeState :=
  if check_merkle && badWork hash then (.error "BAD_WORK", st)
  else if hash ∈ st.blocksAlreadySeen then (.error "SEEN", st)
  else
    match compressParseHeader block with
    | .error e => (.error e, st)
    | .ok (txcount, pos5) =>
      match compressTxLoop block txcount pos5 st.send_tx_cache with
      | (none, cache') => (.error "INVALID_SIZE", { st with send_tx_cache := cache' })
      | (some (recs, _), cache') =>
        if check_merkle &&
            !merkleRootMatches DS2 (recs.map fun r => DS r.bytes) (slice block 60 92) then
          (.error "INVALID_MERKLE", { st with send_tx_cache := cache' })
        else if hash ∈ st.blocksAlreadySeen then
          (.error "MUTEX_BROKEN???",
            { st with send_tx_cache := cache',
                      blocksAlreadySeen := insertSeen st.blocksAlreadySeen hash })
        else
          (.ok (RELAY_MAGIC_BYTES ++ BLOCK_TYPE ++ be32 txcount ++ slice block 24 104 ++
              (recs.map txPiece).flatten),
            { st with send_tx_cache := cache',
                      blocksAlreadySeen := insertSeen st.blocksAlreadySeen hash })

/-! ### `decompress_relay_block` / `do_decompress` (relayprocess.cpp:234-349)

The `read_all` callback serves the compressed message body; it is modelled
as a cursor over the byte list `wire`, a short read failing the call. -/

/-- Read `k` bytes of the wire at the cursor; `none` models a short read. -/
def readWire (wire : Blob) (pos k : Nat) : Option Blob :=
  if pos + k ≤ wire.length then some (slice wire pos (pos + k)) else none

/-- One entry of `DecompressState::txn_data` after the read loop: the
decoded 2-byte index and, for an inline transaction (`index = 0xffff`), its
bytes (`none` marks a cache reference still to be resolved). -/
structure DecompressTxRecord where
  index : Nat
  data : Option Blob
  deriving DecidableEq, Repr

/-- The wire read loop of `do_decompress` (relayprocess.cpp:297-328): for
each of the `tx_count` transactions read a 2-byte big-endian index and count
it into `wire_bytes`; on the `0xffff` escape read the 3-byte big-endian
length (rejecting `> 1000000`) and that many data bytes, counting `3 +
size` more wire bytes.  Arguments: remaining count, cursor, `wire_bytes`
accumulator; result: records in wire order, final cursor, final
`wire_bytes`. -/
def decompressReadLoop (wire : Blob) :
    Nat → Nat → Nat → Except String (List DecompressTxRecord × Nat × Nat)
  | 0, pos, wb => .ok ([], pos, wb)
  | n + 1, pos, wb =>
    match readWire wire pos 2 with
    | none => .error "failed to read tx index"
    | some ib =>
      if ib.getD 0 0 % 256 * 256 + ib.getD 1 0 % 256 = 65535 then
        match readWire wire (pos + 2) 3 with
        | none => .error "failed to read tx length"
        | some lb =>
          if lb.getD 0 0 % 256 * 65536 + lb.getD 1 0 % 256 * 256 + lb.getD 2 0 % 256
              > 1000000 then
            .error "got unreasonably large tx"
          else
            match readWire wire (pos + 5)
                (lb.getD 0 0 % 256 * 65536 + lb.getD 1 0 % 256 * 256 + lb.getD 2 0 % 256) with
            | none => .error "failed to read transaction data"
            | some data =>
              match decompressReadLoop wire n (pos + 5 + data.length)
                  (wb + 2 + 3 + data.length) with
              | .error e => .error e
              | .ok (recs, finPos, finWb) => .ok (⟨65535, some data⟩ :: recs, finPos, finWb)
      else
        match decompressReadLoop wire n (pos + 2) (wb + 2) with
        | .error e => .error e
        | .ok (recs, finPos, finWb) =>
          .ok (⟨ib.getD 0 0 % 256 * 256 + ib.getD 1 0 % 256, none⟩ :: recs, finPos, finWb)

/-- `DecompressState::txn_ptrs` (relayprocess.cpp:327): one `(index, i)`
pair per cache reference (non-inline record), in wire order, `i` its
position among all transactions. -/
def decompressPtrs (recs : List DecompressTxRecord) : List IndexPtr :=
  ((List.range recs.length).zip recs).filterMap fun ir =>
    match ir.2.data with
    | none => some ⟨ir.2.index, ir.1⟩
    | some _ => none

/-- The cache removal loop of `do_decompress` (relayprocess.cpp:334-340):
walk the tweak-sorted reference list, remove each current index from the
receive cache and store the blob at the reference's transaction slot; a miss
fails with the removals so far already applied. -/
def decompressRemoveLoop : List IndexPtr → TxCache → List (Option Blob) →
    Except String (List (Option Blob)) × TxCache
  | [], cache, txdata => (.ok txdata, cache)
  | p :: ps, cache, txdata =>
    match cache.removeIndex p.index with
    | (none, cache') => (.error "failed to find referenced transaction", cache')
    | (some b, cache') => decompressRemoveLoop ps cache' (txdata.set p.pos (some b))

/-- The success payload of `decompress_relay_block`
(relayprocess.cpp:275): the wire byte count, the reconstructed block message
(24-byte message header slot, 80-byte block header, transaction count
varint, transactions in order) and the block hash. -/
structure DecompressOut where
  wire_bytes : Nat
  block : Blob
  fullhash : Blob
  deriving DecidableEq, Repr

/-- `RelayNodeCompressor::do_decompress` (relayprocess.cpp:278-349): read
the 80-byte block header into the block buffer (after 24 zero bytes for the
message header slot), reject version < 4, hash the header (`GH`), insert
the hash into the seen set unconditionally, apply the difficulty screen when
checking merkle, run the wire read loop (`wire_bytes` starts at `4*3`),
tweak-sort the cache references and run the removal loop, append the data
of every transaction, and finally check the merkle root against bytes
60–91 of the rebuilt block. -/
def do_decompress (DS : Blob → Blob) (DS2 : Blob → Blob → Blob) (GH : Blob → Blob)
    (wire : Blob) (tx_count : Nat) (check_merkle : Bool) (st : RelayNodeState) :
    Except String DecompressOut × RelayNodeState :=
  match readWire wire 0 80 with
  | none => (.error "failed to read block header", st)
  | some hdr =>
    if versionLT4 (hdr.getD 0 0) (hdr.getD 1 0) (hdr.getD 2 0) (hdr.getD 3 0) then
      (.error "block had version < 4", st)
    else
      if check_merkle && badWork (GH hdr) then
        (.error "block hash did not meet minimum difficulty target",
          { st with blocksAlreadySeen := insertSeen st.blocksAlreadySeen (GH hdr) })
      else
        match decompressReadLoop wire tx_count 80 12 with
        | .error e =>
          (.error e, { st with blocksAlreadySeen := insertSeen st.blocksAlreadySeen (GH hdr) })
        | .ok (recs, _, wb) =>
          match decompressRemoveLoop (tweak_sort (decompressPtrs recs))
              st.recv_tx_cache (recs.map DecompressTxRecord.data) with
          | (.error e, cache') =>
            (.error e,
              { st with recv_tx_cache := cache',
                        blocksAlreadySeen := insertSeen st.blocksAlreadySeen (GH hdr) })
          | (.ok txdataF, cache') =>
            if check_merkle &&
                !merkleRootMatches DS2 (txdataF.map fun o => DS (o.getD []))
                  (slice (List.replicate 24 0 ++ hdr ++ varint tx_count ++
                    (txdataF.map fun o => o.getD []).flatten) 60 92) then
              (.error "merkle tree root did not match",
                { st with recv_tx_cache := cache',
                          blocksAlreadySeen := insertSeen st.blocksAlreadySeen (GH hdr) })
            else
              (.ok ⟨wb, List.replicate 24 0 ++ hdr ++ varint tx_count ++
                  (txdataF.map fun o => o.getD []).flatten, GH hdr⟩,
                { st with recv_tx_cache := cache',
                          blocksAlreadySeen := insertSeen st.blocksAlreadySeen (GH hdr) })

/-- `RelayNodeCompressor::decompress_relay_block` (relayprocess.cpp:264-276):
reject a declared transaction count above 100000, then run
`do_decompress`. -/
def decompress_relay_block (DS : Blob → Blob) (DS2 : Blob → Blob → Blob) (GH : Blob → Blob)
    (wire : Blob) (message_size : Nat) (check_merkle : Bool) (st : RelayNodeState) :
    Except String DecompressOut × RelayNodeState :=
  if message_size > 100000 then
    (.error "got a BLOCK message with far too many transactions", st)
  else do_decompress DS DS2 GH wire message_size check_merkle st

/-! ### Ghost-state views used by the round-trip proof -/

instance : Inhabited CompressTxRecord := ⟨⟨[], none⟩⟩

instance : Inhabited DecompressTxRecord := ⟨⟨0, none⟩⟩

/-- The cache `S` after the entries at the original positions `T` have been
removed (in any order): the remaining entries, in order. -/
def cacheOf (S : TxCache) (T : List Nat) : TxCache :=
  ⟨(notInUpTo T S.entries.length).map fun i => S.entries.getD i default⟩

/-- The `txn_data` record the read loop recovers from the wire piece of a
compression record: the inline bytes for a cache miss, a pending reference
carrying the cache index for a hit. -/
def recToDec (r : CompressTxRecord) : DecompressTxRecord :=
  match r.cacheIdx with
  | none => ⟨65535, some r.bytes⟩
  | some i => ⟨i, none⟩

/-- The wire bytes the read loop accounts for one transaction: 2 for the
index, plus 3 and the data length for an inline transaction. -/
def decompressRecordCost (r : DecompressTxRecord) : Nat :=
  2 + match r.data with
      | some d => 3 + d.length
      | none => 0

/-- The reference list as the removal loop consumes it: each original cache
position replaced by its index in the cache depleted by the positions
already processed (`R`). -/
def adjustedRefs (R : List Nat) : List KeyedPtr → List IndexPtr
  | [] => []
  | e :: es => ⟨cntNotBelow R e.key, e.pos⟩ :: adjustedRefs (e.key :: R) es

/-! ### Concrete material for counterexamples and witnesses -/

/-- A trivial stand-in for `double_sha256` (the hash values are irrelevant on
the `check_merkle = false` paths exercised below). -/
def DS0 : Blob → Blob := fun _ => []

/-- A trivial stand-in for `double_sha256_two_32_inputs`. -/
def DS20 : Blob → Blob → Blob := fun _ _ => []

/-- A trivial stand-in for `getblockhash`. -/
def GH0 : Blob → Blob := fun _ => []

/-- An 80-byte block header with version 4 and all other bytes zero. -/
def hdrV4 : Blob := 4 :: List.replicate 79 0

/-- A minimal 10-byte transaction: version, zero inputs, zero outputs,
locktime. -/
def txA : Blob := [7, 0, 0, 0, 0, 0, 1, 2, 3, 4]

/-- A full block message carrying the single transaction `txA`. -/
def blockA : Blob := List.replicate 24 0 ++ hdrV4 ++ [1] ++ txA

/-- `blockA` with one stray byte after the last transaction. -/
def blockTrail : Blob := blockA ++ [0]

/-- The empty compressor state. -/
def stEmpty : RelayNodeState := ⟨⟨[]⟩, ⟨[]⟩, []⟩

/-- A receive cache holding the single entry `txA`. -/
def cacheA : TxCache := ⟨[⟨txA, false, 10⟩]⟩

/-- The compressed bytes of `blockTrail` (extracted for the C1
counterexample). -/
def trailComp : Blob :=
  match (maybe_compress_block DS0 DS20 [] blockTrail false stEmpty).1 with
  | .ok b => b
  | .error _ => []

/-- The decompression result of `trailComp`'s body (extracted for the C1
counterexample). -/
def trailOut : DecompressOut :=
  match (decompress_relay_block DS0 DS20 GH0 (trailComp.drop 12) 1 false stEmpty).1 with
  | .ok o => o
  | .error _ => ⟨0, [], []⟩

/-- The compressed bytes of `blockA` against the send cache `cacheA`
(extracted for the C1 witness). -/
def wComp : Blob :=
  match (maybe_compress_block DS0 DS20 [] blockA false ⟨cacheA, ⟨[]⟩, []⟩).1 with
  | .ok b => b
  | .error _ => []

/-- The post-compression state of the C1 witness run. -/
def wSt : RelayNodeState :=
  (maybe_compress_block DS0 DS20 [] blockA false ⟨cacheA, ⟨[]⟩, []⟩).2

/-- A wire body holding `hdrV4` and two references to cache index 0 (the C2
counterexample). -/
def wireRefs : Blob := hdrV4 ++ [0, 0, 0, 0]

/-! ### Counting library for `notInUpTo` / `nthNotIn` -/

theorem mem_notInUpTo {S : List Nat} {n x : Nat} :
    x ∈ notInUpTo S n ↔ x < n ∧ x ∉ S := by
  simp [notInUpTo, List.mem_filter, List.mem_range]

theorem notInUpTo_sorted (S : List Nat) (n : Nat) :
    List.Sorted (· < ·) (notInUpTo S n) :=
  List.Pairwise.sublist (List.filter_sublist _) (List.sorted_lt_range n)

theorem notInUpTo_nodup (S : List Nat) (n : Nat) : (notInUpTo S n).Nodup :=
  List.Nodup.sublist (List.filter_sublist _) (List.nodup_range n)

theorem notInUpTo_succ (S : List Nat) (n : Nat) :
    notInUpTo S (n + 1) =
      notInUpTo S n ++ if n ∈ S then [] else [n] := by
  by_cases h : n ∈ S <;>
    simp [notInUpTo, List.range_succ, List.filter_append, h]

theorem notInUpTo_eq_append (S : List Nat) {m n : Nat} (h : m ≤ n) :
    ∃ t, notInUpTo S n = notInUpTo S m ++ t := by
  induction n with
  | zero => exact ⟨[], by simp [Nat.le_zero.mp h]⟩
  | succ n ih =>
    rcases Nat.lt_or_ge m (n + 1) with h' | h'
    · obtain ⟨t, ht⟩ := ih (Nat.lt_succ_iff.mp h')
      exact ⟨t ++ if n ∈ S then [] else [n], by
        rw [notInUpTo_succ, ht, List.append_assoc]⟩
    · have : m = n + 1 := Nat.le_antisymm h h'
      exact ⟨[], by simp [this]⟩

theorem cntNotBelow_mono (S : List Nat) {m n : Nat} (h : m ≤ n) :
    cntNotBelow S m ≤ cntNotBelow S n := by
  obtain ⟨t, ht⟩ := notInUpTo_eq_append S h
  simp [cntNotBelow, ht]

theorem getD_notInUpTo_agree {S : List Nat} {m n v : Nat} (h : m ≤ n)
    (hv : v < (notInUpTo S m).length) :
    (notInUpTo S n).getD v 0 = (notInUpTo S m).getD v 0 := by
  obtain ⟨t, ht⟩ := notInUpTo_eq_append S h
  rw [ht, List.getD_append _ _ _ _ hv]

theorem length_notInUpTo_ge (S : List Nat) (n : Nat) :
    n - S.length ≤ (notInUpTo S n).length := by
  have hsplit := List.length_eq_countP_add_countP (fun x => decide (x ∉ S)) (List.range n)
  have hmem : (List.range n).countP
      (fun a => decide (¬(decide (a ∉ S) = true))) ≤ S.length := by
    rw [List.countP_eq_length_filter]
    have hnd : ((List.range n).filter
        (fun a => decide (¬(decide (a ∉ S) = true)))).Nodup :=
      List.Nodup.sublist (List.filter_sublist _) (List.nodup_range n)
    have hsub : (List.range n).filter
        (fun a => decide (¬(decide (a ∉ S) = true))) ⊆ S := by
      intro a ha
      have := (List.mem_filter.mp ha).2
      simpa using this
    exact (hnd.subperm hsub).length_le
  have hlen : (notInUpTo S n).length = (List.range n).countP (fun x => decide (x ∉ S)) :=
    (List.countP_eq_length_filter _ _).symm
  have := List.length_range n
  omega

theorem cntNotBelow_succ_of_not_mem {S : List Nat} {x : Nat} (hx : x ∉ S) :
    cntNotBelow S (x + 1) = cntNotBelow S x + 1 := by
  simp [cntNotBelow, notInUpTo_succ, hx]

theorem getD_notInUpTo_of_not_mem {S : List Nat} {x n : Nat} (hx : x ∉ S) (hn : x < n) :
    (notInUpTo S n).getD (cntNotBelow S x) 0 = x := by
  obtain ⟨t, ht⟩ := notInUpTo_eq_append S (show x + 1 ≤ n from hn)
  rw [ht, notInUpTo_succ, if_neg hx, List.append_assoc]
  show (notInUpTo S x ++ ([x] ++ t)).getD (notInUpTo S x).length 0 = x
  rw [List.getD_append_right _ _ _ _ (Nat.le_refl _)]
  simp

theorem cntNotBelow_lt_length {S : List Nat} {x n : Nat} (hx : x ∉ S) (hn : x < n) :
    cntNotBelow S x < (notInUpTo S n).length := by
  obtain ⟨t, ht⟩ := notInUpTo_eq_append S (show x + 1 ≤ n from hn)
  rw [ht, notInUpTo_succ, if_neg hx]
  simp [cntNotBelow]

theorem window_lt (S : List Nat) (v : Nat) :
    v < (notInUpTo S (S.length + v + 1)).length := by
  have := length_notInUpTo_ge S (S.length + v + 1)
  omega

theorem nthNotIn_eq_getD {S : List Nat} {v n : Nat} (h : v < (notInUpTo S n).length) :
    nthNotIn S v = (notInUpTo S n).getD v 0 := by
  unfold nthNotIn
  rcases Nat.le_total n (S.length + v + 1) with h' | h'
  · exact getD_notInUpTo_agree h' h
  · exact (getD_notInUpTo_agree h' (window_lt S v)).symm

theorem nthNotIn_mem_window (S : List Nat) (v : Nat) :
    nthNotIn S v ∈ notInUpTo S (S.length + v + 1) := by
  have h := window_lt S v
  rw [nthNotIn, List.getD_eq_getElem _ _ h]
  exact List.getElem_mem h

theorem nthNotIn_not_mem (S : List Nat) (v : Nat) : nthNotIn S v ∉ S :=
  (mem_notInUpTo.mp (nthNotIn_mem_window S v)).2

theorem nthNotIn_lt_window (S : List Nat) (v : Nat) :
    nthNotIn S v < S.length + v + 1 :=
  (mem_notInUpTo.mp (nthNotIn_mem_window S v)).1

theorem cntNotBelow_nthNotIn (S : List Nat) (v : Nat) :
    cntNotBelow S (nthNotIn S v) = v := by
  have hx : nthNotIn S v ∉ S := nthNotIn_not_mem S v
  have hlt : nthNotIn S v < S.length + v + 1 := nthNotIn_lt_window S v
  have h1 := getD_notInUpTo_of_not_mem (n := S.length + v + 1) hx hlt
  have h2 : (notInUpTo S (S.length + v + 1)).getD v 0 = nthNotIn S v := rfl
  have hc : cntNotBelow S (nthNotIn S v) <
      (notInUpTo S (S.length + v + 1)).length := cntNotBelow_lt_length hx hlt
  have hv := window_lt S v
  rw [List.getD_eq_getElem _ _ hc] at h1
  rw [List.getD_eq_getElem _ _ hv] at h2
  exact ((notInUpTo_nodup S _).getElem_inj_iff).mp (h1.trans h2.symm)

theorem nthNotIn_eq_of_cnt {S : List Nat} {x v : Nat} (hx : x ∉ S)
    (hv : cntNotBelow S x = v) : nthNotIn S v = x := by
  have hxn : x < S.length + v + 1 + (x + 1) := by omega
  have h1 := getD_notInUpTo_of_not_mem (n := S.length + v + 1 + (x + 1)) hx hxn
  have hcl : cntNotBelow S x <
      (notInUpTo S (S.length + v + 1 + (x + 1))).length := cntNotBelow_lt_length hx hxn
  rw [hv] at h1 hcl
  rw [nthNotIn_eq_getD hcl, h1]

theorem nthNotIn_strictMono {S : List Nat} {v w : Nat} (h : v < w) :
    nthNotIn S v < nthNotIn S w := by
  rcases Nat.lt_or_ge (nthNotIn S v) (nthNotIn S w) with h' | h'
  · exact h'
  · exfalso
    have := cntNotBelow_mono S h'
    rw [cntNotBelow_nthNotIn, cntNotBelow_nthNotIn] at this
    omega

theorem nthNotIn_injective (S : List Nat) : Function.Injective (nthNotIn S) := by
  intro v w h
  rcases Nat.lt_trichotomy v w with h' | h' | h'
  · exact absurd h (Nat.ne_of_lt (nthNotIn_strictMono h'))
  · exact h'
  · exact absurd h.symm (Nat.ne_of_lt (nthNotIn_strictMono h'))

theorem nthNotIn_nil (v : Nat) : nthNotIn [] v = v := by
  apply nthNotIn_eq_of_cnt (by simp)
  simp [cntNotBelow, notInUpTo]

theorem notInUpTo_congr {S T : List Nat} (h : ∀ a, a ∈ S ↔ a ∈ T) (n : Nat) :
    notInUpTo S n = notInUpTo T n :=
  List.filter_congr fun a _ => by simp [h a]

theorem nthNotIn_congr {S T : List Nat} (h : ∀ a, a ∈ S ↔ a ∈ T) (v : Nat) :
    nthNotIn S v = nthNotIn T v := by
  have h1 : nthNotIn T v ∉ S := fun hc => nthNotIn_not_mem T v ((h _).mp hc)
  have h2 : cntNotBelow S (nthNotIn T v) = v := by
    have hST : cntNotBelow S (nthNotIn T v) = cntNotBelow T (nthNotIn T v) := by
      unfold cntNotBelow
      rw [notInUpTo_congr h]
    rw [hST, cntNotBelow_nthNotIn]
  exact nthNotIn_eq_of_cnt h1 h2

theorem cntNotBelow_strict {S : List Nat} {x y : Nat} (hx : x ∉ S) (h : x < y) :
    cntNotBelow S x < cntNotBelow S y := by
  have h1 := cntNotBelow_succ_of_not_mem hx
  have h2 := cntNotBelow_mono S (show x + 1 ≤ y from h)
  omega

/-- `nthNotIn S` maps the numbers below `w` avoiding `T` onto the numbers
below `nthNotIn S w` avoiding both `S` and the image of `T`. -/
theorem notInUpTo_comp (S T : List Nat) (w : Nat) :
    notInUpTo (T.map (nthNotIn S) ++ S) (nthNotIn S w) =
      (notInUpTo T w).map (nthNotIn S) := by
  haveI : IsAntisymm Nat (· < ·) := ⟨fun a b h1 h2 => absurd h1 (Nat.lt_asymm h2)⟩
  apply List.eq_of_perm_of_sorted (r := (· < ·))
  · apply (List.perm_ext_iff_of_nodup (notInUpTo_nodup _ _)
      ((notInUpTo_nodup T w).map (nthNotIn_injective S))).mpr
    intro u
    constructor
    · intro hu
      obtain ⟨hult, hnotin⟩ := mem_notInUpTo.mp hu
      have hus : u ∉ S := fun hc => hnotin (List.mem_append.mpr (Or.inr hc))
      have hut : u ∉ T.map (nthNotIn S) := fun hc =>
        hnotin (List.mem_append.mpr (Or.inl hc))
      refine List.mem_map.mpr ⟨cntNotBelow S u, ?_, nthNotIn_eq_of_cnt hus rfl⟩
      apply mem_notInUpTo.mpr
      refine ⟨?_, ?_⟩
      · have := cntNotBelow_strict hus hult
        rwa [cntNotBelow_nthNotIn] at this
      · intro hc
        exact hut (List.mem_map.mpr ⟨_, hc, nthNotIn_eq_of_cnt hus rfl⟩)
    · intro hu
      obtain ⟨v, hv, rfl⟩ := List.mem_map.mp hu
      obtain ⟨hvw, hvT⟩ := mem_notInUpTo.mp hv
      apply mem_notInUpTo.mpr
      refine ⟨nthNotIn_strictMono hvw, ?_⟩
      intro hc
      rcases List.mem_append.mp hc with hc | hc
      · obtain ⟨t, htT, ht⟩ := List.mem_map.mp hc
        exact hvT (nthNotIn_injective S ht ▸ htT)
      · exact nthNotIn_not_mem S v hc
  · exact notInUpTo_sorted _ _
  · exact List.Pairwise.map _ (fun a b h => nthNotIn_strictMono h) (notInUpTo_sorted T w)

theorem cntNotBelow_comp (S T : List Nat) (w : Nat) :
    cntNotBelow (T.map (nthNotIn S) ++ S) (nthNotIn S w) = cntNotBelow T w := by
  unfold cntNotBelow
  rw [notInUpTo_comp]
  simp

theorem nthNotIn_comp (S T : List Nat) (w : Nat) :
    nthNotIn (T.map (nthNotIn S) ++ S) w = nthNotIn S (nthNotIn T w) := by
  apply nthNotIn_eq_of_cnt
  · intro hc
    rcases List.mem_append.mp hc with hc | hc
    · obtain ⟨t, ht, heq⟩ := List.mem_map.mp hc
      exact nthNotIn_not_mem T w (nthNotIn_injective S heq ▸ ht)
    · exact nthNotIn_not_mem S _ hc
  · rw [cntNotBelow_comp, cntNotBelow_nthNotIn]

theorem decodeP_length (t ws : List Nat) : (decodeP t ws).length = ws.length := by
  induction ws generalizing t with
  | nil => rfl
  | cons w ws ih => simp [decodeP, ih]

theorem decodeP_congr {t₁ t₂ : List Nat} (h : ∀ a, a ∈ t₁ ↔ a ∈ t₂) (ws : List Nat) :
    decodeP t₁ ws = decodeP t₂ ws := by
  induction ws generalizing t₁ t₂ with
  | nil => rfl
  | cons w ws ih =>
    simp only [decodeP]
    have hn := nthNotIn_congr h w
    rw [hn]
    congr 1
    apply ih
    intro a
    simp [h a]

theorem decodeP_append (t vs ws : List Nat) :
    decodeP t (vs ++ ws) =
      decodeP t vs ++ decodeP ((decodeP t vs).reverse ++ t) ws := by
  induction vs generalizing t with
  | nil => simp [decodeP]
  | cons v vs ih =>
    simp only [decodeP, List.cons_append, List.append_eq]
    rw [ih]
    simp [List.append_assoc]

/-- Decoding against taken-set `map (nthNotIn S) t ++ S` is decoding fresh
against `t` followed by transport along `nthNotIn S`. -/
theorem decodeP_map (S t ws : List Nat) :
    decodeP (t.map (nthNotIn S) ++ S) ws = (decodeP t ws).map (nthNotIn S) := by
  induction ws generalizing t with
  | nil => rfl
  | cons w ws ih =>
    simp only [decodeP, List.map_cons]
    rw [nthNotIn_comp]
    congr 1
    have := ih (nthNotIn t w :: t)
    simpa using this

theorem decodeP_not_mem_taken {t ws : List Nat} {p : Nat} (hp : p ∈ decodeP t ws) :
    p ∉ t := by
  induction ws generalizing t with
  | nil => simp [decodeP] at hp
  | cons w ws ih =>
    simp only [decodeP, List.mem_cons] at hp
    rcases hp with rfl | hp
    · exact nthNotIn_not_mem t w
    · intro hc
      exact ih hp (List.mem_cons_of_mem _ hc)

theorem decodeP_nodup (t ws : List Nat) : (decodeP t ws).Nodup := by
  induction ws generalizing t with
  | nil => exact List.nodup_nil
  | cons w ws ih =>
    refine List.nodup_cons.mpr ⟨?_, ih _⟩
    intro hc
    exact decodeP_not_mem_taken hc (List.mem_cons_self _ _)

/-! ### Sorting lemmas for `sortByKey` -/

theorem insertByKey_perm (e : KeyedPtr) (l : List KeyedPtr) :
    (insertByKey e l).Perm (e :: l) := by
  induction l with
  | nil => exact List.Perm.refl _
  | cons x xs ih =>
    by_cases h : e.key ≤ x.key
    · simp [insertByKey, h]
    · simp only [insertByKey, if_neg h]
      exact (ih.cons x).trans (List.Perm.swap e x xs)

theorem sortByKey_perm (l : List KeyedPtr) : (sortByKey l).Perm l := by
  induction l with
  | nil => exact List.Perm.refl _
  | cons x xs ih => exact (insertByKey_perm x (sortByKey xs)).trans (ih.cons x)

theorem insertByKey_sorted {e : KeyedPtr} {l : List KeyedPtr}
    (h : List.Pairwise (fun a b => a.key ≤ b.key) l) :
    List.Pairwise (fun a b => a.key ≤ b.key) (insertByKey e l) := by
  induction l with
  | nil => simp [insertByKey]
  | cons x xs ih =>
    by_cases hc : e.key ≤ x.key
    · simp only [insertByKey, if_pos hc]
      refine List.Pairwise.cons ?_ h
      intro b hb
      rcases List.mem_cons.mp hb with rfl | hb
      · exact hc
      · exact Nat.le_trans hc (List.rel_of_pairwise_cons h hb)
    · simp only [insertByKey, if_neg hc]
      refine List.Pairwise.cons ?_ (ih (List.Pairwise.sublist (List.sublist_cons_self x xs) h))
      intro b hb
      have hperm := insertByKey_perm e xs
      rcases List.mem_cons.mp (hperm.mem_iff.mp hb) with rfl | hb
      · exact Nat.le_of_lt (Nat.lt_of_not_le hc)
      · exact List.rel_of_pairwise_cons h hb

theorem sortByKey_sorted (l : List KeyedPtr) :
    List.Pairwise (fun a b => a.key ≤ b.key) (sortByKey l) := by
  induction l with
  | nil => exact List.Pairwise.nil
  | cons x xs ih => exact insertByKey_sorted ih

theorem pairwise_key_lt_of_le_nodup {l : List KeyedPtr}
    (hs : List.Pairwise (fun a b => a.key ≤ b.key) l)
    (hnd : (l.map KeyedPtr.key).Nodup) :
    List.Pairwise (fun a b => a.key < b.key) l := by
  have hne : List.Pairwise (fun a b : KeyedPtr => a.key ≠ b.key) l :=
    (List.pairwise_map).mp hnd
  exact (hs.and hne).imp (fun h => Nat.lt_of_le_of_ne h.1 h.2)

theorem eq_of_perm_of_keySorted {l₁ l₂ : List KeyedPtr} (hp : l₁.Perm l₂)
    (h₁ : List.Pairwise (fun a b => a.key < b.key) l₁)
    (h₂ : List.Pairwise (fun a b => a.key < b.key) l₂) : l₁ = l₂ := by
  haveI : IsAntisymm KeyedPtr (fun a b => a.key < b.key) :=
    ⟨fun a b h1 h2 => absurd (Nat.lt_trans h1 h2) (Nat.lt_irrefl _)⟩
  exact List.eq_of_perm_of_sorted hp h₁ h₂

/-- `sortByKey` of a list with pairwise-distinct keys is strictly sorted. -/
theorem sortByKey_pairwise_lt {l : List KeyedPtr}
    (hnd : (l.map KeyedPtr.key).Nodup) :
    List.Pairwise (fun a b => a.key < b.key) (sortByKey l) := by
  apply pairwise_key_lt_of_le_nodup (sortByKey_sorted l)
  have : ((sortByKey l).map KeyedPtr.key).Perm (l.map KeyedPtr.key) :=
    (sortByKey_perm l).map _
  exact this.nodup_iff.mpr hnd

/-! ### Counting lemmas for the merge invariant -/

theorem u16sub_eq {a d : Nat} (hd : d ≤ a) (ha : a < 65536) :
    u16sub a d = a - d := by
  unfold u16sub
  have hd' : d % 65536 = d := Nat.mod_eq_of_lt (by omega)
  rw [hd']
  have h1 : a + (65536 - d) = 65536 + (a - d) := by omega
  rw [h1, Nat.add_mod_left]
  exact Nat.mod_eq_of_lt (by omega)

theorem length_le_cntNotBelow {em S : List Nat} {x : Nat} (hnd : em.Nodup)
    (h : ∀ k ∈ em, k < x ∧ k ∉ S) : em.length ≤ cntNotBelow S x := by
  have hsub : em ⊆ notInUpTo S x := fun a ha =>
    mem_notInUpTo.mpr ⟨(h a ha).1, (h a ha).2⟩
  exact (hnd.subperm hsub).length_le

theorem length_eq_of_same_mem {l₁ l₂ : List Nat} (h₁ : l₁.Nodup) (h₂ : l₂.Nodup)
    (h : ∀ a, a ∈ l₁ ↔ a ∈ l₂) : l₁.length = l₂.length :=
  ((List.perm_ext_iff_of_nodup h₁ h₂).mpr h).length_eq

/-- Splitting the count of non-`PL` naturals below `x` by membership in `KR`:
when `em` collects exactly the members of `KR` below `x` (and `KR` avoids
`PL`), the non-`PL` count below `x` is the non-`(PL ++ KR)` count plus
`em.length`. -/
theorem cntNotBelow_append_split {PL KR em : List Nat} {x : Nat}
    (hdisj : ∀ k ∈ KR, k ∉ PL) (hem : ∀ k ∈ em, k ∈ KR) (hnd : em.Nodup)
    (hlt : ∀ k ∈ em, k < x) (hcompl : ∀ k ∈ KR, k < x → k ∈ em) :
    cntNotBelow PL x = cntNotBelow (PL ++ KR) x + em.length := by
  have hsplit := List.length_eq_countP_add_countP
    (fun a => decide (a ∉ KR)) (notInUpTo PL x)
  have h1 : (notInUpTo PL x).countP (fun a => decide (a ∉ KR)) =
      cntNotBelow (PL ++ KR) x := by
    rw [List.countP_eq_length_filter]
    unfold cntNotBelow notInUpTo
    rw [List.filter_filter]
    congr 1
    apply List.filter_congr
    intro a _
    by_cases h1 : a ∈ KR <;> by_cases h2 : a ∈ PL <;>
      simp [h1, h2, List.mem_append]
  have h2 : (notInUpTo PL x).countP
      (fun a => decide (¬(decide (a ∉ KR) = true))) = em.length := by
    rw [List.countP_eq_length_filter]
    apply length_eq_of_same_mem
      (List.Nodup.sublist (List.filter_sublist _) (notInUpTo_nodup _ _)) hnd
    intro a
    constructor
    · intro ha
      have hmem := List.mem_filter.mp ha
      have h3 : a ∈ KR := by simpa using hmem.2
      have h4 := mem_notInUpTo.mp hmem.1
      exact hcompl a h3 h4.1
    · intro ha
      apply List.mem_filter.mpr
      refine ⟨mem_notInUpTo.mpr ⟨hlt a ha, hdisj a (hem a ha)⟩, by simpa using hem a ha⟩
  have hc : cntNotBelow PL x = (notInUpTo PL x).length := rfl
  omega

theorem sortByKey_eq_self_of_sorted {l : List KeyedPtr}
    (h : List.Pairwise (fun a b => a.key < b.key) l) : sortByKey l = l := by
  have hnd : (l.map KeyedPtr.key).Nodup :=
    List.pairwise_map.mpr (h.imp fun hab => Nat.ne_of_lt hab)
  exact eq_of_perm_of_keySorted (sortByKey_perm l) (sortByKey_pairwise_lt hnd) h

/-- Pulling a minimal element out of `sortByKey`. -/
theorem sortByKey_extract_min {m : KeyedPtr} {l₁ l₂ : List KeyedPtr}
    (hmin : ∀ e ∈ l₁ ++ l₂, m.key < e.key)
    (hnd : ((l₁ ++ l₂).map KeyedPtr.key).Nodup) :
    sortByKey (l₁ ++ m :: l₂) = m :: sortByKey (l₁ ++ l₂) := by
  have hndm : ((l₁ ++ m :: l₂).map KeyedPtr.key).Nodup := by
    have hperm : (l₁ ++ m :: l₂).Perm (m :: (l₁ ++ l₂)) := List.perm_middle
    apply (hperm.map KeyedPtr.key).nodup_iff.mpr
    simp only [List.map_cons]
    refine List.nodup_cons.mpr ⟨?_, hnd⟩
    intro hc
    obtain ⟨e, he, heq⟩ := List.mem_map.mp hc
    exact absurd heq.symm (Nat.ne_of_lt (hmin e he))
  apply eq_of_perm_of_keySorted
  · exact (sortByKey_perm _).trans
      (List.perm_middle.trans ((sortByKey_perm (l₁ ++ l₂)).cons m).symm)
  · exact sortByKey_pairwise_lt hndm
  · refine List.Pairwise.cons ?_ (sortByKey_pairwise_lt hnd)
    intro e he
    exact hmin e ((sortByKey_perm _).mem_iff.mp he)

/-- Keys drawn from disjoint pools give duplicate-free key lists. -/
theorem keys_nodup_append {PL KR : List Nat} (hKRd : ∀ k ∈ KR, k ∉ PL)
    {l₁ l₂ : List KeyedPtr} (h₁ : ∀ e ∈ l₁, e.key ∈ PL) (h₂ : ∀ e ∈ l₂, e.key ∈ KR)
    (nd₁ : (l₁.map KeyedPtr.key).Nodup) (nd₂ : (l₂.map KeyedPtr.key).Nodup) :
    ((l₁ ++ l₂).map KeyedPtr.key).Nodup := by
  rw [List.map_append]
  apply nd₁.append nd₂
  intro a ha hb
  obtain ⟨e, he, rfl⟩ := List.mem_map.mp ha
  obtain ⟨e', he', heq⟩ := List.mem_map.mp hb
  exact hKRd e.key (heq ▸ h₂ e' he') (h₁ e he)

/-- The central merge invariant behind `tweak_sort`.  The left half `X` and
right half `Y` carry their original cache positions as ghost keys; `PL` is
the pool of left keys and `KR` the pool of right keys (disjoint from `PL`).
`mergeStep` is fed

* the left elements with index `cntNotBelow PL key` — the value the
  recursive call on the left half produced — and
* the right elements with index `cntNotBelow (PL ++ KR) key` — their final
  value — and
* the count `em.length` of right elements already emitted, every one of
  whose keys (collected in `em`) lies below all pending keys.

It merges by ghost key and rewrites every left index to its final value
`cntNotBelow (PL ++ KR) key`. -/
theorem mergeStep_ghost (PL KR : List Nat) (hKRd : ∀ k ∈ KR, k ∉ PL) :
    ∀ (n : Nat) (X Y : List KeyedPtr) (em : List Nat),
      X.length + Y.length ≤ n →
      List.Pairwise (fun a b => a.key < b.key) X →
      List.Pairwise (fun a b => a.key < b.key) Y →
      (∀ x ∈ X, x.key ∈ PL) →
      (∀ y ∈ Y, y.key ∈ KR) →
      em.Nodup →
      (∀ k ∈ em, k ∈ KR) →
      (∀ k ∈ KR, k ∈ em ∨ k ∈ Y.map KeyedPtr.key) →
      (∀ k ∈ em, ∀ x ∈ X, k < x.key) →
      (∀ k ∈ em, ∀ y ∈ Y, k < y.key) →
      (∀ x ∈ X, cntNotBelow PL x.key < 65536) →
      mergeStep (X.map fun e => ⟨cntNotBelow PL e.key, e.pos⟩)
          (Y.map fun e => ⟨cntNotBelow (PL ++ KR) e.key, e.pos⟩) em.length
        = (sortByKey (X ++ Y)).map fun e => ⟨cntNotBelow (PL ++ KR) e.key, e.pos⟩ := by
  intro n
  induction n with
  | zero =>
    intro X Y em hlen _ _ _ _ _ _ _ _ _ _
    have hX : X = [] := List.length_eq_zero.mp (by omega)
    have hY : Y = [] := List.length_eq_zero.mp (by omega)
    subst hX; subst hY
    rfl
  | succ n ih =>
    intro X Y em hlen hXs hYs hXP hYK hemnd hemK hpart hemX hemY hX16
    cases X with
    | nil =>
      simp only [List.map_nil, mergeStep, List.nil_append]
      rw [sortByKey_eq_self_of_sorted hYs]
    | cons x xs =>
      have hxPL : x.key ∈ PL := hXP x (List.mem_cons_self _ _)
      have hxs_gt : ∀ e ∈ xs, x.key < e.key := fun e he =>
        List.rel_of_pairwise_cons hXs he
      have hXs_tail : List.Pairwise (fun a b => a.key < b.key) xs :=
        List.Pairwise.sublist (List.sublist_cons_self x xs) hXs
      have hXP_tail : ∀ e ∈ xs, e.key ∈ PL := fun e he =>
        hXP e (List.mem_cons_of_mem _ he)
      have hemX_tail : ∀ k ∈ em, ∀ e ∈ xs, k < e.key := fun k hk e he =>
        hemX k hk e (List.mem_cons_of_mem _ he)
      have hX16_tail : ∀ e ∈ xs, cntNotBelow PL e.key < 65536 := fun e he =>
        hX16 e (List.mem_cons_of_mem _ he)
      have hXknd_tail : (xs.map KeyedPtr.key).Nodup :=
        List.pairwise_map.mpr (hXs_tail.imp fun hab => Nat.ne_of_lt hab)
      have hYknd : (Y.map KeyedPtr.key).Nodup :=
        List.pairwise_map.mpr (hYs.imp fun hab => Nat.ne_of_lt hab)
      have hd_le_a : em.length ≤ cntNotBelow PL x.key := by
        apply length_le_cntNotBelow hemnd
        intro k hk
        exact ⟨hemX k hk x (List.mem_cons_self _ _), hKRd k (hemK k hk)⟩
      have ha16 : cntNotBelow PL x.key < 65536 := hX16 x (List.mem_cons_self _ _)
      cases Y with
      | nil =>
        -- right half exhausted: every left element is decremented by the
        -- full right count
        have hcompl : ∀ k ∈ KR, k < x.key → k ∈ em := by
          intro k hk _
          rcases hpart k hk with h | h
          · exact h
          · simp at h
        have hsplit := cntNotBelow_append_split hKRd hemK hemnd
          (fun k hk => hemX k hk x (List.mem_cons_self _ _)) hcompl
        show (⟨u16sub (cntNotBelow PL x.key) em.length, x.pos⟩ : IndexPtr) ::
            mergeStep (xs.map fun e => ⟨cntNotBelow PL e.key, e.pos⟩) [] em.length
          = (sortByKey ((x :: xs) ++ [])).map
              fun e => ⟨cntNotBelow (PL ++ KR) e.key, e.pos⟩
        rw [u16sub_eq hd_le_a ha16]
        have hxval : cntNotBelow PL x.key - em.length =
            cntNotBelow (PL ++ KR) x.key := by omega
        rw [hxval]
        have hrec := ih xs [] em (by simp at hlen ⊢; omega) hXs_tail
          List.Pairwise.nil hXP_tail (by simp) hemnd hemK
          (by simpa using hpart) hemX_tail (by simp) hX16_tail
        simp only [List.map_nil] at hrec
        rw [hrec]
        have hex : sortByKey ((x :: xs) ++ ([] : List KeyedPtr)) =
            x :: sortByKey (xs ++ []) := by
          have h := @sortByKey_extract_min x ([] : List KeyedPtr) (xs ++ [])
            (by intro e he; simp at he; exact hxs_gt e he)
            (by simpa using hXknd_tail)
          simpa using h
        rw [hex]
        simp
      | cons y ys =>
        have hyKR : y.key ∈ KR := hYK y (List.mem_cons_self _ _)
        have hys_gt : ∀ e ∈ ys, y.key < e.key := fun e he =>
          List.rel_of_pairwise_cons hYs he
        have hYs_tail : List.Pairwise (fun a b => a.key < b.key) ys :=
          List.Pairwise.sublist (List.sublist_cons_self y ys) hYs
        have hYK_tail : ∀ e ∈ ys, e.key ∈ KR := fun e he =>
          hYK e (List.mem_cons_of_mem _ he)
        have hYknd_tail : (ys.map KeyedPtr.key).Nodup :=
          List.pairwise_map.mpr (hYs_tail.imp fun hab => Nat.ne_of_lt hab)
        have hxy_ne : x.key ≠ y.key := fun h => hKRd y.key hyKR (h ▸ hxPL)
        show (if mergeGuard (cntNotBelow PL x.key) em.length
              (cntNotBelow (PL ++ KR) y.key) = true then
            (⟨u16sub (cntNotBelow PL x.key) em.length, x.pos⟩ : IndexPtr) ::
              mergeStep (xs.map fun e => ⟨cntNotBelow PL e.key, e.pos⟩)
                ((⟨cntNotBelow (PL ++ KR) y.key, y.pos⟩ : IndexPtr) ::
                  ys.map fun e => ⟨cntNotBelow (PL ++ KR) e.key, e.pos⟩) em.length
          else
            (⟨cntNotBelow (PL ++ KR) y.key, y.pos⟩ : IndexPtr) ::
              mergeStepR ⟨cntNotBelow PL x.key, x.pos⟩
                (mergeStep (xs.map fun e => ⟨cntNotBelow PL e.key, e.pos⟩))
                (ys.map fun e => ⟨cntNotBelow (PL ++ KR) e.key, e.pos⟩)
                (em.length + 1))
          = (sortByKey ((x :: xs) ++ y :: ys)).map
              fun e => ⟨cntNotBelow (PL ++ KR) e.key, e.pos⟩
        rcases Nat.lt_or_ge x.key y.key with hxy | hxy'
        · -- the left head has the smaller key: the guard accepts it
          have hcompl : ∀ k ∈ KR, k < x.key → k ∈ em := by
            intro k hk hklt
            rcases hpart k hk with h | h
            · exact h
            · exfalso
              simp only [List.map_cons, List.mem_cons] at h
              rcases h with h | h
              · omega
              · obtain ⟨e, he, rfl⟩ := List.mem_map.mp h
                have := hys_gt e he
                omega
          have hsplit := cntNotBelow_append_split hKRd hemK hemnd
            (fun k hk => hemX k hk x (List.mem_cons_self _ _)) hcompl
          have hmono := cntNotBelow_mono (PL ++ KR) (Nat.le_of_lt hxy)
          have hguard : mergeGuard (cntNotBelow PL x.key) em.length
              (cntNotBelow (PL ++ KR) y.key) = true := by
            unfold mergeGuard
            rw [if_neg (by omega : ¬cntNotBelow PL x.key < em.length)]
            simp only [decide_eq_true_eq]
            omega
          rw [if_pos hguard, u16sub_eq hd_le_a ha16]
          have hxval : cntNotBelow PL x.key - em.length =
              cntNotBelow (PL ++ KR) x.key := by omega
          rw [hxval]
          have hrec := ih xs (y :: ys) em (by simp at hlen ⊢; omega) hXs_tail
            hYs hXP_tail hYK hemnd hemK hpart hemX_tail hemY hX16_tail
          simp only [List.map_cons] at hrec
          rw [hrec]
          have hmin : ∀ e ∈ xs ++ y :: ys, x.key < e.key := by
            intro e he
            rcases List.mem_append.mp he with he | he
            · exact hxs_gt e he
            · rcases List.mem_cons.mp he with rfl | he
              · exact hxy
              · exact Nat.lt_trans hxy (hys_gt e he)
          have hndr : ((xs ++ y :: ys).map KeyedPtr.key).Nodup :=
            keys_nodup_append hKRd hXP_tail hYK hXknd_tail hYknd
          have hex : sortByKey ((x :: xs) ++ y :: ys) =
              x :: sortByKey (xs ++ y :: ys) := by
            have h := @sortByKey_extract_min x ([] : List KeyedPtr)
              (xs ++ y :: ys) (by simpa using hmin) (by simpa using hndr)
            simpa using h
          rw [hex]
          simp
        · -- the right head has the smaller key: the guard rejects the left
          have hyx : y.key < x.key := Nat.lt_of_le_of_ne hxy' (Ne.symm hxy_ne)
          have hynotem : y.key ∉ em := fun hc =>
            absurd (hemY y.key hc y (List.mem_cons_self _ _)) (Nat.lt_irrefl _)
          have hbig : cntNotBelow (PL ++ KR) y.key + em.length + 1 ≤
              cntNotBelow PL x.key := by
            have hWnd : (notInUpTo (PL ++ KR) y.key ++ (em ++ [y.key])).Nodup := by
              apply List.Nodup.append (notInUpTo_nodup _ _)
              · apply List.Nodup.append hemnd (List.nodup_singleton _)
                intro a ha hb
                rcases List.mem_singleton.mp hb with rfl
                exact hynotem ha
              · intro a ha hb
                have h1 := (mem_notInUpTo.mp ha).2
                rcases List.mem_append.mp hb with hb | hb
                · exact h1 (List.mem_append.mpr (Or.inr (hemK a hb)))
                · rcases List.mem_singleton.mp hb with rfl
                  exact h1 (List.mem_append.mpr (Or.inr hyKR))
            have hWsub : (notInUpTo (PL ++ KR) y.key ++ (em ++ [y.key])) ⊆
                notInUpTo PL x.key := by
              intro a ha
              apply mem_notInUpTo.mpr
              rcases List.mem_append.mp ha with ha | ha
              · obtain ⟨h1, h2⟩ := mem_notInUpTo.mp ha
                exact ⟨Nat.lt_trans h1 hyx,
                  fun hc => h2 (List.mem_append.mpr (Or.inl hc))⟩
              · rcases List.mem_append.mp ha with ha | ha
                · exact ⟨hemX a ha x (List.mem_cons_self _ _),
                    hKRd a (hemK a ha)⟩
                · rcases List.mem_singleton.mp ha with rfl
                  exact ⟨hyx, hKRd _ hyKR⟩
            have hle := (hWnd.subperm hWsub).length_le
            have h1 : (notInUpTo (PL ++ KR) y.key ++ (em ++ [y.key])).length =
                cntNotBelow (PL ++ KR) y.key + em.length + 1 := by
              simp [cntNotBelow]
              omega
            have h2 : (notInUpTo PL x.key).length = cntNotBelow PL x.key := rfl
            omega
          have hguard : mergeGuard (cntNotBelow PL x.key) em.length
              (cntNotBelow (PL ++ KR) y.key) = false := by
            unfold mergeGuard
            rw [if_neg (by omega : ¬cntNotBelow PL x.key < em.length)]
            simp only [decide_eq_false_iff_not]
            omega
          rw [if_neg (by simp [hguard])]
          have hrec := ih (x :: xs) ys (y.key :: em)
            (by simp at hlen ⊢; omega) hXs hYs_tail hXP hYK_tail
            (List.nodup_cons.mpr ⟨hynotem, hemnd⟩)
            (by
              intro k hk
              rcases List.mem_cons.mp hk with rfl | hk
              · exact hyKR
              · exact hemK k hk)
            (by
              intro k hk
              rcases hpart k hk with h | h
              · exact Or.inl (List.mem_cons_of_mem _ h)
              · simp only [List.map_cons, List.mem_cons] at h
                rcases h with h | h
                · exact Or.inl (h ▸ List.mem_cons_self _ _)
                · exact Or.inr h)
            (by
              intro k hk e he
              rcases List.mem_cons.mp hk with rfl | hk
              · rcases List.mem_cons.mp he with rfl | he
                · exact hyx
                · exact Nat.lt_trans hyx (hxs_gt e he)
              · exact hemX k hk e he)
            (by
              intro k hk e he
              rcases List.mem_cons.mp hk with rfl | hk
              · exact hys_gt e he
              · exact hemY k hk e (List.mem_cons_of_mem _ he))
            hX16
          simp only [List.map_cons] at hrec
          rw [show mergeStepR (⟨cntNotBelow PL x.key, x.pos⟩ : IndexPtr)
              (mergeStep (xs.map fun e => ⟨cntNotBelow PL e.key, e.pos⟩))
              (ys.map fun e => ⟨cntNotBelow (PL ++ KR) e.key, e.pos⟩)
              (em.length + 1)
            = (sortByKey ((x :: xs) ++ ys)).map
                (fun e => (⟨cntNotBelow (PL ++ KR) e.key, e.pos⟩ : IndexPtr))
            from hrec]
          have hmin : ∀ e ∈ (x :: xs) ++ ys, y.key < e.key := by
            intro e he
            rcases List.mem_append.mp he with he | he
            · rcases List.mem_cons.mp he with rfl | he
              · exact hyx
              · exact Nat.lt_trans hyx (hxs_gt e he)
            · exact hys_gt e he
          have hndr : (((x :: xs) ++ ys).map KeyedPtr.key).Nodup :=
            keys_nodup_append hKRd hXP hYK_tail
              (List.pairwise_map.mpr (hXs.imp fun hab => Nat.ne_of_lt hab))
              hYknd_tail
          have hex : sortByKey ((x :: xs) ++ y :: ys) =
              y :: sortByKey ((x :: xs) ++ ys) :=
            @sortByKey_extract_min y (x :: xs) ys hmin hndr
          rw [hex]
          simp

/-! ### Assembling the `tweak_sort` characterization -/

theorem cntNotBelow_anti {t S : List Nat} (h : ∀ a ∈ t, a ∈ S) (x : Nat) :
    cntNotBelow S x ≤ cntNotBelow t x := by
  unfold cntNotBelow notInUpTo
  rw [← List.countP_eq_length_filter, ← List.countP_eq_length_filter]
  apply List.countP_mono_left
  intro a _ ha
  simp only [decide_eq_true_eq] at ha ⊢
  exact fun hc => ha (h a hc)

theorem cntNotBelow_congr {S T : List Nat} (h : ∀ a, a ∈ S ↔ a ∈ T) (x : Nat) :
    cntNotBelow S x = cntNotBelow T x := by
  unfold cntNotBelow
  rw [notInUpTo_congr h]

/-- With a duplicate-free removal set, "position minus rank" is exactly the
count of surviving positions below. -/
theorem adjustKey_eq_cntNotBelow {S : List Nat} (hS : S.Nodup) (e : KeyedPtr) :
    adjustKey S e = ⟨cntNotBelow S e.key, e.pos⟩ := by
  unfold adjustKey
  congr 1
  have hsplit : cntBelow S e.key + cntNotBelow S e.key = e.key := by
    have h1 : cntBelow S e.key =
        ((List.range e.key).filter (fun a => decide (a ∈ S))).length := by
      apply length_eq_of_same_mem
        (hS.sublist (List.filter_sublist _))
        (List.Nodup.sublist (List.filter_sublist _) (List.nodup_range _))
      intro a
      simp only [List.mem_filter, List.mem_range, decide_eq_true_eq, cntBelow]
      tauto
    have h2 := List.length_eq_countP_add_countP
      (fun a => decide (a ∈ S)) (List.range e.key)
    have h3 : (List.range e.key).countP (fun a => decide (a ∈ S)) =
        ((List.range e.key).filter (fun a => decide (a ∈ S))).length :=
      List.countP_eq_length_filter _ _
    have h4 : (List.range e.key).countP
        (fun a => decide (¬(decide (a ∈ S) = true))) =
        cntNotBelow S e.key := by
      rw [List.countP_eq_length_filter]
      unfold cntNotBelow notInUpTo
      congr 1
      apply List.filter_congr
      intro a _
      by_cases hc : a ∈ S <;> simp [hc]
    have h5 := List.length_range e.key
    unfold cntBelow at *
    omega
  omega

theorem keys_zipWith_mk (ks ps : List Nat) (h : ks.length ≤ ps.length) :
    (List.zipWith (fun k p => (⟨k, p⟩ : KeyedPtr)) ks ps).map KeyedPtr.key = ks := by
  induction ks generalizing ps with
  | nil => rfl
  | cons k ks ih =>
    cases ps with
    | nil => simp at h
    | cons p ps =>
      simp only [List.length_cons] at h
      simp [ih ps (by omega)]

theorem annotate_keys (l : List IndexPtr) :
    (annotate l).map KeyedPtr.key = decodeP [] (l.map IndexPtr.index) := by
  apply keys_zipWith_mk
  rw [decodeP_length]
  simp

theorem zipWith_mk_map_left (f : Nat → Nat) (ks ps : List Nat) :
    List.zipWith (fun k p => (⟨k, p⟩ : KeyedPtr)) (ks.map f) ps =
      (List.zipWith (fun k p => (⟨k, p⟩ : KeyedPtr)) ks ps).map
        (fun e => ⟨f e.key, e.pos⟩) := by
  induction ks generalizing ps with
  | nil => rfl
  | cons k ks ih =>
    cases ps with
    | nil => rfl
    | cons p ps => simp [ih]

/-- `sortByKey` only depends on the multiset of elements, provided the keys
are pairwise distinct. -/
theorem sortByKey_perm_congr {l₁ l₂ : List KeyedPtr} (hp : l₁.Perm l₂)
    (hnd : (l₁.map KeyedPtr.key).Nodup) : sortByKey l₁ = sortByKey l₂ := by
  have hnd₂ : (l₂.map KeyedPtr.key).Nodup := ((hp.map _).nodup_iff).mp hnd
  exact eq_of_perm_of_keySorted
    ((sortByKey_perm l₁).trans (hp.trans (sortByKey_perm l₂).symm))
    (sortByKey_pairwise_lt hnd) (sortByKey_pairwise_lt hnd₂)

/-- Every decoded position, measured against a superset `S` of the taken set
that still contains all decoded positions, has index below the wire index it
came from; in particular below `2^16` for `uint16_t` wire indices. -/
theorem zipWith_decode_key_bound :
    ∀ (vs ps t S : List Nat), (∀ a ∈ t, a ∈ S) →
      (∀ p ∈ decodeP t vs, p ∈ S) → (∀ v ∈ vs, v < 65536) →
      ∀ e ∈ List.zipWith (fun k p => (⟨k, p⟩ : KeyedPtr)) (decodeP t vs) ps,
        cntNotBelow S e.key < 65536 := by
  intro vs
  induction vs with
  | nil =>
    intro ps t S _ _ _ e he
    simp [decodeP] at he
  | cons v vs ih =>
    intro ps t S hts hds hv e he
    cases ps with
    | nil => simp at he
    | cons p ps =>
      simp only [decodeP, List.zipWith_cons_cons, List.mem_cons] at he
      rcases he with rfl | he
      · have h1 : cntNotBelow S (nthNotIn t v) ≤ cntNotBelow t (nthNotIn t v) :=
          cntNotBelow_anti hts _
        rw [cntNotBelow_nthNotIn] at h1
        have := hv v (List.mem_cons_self _ _)
        simp only []
        omega
      · apply ih ps (nthNotIn t v :: t) S ?_ ?_
          (fun w hw => hv w (List.mem_cons_of_mem _ hw)) e he
        · intro a ha
          rcases List.mem_cons.mp ha with rfl | ha
          · exact hds _ (by simp [decodeP])
          · exact hts a ha
        · intro q hq
          exact hds q (by simp [decodeP, hq])

/-- Merging the tweak-specs of two wire segments yields the tweak-spec of the
concatenation: the heart of the `tweak_sort` characterization. -/
theorem mergeStep_spec_append (L R : List IndexPtr)
    (hL : ∀ e ∈ L, e.index < 65536) (_hR : ∀ e ∈ R, e.index < 65536) :
    mergeStep (tweakSpec L) (tweakSpec R) 0 = tweakSpec (L ++ R) := by
  set PL := decodeP [] (L.map IndexPtr.index) with hPLdef
  set QR := decodeP [] (R.map IndexPtr.index) with hQRdef
  set KR := QR.map (nthNotIn PL) with hKRdef
  have hPLnd : PL.Nodup := decodeP_nodup _ _
  have hQRnd : QR.Nodup := decodeP_nodup _ _
  have hKRnd : KR.Nodup := hQRnd.map (nthNotIn_injective PL)
  have hKRd : ∀ k ∈ KR, k ∉ PL := by
    intro k hk
    obtain ⟨q, _, rfl⟩ := List.mem_map.mp hk
    exact nthNotIn_not_mem PL q
  have hdecomb : decodeP [] ((L ++ R).map IndexPtr.index) = PL ++ KR := by
    rw [List.map_append, decodeP_append]
    have hdm := decodeP_map PL [] (R.map IndexPtr.index)
    simp only [List.map_nil, List.nil_append] at hdm
    have hcg := @decodeP_congr (PL.reverse ++ ([] : List Nat)) PL
      (fun a => by simp) (R.map IndexPtr.index)
    rw [hcg, hdm]
  have hann : annotate (L ++ R) =
      annotate L ++ (annotate R).map
        (fun e => (⟨nthNotIn PL e.key, e.pos⟩ : KeyedPtr)) := by
    unfold annotate
    rw [hdecomb, List.map_append,
      List.zipWith_append _ _ _ _ _ (by simp [hPLdef, decodeP_length])]
    congr 1
    rw [hKRdef]
    exact zipWith_mk_map_left _ _ _
  have hannLk : (annotate L).map KeyedPtr.key = PL := annotate_keys L
  have hannRk : (annotate R).map KeyedPtr.key = QR := annotate_keys R
  have hXdef : tweakSpec L = (sortByKey (annotate L)).map
      (fun e => (⟨cntNotBelow PL e.key, e.pos⟩ : IndexPtr)) := by
    unfold tweakSpec
    exact List.map_congr_left (fun e _ => adjustKey_eq_cntNotBelow hPLnd e)
  have hYdef : tweakSpec R = ((sortByKey (annotate R)).map
      (fun e => (⟨nthNotIn PL e.key, e.pos⟩ : KeyedPtr))).map
      (fun e => (⟨cntNotBelow (PL ++ KR) e.key, e.pos⟩ : IndexPtr)) := by
    unfold tweakSpec
    rw [List.map_map]
    apply List.map_congr_left
    intro e _
    rw [adjustKey_eq_cntNotBelow hQRnd]
    show (⟨cntNotBelow QR e.key, e.pos⟩ : IndexPtr) =
      ⟨cntNotBelow (PL ++ KR) (nthNotIn PL e.key), e.pos⟩
    have h1 : cntNotBelow (PL ++ KR) (nthNotIn PL e.key) =
        cntNotBelow (KR ++ PL) (nthNotIn PL e.key) :=
      cntNotBelow_congr (fun a => by simp [List.mem_append]; tauto) _
    rw [h1, hKRdef, cntNotBelow_comp]
  set X := sortByKey (annotate L) with hXset
  set Y := (sortByKey (annotate R)).map
    (fun e => (⟨nthNotIn PL e.key, e.pos⟩ : KeyedPtr)) with hYset
  have hXknd : (X.map KeyedPtr.key).Nodup := by
    have : (X.map KeyedPtr.key).Perm PL := by
      rw [← hannLk]
      exact (sortByKey_perm _).map _
    exact this.nodup_iff.mpr hPLnd
  have hannRknd : ((annotate R).map KeyedPtr.key).Nodup := by
    rw [hannRk]; exact hQRnd
  have hYknd : (Y.map KeyedPtr.key).Nodup := by
    have hperm : (Y.map KeyedPtr.key).Perm KR := by
      rw [hYset, List.map_map]
      have h1 : ((sortByKey (annotate R)).map
          (fun e => nthNotIn PL e.key)).Perm
          ((annotate R).map (fun e => nthNotIn PL e.key)) :=
        (sortByKey_perm _).map _
      have h2 : (annotate R).map (fun e => nthNotIn PL e.key) = KR := by
        rw [hKRdef, ← hannRk, List.map_map]
        rfl
      rw [← h2]
      exact h1
    exact hperm.nodup_iff.mpr hKRnd
  have hXsorted : List.Pairwise (fun a b => a.key < b.key) X :=
    sortByKey_pairwise_lt (by rw [hannLk]; exact hPLnd)
  have hYsorted : List.Pairwise (fun a b => a.key < b.key) Y :=
    List.Pairwise.map _ (fun a b h => nthNotIn_strictMono h)
      (sortByKey_pairwise_lt hannRknd)
  have hXP : ∀ x ∈ X, x.key ∈ PL := by
    intro x hx
    have hx' : x ∈ annotate L := (sortByKey_perm _).mem_iff.mp hx
    rw [← hannLk]
    exact List.mem_map_of_mem _ hx'
  have hYK : ∀ y ∈ Y, y.key ∈ KR := by
    intro y hy
    obtain ⟨e, he, rfl⟩ := List.mem_map.mp hy
    have he' : e ∈ annotate R := (sortByKey_perm _).mem_iff.mp he
    have hq : e.key ∈ QR := by
      rw [← hannRk]
      exact List.mem_map_of_mem _ he'
    exact List.mem_map_of_mem _ hq
  have hpart : ∀ k ∈ KR, k ∈ ([] : List Nat) ∨ k ∈ Y.map KeyedPtr.key := by
    intro k hk
    right
    have hperm : (Y.map KeyedPtr.key).Perm KR := by
      rw [hYset, List.map_map]
      have h2 : (annotate R).map (fun e => nthNotIn PL e.key) = KR := by
        rw [hKRdef, ← hannRk, List.map_map]
        rfl
      rw [← h2]
      exact (sortByKey_perm _).map _
    exact hperm.mem_iff.mpr hk
  have hX16 : ∀ x ∈ X, cntNotBelow PL x.key < 65536 := by
    intro x hx
    have hx' : x ∈ annotate L := (sortByKey_perm _).mem_iff.mp hx
    refine zipWith_decode_key_bound (L.map IndexPtr.index) (L.map IndexPtr.pos)
      [] PL (by simp) (fun p hp => hp) ?_ x hx'
    intro v hv
    obtain ⟨e, he, rfl⟩ := List.mem_map.mp hv
    exact hL e he
  have hghost := mergeStep_ghost PL KR hKRd (X.length + Y.length) X Y []
    (Nat.le_refl _) hXsorted hYsorted hXP hYK List.nodup_nil (by simp)
    hpart (by simp) (by simp) hX16
  simp only [List.length_nil] at hghost
  rw [hXdef, hYdef, hghost]
  unfold tweakSpec
  rw [hdecomb, hann]
  have hsp : sortByKey (X ++ Y) =
      sortByKey (annotate L ++ (annotate R).map
        (fun e => (⟨nthNotIn PL e.key, e.pos⟩ : KeyedPtr))) := by
    apply sortByKey_perm_congr
    · exact List.Perm.append (sortByKey_perm _) ((sortByKey_perm _).map _)
    · exact keys_nodup_append hKRd hXP hYK hXknd hYknd
  rw [← hsp]
  apply List.map_congr_left
  intro e _
  rw [adjustKey_eq_cntNotBelow]
  exact hPLnd.append hKRnd (fun a ha hb => hKRd a hb ha)

/-- `tweak_sort` equals its declarative description `tweakSpec` on every list
of `uint16_t` wire indices. -/
theorem tweakSortGo_eq_spec :
    ∀ (fuel : Nat) (l : List IndexPtr), l.length ≤ fuel →
      (∀ e ∈ l, e.index < 65536) → tweakSortGo fuel l = tweakSpec l := by
  intro fuel
  induction fuel with
  | zero =>
    intro l hlen _
    have : l = [] := List.length_eq_zero.mp (by omega)
    subst this
    rfl
  | succ fuel ih =>
    intro l hlen hl
    match l with
    | [] => rfl
    | [x] =>
      show [x] = tweakSpec [x]
      unfold tweakSpec annotate
      simp only [List.map_cons, List.map_nil, decodeP, List.zipWith_cons_cons,
        List.zipWith_nil_right, nthNotIn_nil, sortByKey, insertByKey]
      show [x] = [adjustKey [x.index] ⟨x.index, x.pos⟩]
      unfold adjustKey
      have : cntBelow [x.index] x.index = 0 := by
        simp [cntBelow]
      rw [this]
      simp
    | a :: b :: rest =>
      show mergeStep
          (tweakSortGo fuel ((a :: b :: rest).take ((a :: b :: rest).length / 2)))
          (tweakSortGo fuel ((a :: b :: rest).drop ((a :: b :: rest).length / 2))) 0
        = tweakSpec (a :: b :: rest)
      have hlen2 : 2 ≤ (a :: b :: rest).length := by simp
      have htk : ((a :: b :: rest).take ((a :: b :: rest).length / 2)).length ≤ fuel := by
        simp only [List.length_take]
        simp at hlen
        simp
        omega
      have hdr : ((a :: b :: rest).drop ((a :: b :: rest).length / 2)).length ≤ fuel := by
        simp only [List.length_drop]
        simp at hlen ⊢
        omega
      have hmemtk : ∀ e ∈ (a :: b :: rest).take ((a :: b :: rest).length / 2),
          e.index < 65536 := fun e he => hl e (List.mem_of_mem_take he)
      have hmemdr : ∀ e ∈ (a :: b :: rest).drop ((a :: b :: rest).length / 2),
          e.index < 65536 := fun e he => hl e (List.mem_of_mem_drop he)
      rw [ih _ htk hmemtk, ih _ hdr hmemdr, mergeStep_spec_append _ _ hmemtk hmemdr,
        List.take_append_drop]

/-- `tweak_sort` computes `tweakSpec`. -/
theorem tweak_sort_eq_tweakSpec (l : List IndexPtr)
    (hl : ∀ e ∈ l, e.index < 65536) : tweak_sort l = tweakSpec l :=
  tweakSortGo_eq_spec l.length l (Nat.le_refl _) hl

theorem tweakSpec_index_sorted (l : List IndexPtr) :
    List.Pairwise (fun a b => a.index ≤ b.index) (tweakSpec l) := by
  unfold tweakSpec
  have hnd : (decodeP [] (l.map IndexPtr.index)).Nodup := decodeP_nodup _ _
  have hks : List.Pairwise (fun a b => a.key < b.key) (sortByKey (annotate l)) :=
    sortByKey_pairwise_lt (by rw [annotate_keys]; exact hnd)
  refine List.Pairwise.map _ ?_ hks
  intro a b hab
  rw [adjustKey_eq_cntNotBelow hnd, adjustKey_eq_cntNotBelow hnd]
  exact cntNotBelow_mono _ (Nat.le_of_lt hab)

/-! ## Claims C3 and C4 -/

/-- C3, the claim as stated, is false: on the list
`[(1,0), (0,1), (0,2)]` the code produces `[(0,1), (0,0), (0,2)]` — the
element with original index `1` ends up *between* the two index-`0` elements
and keeps index `0` — while the reference formulation (stable sort by index,
then subtract rank minus equal-keyed predecessors) produces
`[(0,1), (0,2), (0,0)]`. -/
theorem claim_C3_counterexample :
    tweak_sort [⟨1, 0⟩, ⟨0, 1⟩, ⟨0, 2⟩] ≠
      specRefTweak [⟨1, 0⟩, ⟨0, 1⟩, ⟨0, 2⟩] := by decide

/-- C3 (amended): for every list of `(index, pos)` pairs with `uint16_t`
indices, `tweak_sort` produces the same result as the corrected reference
formulation `tweakSpec`: decode each wire index, in wire order, to the
original cache position it denotes (the `index`-th smallest position not
consumed by an earlier reference); sort the pairs by original position
ascending; and replace each index by its original position minus its rank in
that order. -/
theorem claim_C3 (l : List IndexPtr) (hl : ∀ e ∈ l, e.index < 65536) :
    tweak_sort l = tweakSpec l :=
  tweak_sort_eq_tweakSpec l hl

/-- Witness for C3 at the concrete input `[(1,0), (0,1), (0,2)]`. -/
theorem claim_C3_witness :
    (∀ e ∈ [(⟨1, 0⟩ : IndexPtr), ⟨0, 1⟩, ⟨0, 2⟩], e.index < 65536) ∧
      tweak_sort [⟨1, 0⟩, ⟨0, 1⟩, ⟨0, 2⟩] =
        tweakSpec [⟨1, 0⟩, ⟨0, 1⟩, ⟨0, 2⟩] :=
  ⟨by decide, claim_C3 _ (by decide)⟩

/-- C4: for every list of `(index, pos)` pairs with `uint16_t` indices, the
indices in the output of `tweak_sort` are non-decreasing: for every pair of
positions `i < j` in the output, the index at `i` is at most the index at
`j` (the in-code assertion checked while consuming the sorted list). -/
theorem claim_C4 (l : List IndexPtr) (hl : ∀ e ∈ l, e.index < 65536)
    (i j : Nat) (hij : i < j) (hj : j < (tweak_sort l).length) :
    ((tweak_sort l).getD i default).index ≤
      ((tweak_sort l).getD j default).index := by
  have heq := tweak_sort_eq_tweakSpec l hl
  rw [heq] at hj ⊢
  have hs := tweakSpec_index_sorted l
  have hi : i < (tweakSpec l).length := Nat.lt_trans hij hj
  rw [List.getD_eq_getElem _ _ hi, List.getD_eq_getElem _ _ hj]
  exact (List.pairwise_iff_getElem.mp hs) i j hi hj hij

/-- Witness for C4 at the concrete input `[(1,0), (0,1), (0,2)]`,
positions `0 < 2`. -/
theorem claim_C4_witness :
    (∀ e ∈ [(⟨1, 0⟩ : IndexPtr), ⟨0, 1⟩, ⟨0, 2⟩], e.index < 65536) ∧
      2 < (tweak_sort [(⟨1, 0⟩ : IndexPtr), ⟨0, 1⟩, ⟨0, 2⟩]).length ∧
      ((tweak_sort [(⟨1, 0⟩ : IndexPtr), ⟨0, 1⟩, ⟨0, 2⟩]).getD 0 default).index ≤
        ((tweak_sort [(⟨1, 0⟩ : IndexPtr), ⟨0, 1⟩, ⟨0, 2⟩]).getD 2 default).index :=
  ⟨by decide, by decide, claim_C4 _ (by decide) 0 2 (by decide) (by decide)⟩

/-! ### Merkle fold: the position-level loop equals the row-level fold -/

theorem getD_set_self {α : Type} {l : List α} {i : Nat} {v d : α} (h : i < l.length) :
    (l.set i v).getD i d = v := by
  rw [List.getD_eq_getElem _ _ (by rw [List.length_set]; exact h)]
  exact List.getElem_set_self _

theorem getD_set_ne {α : Type} {l : List α} {i j : Nat} {v d : α} (h : i ≠ j) :
    (l.set i v).getD j d = l.getD j d := by
  rcases Nat.lt_or_ge j l.length with hj | hj
  · rw [List.getD_eq_getElem _ _ (by rw [List.length_set]; exact hj),
      List.getD_eq_getElem _ _ hj]
    exact List.getElem_set_ne h _
  · rw [List.getD_eq_default _ _ (by rw [List.length_set]; exact hj),
      List.getD_eq_default _ _ hj]

section MerkleProofs

theorem length_foldRow {α : Type} (H2 : α → α → α) :
    ∀ (n : Nat) (l : List α), l.length ≤ n →
      (foldRow H2 l).length = (l.length + 1) / 2 := by
  intro n
  induction n with
  | zero =>
    intro l hn
    have : l = [] := List.length_eq_zero.mp (by omega)
    subst this
    simp [foldRow]
  | succ n ih =>
    intro l hn
    match l with
    | [] => simp [foldRow]
    | [a] => simp [foldRow]
    | a :: b :: rest =>
      simp only [foldRow, List.length_cons]
      rw [ih rest (by simp at hn; omega)]
      omega

theorem getD_foldRow {α : Type} [Inhabited α] (H2 : α → α → α) :
    ∀ (n : Nat) (l : List α), l.length ≤ n → ∀ (j : Nat), j < (l.length + 1) / 2 →
      (foldRow H2 l).getD j default =
        H2 (l.getD (2 * j) default)
          (l.getD (min (2 * j + 1) (l.length - 1)) default) := by
  intro n
  induction n with
  | zero =>
    intro l hn j hj
    have : l = [] := List.length_eq_zero.mp (by omega)
    subst this
    simp at hj
  | succ n ih =>
    intro l hn
    match l with
    | [] => intro j hj; simp at hj
    | [a] =>
      intro j hj
      simp only [List.length_singleton] at hj
      have : j = 0 := by omega
      subst this
      simp [foldRow]
    | a :: b :: rest =>
      intro j hj
      match j with
      | 0 =>
        have hmin : min (2 * 0 + 1) ((a :: b :: rest).length - 1) = 1 := by
          simp only [List.length_cons]
          omega
        rw [hmin]
        rfl
      | j + 1 =>
        have hrec := ih rest
          (by
            have hlen2 : (a :: b :: rest).length = rest.length + 2 := by simp
            rw [hlen2] at hn
            omega) j
          (by
            have hlen2 : (a :: b :: rest).length = rest.length + 2 := by simp
            rw [hlen2] at hj
            omega)
        have e1 : (a :: b :: rest).getD (2 * (j + 1)) default =
            rest.getD (2 * j) default := by
          have h2 : 2 * (j + 1) = 2 * j + 2 := by omega
          rw [h2]
          rfl
        have e2 : (a :: b :: rest).getD
            (min (2 * (j + 1) + 1) ((a :: b :: rest).length - 1)) default =
            rest.getD (min (2 * j + 1) (rest.length - 1)) default := by
          have h1 : min (2 * (j + 1) + 1) ((a :: b :: rest).length - 1) =
              min (2 * j + 1) (rest.length - 1) + 2 := by
            have hlen2 : (a :: b :: rest).length = rest.length + 2 := by simp
            rw [hlen2] at hj
            simp only [List.length_cons]
            omega
          rw [h1]
          rfl
        rw [e1, e2]
        exact hrec

/-- Frame and effect of the inner row loop: it writes exactly the slots
`j * stepCount` for even `j` in `[i, rowSize)`, filling each with the hash of
the row entries `j` and `min (j + 1) (rowSize - 1)`, and leaves every other
slot alone. -/
theorem merkleRow_spec {α : Type} [Inhabited α] (H2 : α → α → α) (rowSize stepCount lastMax : Nat)
    (row : List α) (hstep : 1 ≤ stepCount) (_hrow : row.length = rowSize)
    (hlast : lastMax = (rowSize - 1) * stepCount) :
    ∀ (fuel i : Nat) (hl : List α),
      rowSize ≤ i + fuel →
      2 ∣ i →
      (rowSize - 1) * stepCount < hl.length →
      (∀ j, i ≤ j → j < rowSize → hl.getD (j * stepCount) default = row.getD j default) →
      (merkleRow H2 rowSize stepCount lastMax fuel i hl).length = hl.length ∧
      (∀ m, (∀ j, i ≤ j → j < rowSize → 2 ∣ j → m ≠ j * stepCount) →
        (merkleRow H2 rowSize stepCount lastMax fuel i hl).getD m default =
          hl.getD m default) ∧
      (∀ j, i ≤ j → j < rowSize → 2 ∣ j →
        (merkleRow H2 rowSize stepCount lastMax fuel i hl).getD (j * stepCount) default =
          H2 (row.getD j default)
            (row.getD (min (j + 1) (rowSize - 1)) default)) := by
  intro fuel
  induction fuel with
  | zero =>
    intro i hl hfuel _ _ _
    refine ⟨rfl, fun m _ => rfl, fun j hij hj _ => absurd hj (by omega)⟩
  | succ fuel ih =>
    intro i hl hfuel hev hbound hext
    by_cases hi : i < rowSize
    · simp only [merkleRow, if_pos hi]
      set v := H2 (hl.getD (i * stepCount) default)
        (hl.getD (min ((i + 1) * stepCount) lastMax) default) with hv
      have hvval : v = H2 (row.getD i default)
          (row.getD (min (i + 1) (rowSize - 1)) default) := by
        rw [hv, hext i (Nat.le_refl _) hi]
        congr 1
        have hmindist : min ((i + 1) * stepCount) lastMax =
            min (i + 1) (rowSize - 1) * stepCount := by
          rw [hlast]
          rcases Nat.le_total (i + 1) (rowSize - 1) with h | h
          · rw [Nat.min_eq_left (Nat.mul_le_mul_right _ h), Nat.min_eq_left h]
          · rw [Nat.min_eq_right (Nat.mul_le_mul_right _ h), Nat.min_eq_right h]
        rw [hmindist]
        exact hext _ (by omega) (by omega)
      have hset_len : (hl.set (i * stepCount) v).length = hl.length :=
        List.length_set _ _ _
      have hrec := ih (i + 2) (hl.set (i * stepCount) v)
        (by omega) (by omega) (by rw [hset_len]; exact hbound)
        (by
          intro j hij hj
          rw [getD_set_ne (by
            intro hc
            have : i = j := Nat.eq_of_mul_eq_mul_right hstep hc
            omega)]
          exact hext j (by omega) hj)
      obtain ⟨hr1, hr2, hr3⟩ := hrec
      refine ⟨by rw [hr1, hset_len], ?_, ?_⟩
      · intro m hm
        rw [hr2 m (fun j h1 h2 h3 => hm j (by omega) h2 h3)]
        rw [getD_set_ne (fun hc => hm i (Nat.le_refl _) hi hev hc.symm)]
      · intro j hij hj hjev
        rcases Nat.lt_or_ge i j with hlt | hge
        · exact hr3 j (by omega) hj hjev
        · have : j = i := by omega
          subst this
          rw [hr2 (j * stepCount) (by
            intro j' h1 h2 _ hc
            have : j' = j := Nat.eq_of_mul_eq_mul_right hstep hc.symm
            omega)]
          rw [getD_set_self (by
            calc j * stepCount ≤ (rowSize - 1) * stepCount :=
              Nat.mul_le_mul_right _ (by omega)
            _ < hl.length := hbound)]
          exact hvval
    · rw [show merkleRow H2 rowSize stepCount lastMax (fuel + 1) i hl = hl from by
        unfold merkleRow; rw [if_neg hi]]
      exact ⟨rfl, fun m _ => rfl, fun j hij hj _ => absurd hj (by omega)⟩

theorem hasDupRowGo_succ {α : Type} [DecidableEq α] [Inhabited α]
    (H2 : α → α → α) (fuel : Nat) (hl : List α) :
    hasDupRowGo H2 (fuel + 1) hl =
      if hl.length ≤ 1 then false
      else (lastTwoEq hl || hasDupRowGo H2 fuel (foldRow H2 hl)) := rfl

theorem merkleSpecGo_succ {α : Type} [Inhabited α] (H2 : α → α → α)
    (fuel : Nat) (hl : List α) :
    merkleSpecGo H2 (fuel + 1) hl =
      if hl.length ≤ 1 then hl.getD 0 default
      else merkleSpecGo H2 fuel (foldRow H2 hl) := rfl

/-- The outer fold loop, tracked against the abstract row sequence: it
returns `none` exactly when some row of the fold ends in two equal hashes,
and otherwise leaves the fold's result in slot `0`. -/
theorem merkleLoop_spec {α : Type} [DecidableEq α] [Inhabited α] (H2 : α → α → α) :
    ∀ (fuel rowSize stepCount lastMax : Nat) (hl row : List α),
      rowSize = row.length → 1 ≤ rowSize → 1 ≤ stepCount →
      lastMax = (rowSize - 1) * stepCount →
      (rowSize - 1) * stepCount < hl.length →
      (∀ j, j < rowSize → hl.getD (j * stepCount) default = row.getD j default) →
      rowSize ≤ fuel →
      (merkleLoop H2 fuel rowSize stepCount lastMax hl = none →
        hasDupRowGo H2 fuel row = true) ∧
      (∀ hl', merkleLoop H2 fuel rowSize stepCount lastMax hl = some hl' →
        hasDupRowGo H2 fuel row = false ∧
          hl'.getD 0 default = merkleSpecGo H2 fuel row) := by
  intro fuel
  induction fuel with
  | zero =>
    intro rowSize stepCount lastMax hl row hrs hrs1 _ _ _ _ hfuel
    omega
  | succ fuel ih =>
    intro rowSize stepCount lastMax hl row hrs hrs1 hstep hlast hbound hext hfuel
    by_cases h1 : 1 < rowSize
    · have e1 : lastMax - stepCount = (rowSize - 2) * stepCount := by
        rw [hlast, Nat.sub_mul, Nat.sub_mul]
        omega
      have hchk : hl.getD (lastMax - stepCount) default = hl.getD lastMax default ↔
          row.getD (rowSize - 2) default = row.getD (rowSize - 1) default := by
        rw [e1, hext _ (by omega), hlast, hext _ (by omega)]
      have hl2eq : lastTwoEq row =
          decide (row.getD (rowSize - 2) default = row.getD (rowSize - 1) default) := by
        unfold lastTwoEq
        rw [← hrs, decide_eq_true (show 2 ≤ rowSize from h1), Bool.true_and]
      by_cases h2 : row.getD (rowSize - 2) default = row.getD (rowSize - 1) default
      · have heq : merkleLoop H2 (fuel + 1) rowSize stepCount lastMax hl = none := by
          unfold merkleLoop
          rw [if_pos h1, if_pos (hchk.mpr h2)]
        have hdup : hasDupRowGo H2 (fuel + 1) row = true := by
          rw [hasDupRowGo_succ, if_neg (by omega : ¬row.length ≤ 1), hl2eq,
            decide_eq_true h2, Bool.true_or]
        refine ⟨fun _ => hdup, fun hl' hcon => ?_⟩
        rw [heq] at hcon
        exact absurd hcon (by simp)
      · have heq : merkleLoop H2 (fuel + 1) rowSize stepCount lastMax hl =
            merkleLoop H2 fuel ((rowSize + 1) / 2) (stepCount * 2)
              ((((rowSize - 1) / 2) * 2) * stepCount)
              (merkleRow H2 rowSize stepCount lastMax rowSize 0 hl) := by
          show (if 1 < rowSize then
              if hl.getD (lastMax - stepCount) default = hl.getD lastMax default then
                none
              else
                merkleLoop H2 fuel ((rowSize + 1) / 2) (stepCount * 2)
                  ((((rowSize - 1) / 2) * 2) * stepCount)
                  (merkleRow H2 rowSize stepCount lastMax rowSize 0 hl)
            else some hl) = _
          rw [if_pos h1, if_neg (by rw [hchk]; exact h2)]
        have hrowspec := merkleRow_spec H2 rowSize stepCount lastMax row hstep
          hrs.symm hlast rowSize 0 hl (by omega) ⟨0, rfl⟩ hbound
          (fun j _ hj => hext j hj)
        obtain ⟨hr1, _, hr3⟩ := hrowspec
        set hl₂ := merkleRow H2 rowSize stepCount lastMax rowSize 0 hl with hhl₂
        set row₂ := foldRow H2 row with hrow₂
        have hrow₂len : row₂.length = (rowSize + 1) / 2 := by
          rw [hrow₂, length_foldRow H2 row.length row (Nat.le_refl _), ← hrs]
        have hext₂ : ∀ j, j < (rowSize + 1) / 2 →
            hl₂.getD (j * (stepCount * 2)) default = row₂.getD j default := by
          intro j hj
          have hpos : j * (stepCount * 2) = (2 * j) * stepCount := by ring
          rw [hpos, hr3 (2 * j) (by omega) (by omega) ⟨j, rfl⟩]
          rw [hrow₂, getD_foldRow H2 row.length row (Nat.le_refl _) j
            (by rw [← hrs]; omega)]
          rw [← hrs]
        have hlast₂ : (((rowSize - 1) / 2) * 2) * stepCount =
            (((rowSize + 1) / 2) - 1) * (stepCount * 2) := by
          have : ((rowSize + 1) / 2) - 1 = (rowSize - 1) / 2 := by omega
          rw [this]
          ring
        have hbound₂ : (((rowSize + 1) / 2) - 1) * (stepCount * 2) < hl₂.length := by
          rw [hr1]
          calc (((rowSize + 1) / 2) - 1) * (stepCount * 2)
              = (((rowSize - 1) / 2) * 2) * stepCount := by rw [← hlast₂]
            _ ≤ (rowSize - 1) * stepCount := Nat.mul_le_mul_right _ (by omega)
            _ < hl.length := hbound
        have hrec := ih ((rowSize + 1) / 2) (stepCount * 2)
          ((((rowSize - 1) / 2) * 2) * stepCount) hl₂ row₂
          hrow₂len.symm (by omega) (by omega) hlast₂ hbound₂ hext₂ (by omega)
        have hdup : hasDupRowGo H2 (fuel + 1) row = hasDupRowGo H2 fuel row₂ := by
          rw [hasDupRowGo_succ, if_neg (by omega : ¬row.length ≤ 1), hl2eq,
            decide_eq_false h2, Bool.false_or, ← hrow₂]
        have hspec : merkleSpecGo H2 (fuel + 1) row = merkleSpecGo H2 fuel row₂ := by
          rw [merkleSpecGo_succ, if_neg (by omega : ¬row.length ≤ 1), ← hrow₂]
        constructor
        · intro hnone
          rw [heq] at hnone
          rw [hdup]
          exact hrec.1 hnone
        · intro hl' hsome
          rw [heq] at hsome
          rw [hdup, hspec]
          exact hrec.2 hl' hsome
    · have hrow1 : rowSize = 1 := by omega
      have heq : merkleLoop H2 (fuel + 1) rowSize stepCount lastMax hl = some hl := by
        unfold merkleLoop
        rw [if_neg h1]
      have hdup : hasDupRowGo H2 (fuel + 1) row = false := by
        rw [hasDupRowGo_succ, if_pos (by omega : row.length ≤ 1)]
      refine ⟨fun hcon => ?_, fun hl' hsome => ?_⟩
      · rw [heq] at hcon
        exact absurd hcon (by simp)
      · rw [heq] at hsome
        have : hl' = hl := (Option.some_inj.mp hsome).symm
        subst this
        refine ⟨hdup, ?_⟩
        have hspec : merkleSpecGo H2 (fuel + 1) row = row.getD 0 default := by
          rw [merkleSpecGo_succ, if_pos (by omega : row.length ≤ 1)]
        rw [hspec]
        have := hext 0 (by omega)
        simpa using this

/-- `merkleRootMatches` accepts exactly when the pairwise fold hits the
advertised root and no row of the fold ends in two equal hashes. -/
theorem merkleRootMatches_eq {α : Type} [DecidableEq α] [Inhabited α]
    (H2 : α → α → α) (hl : List α) (root : α) (hne : hl ≠ []) :
    merkleRootMatches H2 hl root =
      (!merkleHasDup H2 hl && decide (merkleSpec H2 hl = root)) := by
  have hlen : 1 ≤ hl.length := by
    cases hl with
    | nil => exact absurd rfl hne
    | cons a l => simp
  have hspec := merkleLoop_spec H2 hl.length hl.length 1 (hl.length - 1) hl hl
    rfl hlen (Nat.le_refl _) (by omega) (by omega)
    (fun j _ => by rw [Nat.mul_one]) (Nat.le_refl _)
  unfold merkleRootMatches merkleHasDup merkleSpec
  cases hcase : merkleLoop H2 hl.length hl.length 1 (hl.length - 1) hl with
  | none =>
    rw [hspec.1 hcase]
    rfl
  | some hl' =>
    obtain ⟨hdup, hval⟩ := hspec.2 hl' hcase
    show decide (hl'.getD 0 default = root) =
      (!hasDupRowGo H2 hl.length hl && decide (merkleSpecGo H2 hl.length hl = root))
    rw [hdup, hval]
    rfl

end MerkleProofs

/-! ## Claim C5 -/

/-- C5, the claim as stated, is false: `merkleRootMatches` is not equivalent
to "the pairwise fold equals the root".  With hash function
`H2 a b = a + b + 1`, the two-leaf input `[0, 0]` folds to `1`, yet
`merkleRootMatches` returns `false` for root `1` because the two leaves are
equal and the duplicate guard fires even though the fold matches. -/
theorem claim_C5_counterexample :
    merkleSpec (fun a b : Nat => a + b + 1) [0, 0] = 1 ∧
      merkleRootMatches (fun a b : Nat => a + b + 1) [0, 0] 1 = false := by
  decide

/-- C5 (amended): for every nonempty leaf vector, `merkleRootMatches R`
returns true if and only if the in-order pairwise fold of the leaves (odd
rows pairing the final element with itself) equals `R` *and* no row of the
fold — the leaves included — ends in two equal hashes.  In particular every
input in which a row would pair a hash with an equal duplicate sibling at
its tail returns false regardless of `R`. -/
theorem claim_C5 {α : Type} [DecidableEq α] [Inhabited α]
    (H2 : α → α → α) (hl : List α) (root : α) (hne : hl ≠ []) :
    merkleRootMatches H2 hl root =
      (!merkleHasDup H2 hl && decide (merkleSpec H2 hl = root)) :=
  merkleRootMatches_eq H2 hl root hne

/-- Witness for C5 at the concrete three-leaf input `[1, 2, 3]`. -/
theorem claim_C5_witness :
    ([1, 2, 3] : List Nat) ≠ [] ∧
      merkleRootMatches (fun a b : Nat => a + b + 1) [1, 2, 3] 15 =
        (!merkleHasDup (fun a b : Nat => a + b + 1) [1, 2, 3] &&
          decide (merkleSpec (fun a b : Nat => a + b + 1) [1, 2, 3] = 15)) :=
  ⟨by decide, claim_C5 _ [1, 2, 3] 15 (by decide)⟩

/-! ### Claims about `get_relay_transaction` and `maybe_compress_block` -/

/-- C6: `get_relay_transaction` policy (relayprocess.cpp:9-30).  With
`useOldFlags = false` it rejects a cached or over-limit transaction and
otherwise adds it with cost `|tx|` and emits the wire message; with
`useOldFlags = true` it rejects a cached transaction, or an oversize one
when the oversize budget is exhausted or the hard cap is exceeded, and
otherwise adds it flagged as oversize exactly when `|tx|` exceeds the
legacy limit.  A rejection leaves the cache unchanged. -/
theorem claim_C6 (useOldFlags : Bool) (MAXB OLDMAX OLDEXTRA OLDOVER : Nat)
    (tx : Blob) (c : TxCache) :
    ((get_relay_transaction useOldFlags MAXB OLDMAX OLDEXTRA OLDOVER tx c).1 = none ↔
      (c.contains tx = true ∨
        (useOldFlags = false ∧ MAXB < tx.length) ∨
        (useOldFlags = true ∧ OLDMAX < tx.length ∧
          (OLDEXTRA ≤ c.flagCount ∨ OLDOVER < tx.length)))) ∧
    ((get_relay_transaction useOldFlags MAXB OLDMAX OLDEXTRA OLDOVER tx c).1 = none →
      (get_relay_transaction useOldFlags MAXB OLDMAX OLDEXTRA OLDOVER tx c).2 = c) ∧
    ((get_relay_transaction useOldFlags MAXB OLDMAX OLDEXTRA OLDOVER tx c).1 ≠ none →
      get_relay_transaction useOldFlags MAXB OLDMAX OLDEXTRA OLDOVER tx c =
        (some (tx_to_msg tx),
          if useOldFlags then c.addOld tx (decide (OLDMAX < tx.length))
          else c.add tx tx.length)) := by
  unfold get_relay_transaction
  cases useOldFlags <;> by_cases h1 : c.contains tx <;>
    simp only [h1, if_true, if_false, Bool.not_false, Bool.not_true, ite_true, ite_false,
      Bool.false_eq_true, Bool.true_eq_false, Bool.and_eq_true, Bool.or_eq_true,
      decide_eq_true_eq]
  · exact ⟨by simp, fun _ => trivial, fun h => absurd rfl h⟩
  · by_cases h2 : MAXB < tx.length <;> simp [h2]
  · exact ⟨by simp, fun _ => trivial, fun h => absurd rfl h⟩
  · by_cases h2 : OLDMAX < tx.length <;>
      by_cases h3 : OLDEXTRA ≤ c.flagCount <;>
      by_cases h4 : OLDOVER < tx.length <;>
      simp [h2, h3, h4]

/-- Closed instance of C6: a fresh small transaction is accepted into the
modern cache. -/
theorem claim_C6_witness :
    (get_relay_transaction false 100 0 0 0 txA ⟨[]⟩).1 ≠ none ∧
    get_relay_transaction false 100 0 0 0 txA ⟨[]⟩ =
      (some (tx_to_msg txA), TxCache.add ⟨[]⟩ txA txA.length) := by
  have h := (claim_C6 false 100 0 0 0 txA ⟨[]⟩).2.2
  have hne : (get_relay_transaction false 100 0 0 0 txA ⟨[]⟩).1 ≠ none := by decide
  exact ⟨hne, (h hne).trans (by decide)⟩

/-- C7: `maybe_compress_block` touches `blocksAlreadySeen` only on success
(relayprocess.cpp:199-202): every error return other than the
`MUTEX_BROKEN???` invariant tag leaves the seen set unchanged, and a
success appends the block hash. -/
theorem claim_C7 (DS : Blob → Blob) (DS2 : Blob → Blob → Blob) (hash block : Blob)
    (cm : Bool) (st : RelayNodeState) :
    (∀ e, (maybe_compress_block DS DS2 hash block cm st).1 = .error e →
      e ≠ "MUTEX_BROKEN???" →
      ((maybe_compress_block DS DS2 hash block cm st).2).blocksAlreadySeen =
        st.blocksAlreadySeen) ∧
    (∀ b, (maybe_compress_block DS DS2 hash block cm st).1 = .ok b →
      ((maybe_compress_block DS DS2 hash block cm st).2).blocksAlreadySeen =
        st.blocksAlreadySeen ++ [hash]) := by
  unfold maybe_compress_block
  split
  · exact ⟨fun e _ _ => rfl, fun b hb => Except.noConfusion hb⟩
  · split
    · exact ⟨fun e _ _ => rfl, fun b hb => Except.noConfusion hb⟩
    · rename_i hseen
      split
      · exact ⟨fun e _ _ => rfl, fun b hb => Except.noConfusion hb⟩
      · split
        · exact ⟨fun e _ _ => rfl, fun b hb => Except.noConfusion hb⟩
        · split
          · exact ⟨fun e _ _ => rfl, fun b hb => Except.noConfusion hb⟩
          · refine ⟨fun e he _ => Except.noConfusion he, fun b _ => ?_⟩
            show insertSeen st.blocksAlreadySeen hash = _
            rw [insertSeen, if_neg hseen]

/-- Closed instance of C7: compressing a block whose hash is already seen
fails with `SEEN` and leaves the seen set unchanged. -/
theorem claim_C7_witness :
    (maybe_compress_block DS0 DS20 txA blockA false ⟨⟨[]⟩, ⟨[]⟩, [txA]⟩).1 =
      .error "SEEN" ∧
    ((maybe_compress_block DS0 DS20 txA blockA false ⟨⟨[]⟩, ⟨[]⟩, [txA]⟩).2).blocksAlreadySeen =
      [txA] := by
  have h := (claim_C7 DS0 DS20 txA blockA false ⟨⟨[]⟩, ⟨[]⟩, [txA]⟩).1 "SEEN"
    rfl (by decide)
  exact ⟨rfl, h⟩

/-! ### Error taxonomies of the decompression path -/

theorem readLoop_error_cases (wire : Blob) : ∀ (n pos wb : Nat) {e : String},
    decompressReadLoop wire n pos wb = .error e →
    e = "failed to read tx index" ∨ e = "failed to read tx length" ∨
    e = "got unreasonably large tx" ∨ e = "failed to read transaction data" := by
  intro n
  induction n with
  | zero =>
    intro pos wb e h
    exact absurd h (by simp [decompressReadLoop])
  | succ n ih =>
    intro pos wb e h
    unfold decompressReadLoop at h
    split at h
    · exact Or.inl (Except.error.inj h).symm
    · split at h
      · split at h
        · exact Or.inr (Or.inl (Except.error.inj h).symm)
        · split at h
          · exact Or.inr (Or.inr (Or.inl (Except.error.inj h).symm))
          · split at h
            · exact Or.inr (Or.inr (Or.inr (Except.error.inj h).symm))
            · split at h
              · rename_i heq
                exact (Except.error.inj h) ▸ ih _ _ heq
              · exact Except.noConfusion h
      · split at h
        · rename_i heq
          exact (Except.error.inj h) ▸ ih _ _ heq
        · exact Except.noConfusion h

theorem removeLoop_error_cases :
    ∀ (l : List IndexPtr) (c : TxCache) (td : List (Option Blob)) {e : String} {c' : TxCache},
    decompressRemoveLoop l c td = (.error e, c') →
    e = "failed to find referenced transaction" := by
  intro l
  induction l with
  | nil =>
    intro c td e c' h
    exact absurd h (by simp [decompressRemoveLoop])
  | cons p ps ih =>
    intro c td e c' h
    unfold decompressRemoveLoop at h
    split at h
    · rename_i heq
      exact ((Prod.mk.injEq _ _ _ _).mp h).1 |> Except.error.inj |>.symm
    · exact ih _ _ h

theorem do_decompress_error_cases (DS : Blob → Blob) (DS2 : Blob → Blob → Blob)
    (GH : Blob → Blob) (wire : Blob) (n : Nat) (cm : Bool) (st : RelayNodeState)
    {e : String} (h : (do_decompress DS DS2 GH wire n cm st).1 = .error e) :
    e = "failed to read block header" ∨ e = "block had version < 4" ∨
    e = "block hash did not meet minimum difficulty target" ∨
    e = "failed to read tx index" ∨ e = "failed to read tx length" ∨
    e = "got unreasonably large tx" ∨ e = "failed to read transaction data" ∨
    e = "failed to find referenced transaction" ∨
    e = "merkle tree root did not match" := by
  unfold do_decompress at h
  split at h
  · exact Or.inl (Except.error.inj h).symm
  · split at h
    · exact Or.inr (Or.inl (Except.error.inj h).symm)
    · split at h
      · exact Or.inr (Or.inr (Or.inl (Except.error.inj h).symm))
      · split at h
        · rename_i heq
          have := readLoop_error_cases wire n 80 12 heq
          have he := (Except.error.inj h).symm
          subst he
          tauto
        · split at h
          · rename_i heq
            have := removeLoop_error_cases _ _ _ heq
            have he := (Except.error.inj h).symm
            subst he
            tauto
          · split at h
            · exact Or.inr (Or.inr (Or.inr (Or.inr (Or.inr (Or.inr
                (Or.inr (Or.inr (Except.error.inj h).symm)))))))
            · exact Except.noConfusion h

theorem move_forward_pos {block : Blob} {pos k : Nat} (h : pos + k ≤ block.length) :
    move_forward block pos k = some (pos + k) := by
  unfold move_forward
  rw [if_pos h]

theorem move_forward_inv {blk : Blob} {pos k p' : Nat}
    (h : move_forward blk pos k = some p') : p' = pos + k ∧ pos + k ≤ blk.length := by
  unfold move_forward at h
  split at h
  · exact ⟨(Option.some.inj h).symm, by assumption⟩
  · exact Option.noConfusion h

theorem move_forward_none {blk : Blob} {pos k : Nat}
    (h : move_forward blk pos k = none) : ¬pos + k ≤ blk.length := by
  unfold move_forward at h
  split at h
  · exact Option.noConfusion h
  · assumption

/-- Exhaustive inversion of the compression header walk. -/
theorem compressParseHeader_cases (block : Blob) {r : Except String (Nat × Nat)}
    (h : compressParseHeader block = r) :
    (¬28 ≤ block.length ∧ r = .error "INVALID_SIZE") ∨
    (28 ≤ block.length ∧
      versionLT4 (block.getD 24 0) (block.getD 25 0) (block.getD 26 0)
        (block.getD 27 0) = true ∧ r = .error "SMALL_VERSION") ∨
    (28 ≤ block.length ∧
      versionLT4 (block.getD 24 0) (block.getD 25 0) (block.getD 26 0)
        (block.getD 27 0) = false ∧ ¬104 ≤ block.length ∧ r = .error "INVALID_SIZE") ∨
    (28 ≤ block.length ∧
      versionLT4 (block.getD 24 0) (block.getD 25 0) (block.getD 26 0)
        (block.getD 27 0) = false ∧ 104 ≤ block.length ∧
      read_varint block 104 = none ∧ r = .error "INVALID_SIZE") ∨
    (∃ t p, 28 ≤ block.length ∧
      versionLT4 (block.getD 24 0) (block.getD 25 0) (block.getD 26 0)
        (block.getD 27 0) = false ∧ 104 ≤ block.length ∧
      read_varint block 104 = some (t, p) ∧ (t < 1 ∨ 100000 < t) ∧
      r = .error "TXCOUNT_RANGE") ∨
    (∃ t p, 28 ≤ block.length ∧
      versionLT4 (block.getD 24 0) (block.getD 25 0) (block.getD 26 0)
        (block.getD 27 0) = false ∧ 104 ≤ block.length ∧
      read_varint block 104 = some (t, p) ∧ 1 ≤ t ∧ t ≤ 100000 ∧
      r = .ok (t, p)) := by
  unfold compressParseHeader at h
  split at h
  · rename_i hm
    exact Or.inl ⟨fun hc => move_forward_none hm (by omega), h.symm⟩
  · rename_i pos1 hm1
    obtain ⟨hp1, hb1⟩ := move_forward_inv hm1
    subst hp1
    split at h
    · rename_i hm
      exact Or.inl ⟨fun hc => move_forward_none hm (by omega), h.symm⟩
    · rename_i pos2 hm2
      obtain ⟨hp2, hb2⟩ := move_forward_inv hm2
      subst hp2
      have h28 : 28 ≤ block.length := by omega
      have e1 : (0 + 24 + 4 : Nat) = 28 := by norm_num
      rw [e1] at h hb2
      have e2 : (28 - 4 : Nat) = 24 := by norm_num
      have e3 : (28 - 3 : Nat) = 25 := by norm_num
      have e4 : (28 - 2 : Nat) = 26 := by norm_num
      have e5 : (28 - 1 : Nat) = 27 := by norm_num
      rw [e2, e3, e4, e5] at h
      split at h
      · rename_i hv
        exact Or.inr (Or.inl ⟨h28, hv, h.symm⟩)
      · rename_i hv
        have hvf := Bool.of_not_eq_true hv
        split at h
        · rename_i hm
          refine Or.inr (Or.inr (Or.inl ⟨h28, hvf, ?_, h.symm⟩))
          intro hc
          exact move_forward_none hm (by omega)
        · rename_i pos3 hm3
          obtain ⟨hp3, hb3⟩ := move_forward_inv hm3
          subst hp3
          have e6 : (28 + 32 : Nat) = 60 := by norm_num
          rw [e6] at h hb3
          split at h
          · rename_i hm
            refine Or.inr (Or.inr (Or.inl ⟨h28, hvf, ?_, h.symm⟩))
            intro hc
            exact move_forward_none hm (by omega)
          · rename_i pos4 hm4
            obtain ⟨hp4, hb4⟩ := move_forward_inv hm4
            subst hp4
            have e7 : (60 + 44 : Nat) = 104 := by norm_num
            rw [e7] at h hb4
            split at h
            · rename_i hrv
              exact Or.inr (Or.inr (Or.inr (Or.inl ⟨h28, hvf, hb4, hrv, h.symm⟩)))
            · rename_i t p hrv
              split at h
              · rename_i hrange
                refine Or.inr (Or.inr (Or.inr (Or.inr (Or.inl
                  ⟨t, p, h28, hvf, hb4, hrv, ?_, h.symm⟩))))
                rcases Bool.or_eq_true_iff.mp hrange with hx | hx
                · exact Or.inl (of_decide_eq_true hx)
                · exact Or.inr (of_decide_eq_true hx)
              · rename_i hrange
                refine Or.inr (Or.inr (Or.inr (Or.inr (Or.inr
                  ⟨t, p, h28, hvf, hb4, hrv, ?_, ?_, h.symm⟩))))
                · by_contra hc
                  exact hrange (by simp; omega)
                · by_contra hc
                  exact hrange (by simp; omega)

/-- C8 (amended): the transaction count is confined to `[1, 100000]` on the
compress side only.  (i) `decompress_relay_block` returns the
too-many-transactions error exactly when the declared count exceeds 100000
— a count of 0 is accepted there.  (ii) `maybe_compress_block` fails with
`TXCOUNT_RANGE` exactly when the difficulty and seen screens pass and the
header walk reaches a varint count outside `[1, 100000]`, which (iii) the
header walk does exactly when the block is long enough, the version passes,
and the count varint reads a value outside `[1, 100000]`. -/
theorem claim_C8 :
    (∀ (DS : Blob → Blob) (DS2 : Blob → Blob → Blob) (GH : Blob → Blob)
        (wire : Blob) (n : Nat) (cm : Bool) (st : RelayNodeState),
      ((decompress_relay_block DS DS2 GH wire n cm st).1 =
          .error "got a BLOCK message with far too many transactions" ↔ 100000 < n)) ∧
    (∀ (DS : Blob → Blob) (DS2 : Blob → Blob → Blob) (hash block : Blob) (cm : Bool)
        (st : RelayNodeState),
      ((maybe_compress_block DS DS2 hash block cm st).1 = .error "TXCOUNT_RANGE" ↔
        ((cm && badWork hash) = false ∧ hash ∉ st.blocksAlreadySeen ∧
          compressParseHeader block = .error "TXCOUNT_RANGE"))) ∧
    (∀ block : Blob,
      (compressParseHeader block = .error "TXCOUNT_RANGE" ↔
        ∃ txcount pos5, 104 ≤ block.length ∧
          versionLT4 (block.getD 24 0) (block.getD 25 0) (block.getD 26 0)
            (block.getD 27 0) = false ∧
          read_varint block 104 = some (txcount, pos5) ∧
          (txcount < 1 ∨ 100000 < txcount))) := by
  refine ⟨fun DS DS2 GH wire n cm st => ?_, fun DS DS2 hash block cm st => ?_,
    fun block => ?_⟩
  · unfold decompress_relay_block
    split
    · rename_i hn
      simp only [true_iff]
      omega
    · rename_i hn
      constructor
      · intro h
        rcases do_decompress_error_cases DS DS2 GH wire n cm st h with
          h1|h1|h1|h1|h1|h1|h1|h1|h1 <;> exact absurd h1 (by decide)
      · intro h
        exact absurd (show n > 100000 from h) hn
  · unfold maybe_compress_block
    split
    · rename_i hb
      constructor
      · intro h
        exact absurd (Except.error.inj h) (by decide)
      · rintro ⟨h1, -, -⟩
        rw [hb] at h1
        exact Bool.noConfusion h1
    · rename_i hb
      split
      · rename_i hs
        constructor
        · intro h
          exact absurd (Except.error.inj h) (by decide)
        · rintro ⟨-, h2, -⟩
          exact absurd hs h2
      · rename_i hs
        split
        · rename_i e' heq
          constructor
          · intro h
            exact ⟨Bool.not_eq_true _ ▸ Bool.of_not_eq_true hb, hs,
              heq.symm ▸ congrArg Except.error (Except.error.inj h)⟩
          · rintro ⟨-, -, h3⟩
            rw [heq] at h3
            exact congrArg Except.error (Except.error.inj h3)
        · rename_i tp heq
          have hne : compressParseHeader block ≠ .error "TXCOUNT_RANGE" := by
            rw [heq]
            exact fun hc => Except.noConfusion hc
          split
          · constructor
            · intro h
              exact absurd (Except.error.inj h) (by decide)
            · rintro ⟨-, -, h3⟩
              exact absurd h3 hne
          · split
            · constructor
              · intro h
                exact absurd (Except.error.inj h) (by decide)
              · rintro ⟨-, -, h3⟩
                exact absurd h3 hne
            · constructor
              · intro h
                exact Except.noConfusion h
              · rintro ⟨-, -, h3⟩
                exact absurd h3 hne
  · constructor
    · intro h
      rcases compressParseHeader_cases block h with
        ⟨h1, h2⟩ | ⟨h1, h2, h3⟩ | ⟨h1, h2, h3, h4⟩ | ⟨h1, h2, h3, h4, h5⟩ |
        ⟨t, p, h1, h2, h3, h4, h5, h6⟩ | ⟨t, p, h1, h2, h3, h4, h5, h6, h7⟩
      · exact absurd (Except.error.inj h2.symm) (by decide)
      · exact absurd (Except.error.inj h3.symm) (by decide)
      · exact absurd (Except.error.inj h4.symm) (by decide)
      · exact absurd (Except.error.inj h5.symm) (by decide)
      · exact ⟨t, p, h3, h2, h4, h5⟩
      · exact Except.noConfusion h7.symm
    · rintro ⟨t, p, h104, hv, hrv, hrange⟩
      rcases hP : compressParseHeader block with e' | tp
      · rcases compressParseHeader_cases block hP with
          ⟨h1, h2⟩ | ⟨h1, h2, h3⟩ | ⟨h1, h2, h3, h4⟩ | ⟨h1, h2, h3, h4, h5⟩ |
          ⟨t', p', h1, h2, h3, h4, h5, h6⟩ | ⟨t', p', h1, h2, h3, h4, h5, h6, h7⟩
        · exact absurd h104 (by omega)
        · rw [hv] at h2
          exact Bool.noConfusion h2
        · exact absurd h104 h3
        · rw [hrv] at h4
          exact Option.noConfusion h4
        · exact h6
        · exact Except.noConfusion h7
      · rcases compressParseHeader_cases block hP with
          ⟨h1, h2⟩ | ⟨h1, h2, h3⟩ | ⟨h1, h2, h3, h4⟩ | ⟨h1, h2, h3, h4, h5⟩ |
          ⟨t', p', h1, h2, h3, h4, h5, h6⟩ | ⟨t', p', h1, h2, h3, h4, h5, h6, h7⟩
        · exact Except.noConfusion h2
        · exact Except.noConfusion h3
        · exact Except.noConfusion h4
        · exact Except.noConfusion h5
        · exact Except.noConfusion h6
        · rw [hrv] at h4
          have := Option.some.inj h4
          have ht : t = t' := congrArg Prod.fst this
          omega

/-- Refutation of C8 as stated: under its literal reading `decompress_relay_block`
would reject a declared count of 0, but it accepts it: with
`check_merkle = false` a zero-transaction message decompresses
successfully. -/
theorem claim_C8_counterexample :
    (decompress_relay_block DS0 DS20 GH0 hdrV4 0 false stEmpty).1 =
      .ok ⟨12, List.replicate 24 0 ++ hdrV4 ++ [0], []⟩ ∧
    ¬(1 ≤ 0 ∧ 0 ≤ 100000) := ⟨rfl, by decide⟩

/-- C9 (amended): (i) with the difficulty screen passing (`check_merkle`
off or work acceptable) a seen hash makes `maybe_compress_block` fail with
`SEEN` and leave the state untouched; (ii) the result value of
`do_decompress` is independent of the seen set; (iii) `do_decompress`
inserts the block hash unconditionally once the header is read and the
version accepted. -/
theorem claim_C9 (DS : Blob → Blob) (DS2 : Blob → Blob → Blob) (GH : Blob → Blob)
    (hash block wire : Blob) (cm : Bool) (st : RelayNodeState)
    (sc rc : TxCache) (seen1 seen2 : List Blob) (n : Nat) :
    ((cm = true → badWork hash = false) → hash ∈ st.blocksAlreadySeen →
      maybe_compress_block DS DS2 hash block cm st = (.error "SEEN", st)) ∧
    ((do_decompress DS DS2 GH wire n cm ⟨sc, rc, seen1⟩).1 =
      (do_decompress DS DS2 GH wire n cm ⟨sc, rc, seen2⟩).1) ∧
    (∀ hdr, readWire wire 0 80 = some hdr →
      versionLT4 (hdr.getD 0 0) (hdr.getD 1 0) (hdr.getD 2 0) (hdr.getD 3 0) = false →
      ((do_decompress DS DS2 GH wire n cm st).2).blocksAlreadySeen =
        insertSeen st.blocksAlreadySeen (GH hdr)) := by
  refine ⟨fun hbw hseen => ?_, ?_, fun hdr hrw hv => ?_⟩
  · unfold maybe_compress_block
    have hc : (cm && badWork hash) = false := by
      cases cm
      · rfl
      · rw [hbw rfl]
        rfl
    rw [hc]
    simp only [Bool.false_eq_true, if_false]
    rw [if_pos hseen]
  · unfold do_decompress
    cases hrw : readWire wire 0 80 with
    | none => rfl
    | some hdr =>
      cases hv : versionLT4 (hdr.getD 0 0) (hdr.getD 1 0) (hdr.getD 2 0) (hdr.getD 3 0) <;>
        simp only [hv, Bool.false_eq_true, eq_self_iff_true, if_true, if_false]
      cases hbw : cm && badWork (GH hdr) <;>
        simp only [hbw, Bool.false_eq_true, eq_self_iff_true, if_true, if_false]
      cases hrl : decompressReadLoop wire n 80 12 with
      | error e => rfl
      | ok v =>
        rcases v with ⟨recs, fp, wb⟩
        dsimp only
        rcases hrm : decompressRemoveLoop (tweak_sort (decompressPtrs recs)) rc
            (recs.map DecompressTxRecord.data) with ⟨res, cache'⟩
        rcases res with e | txdataF
        · rfl
        · dsimp only
          cases hm : cm && !merkleRootMatches DS2 (txdataF.map fun o => DS (o.getD []))
              (slice (List.replicate 24 0 ++ hdr ++ varint n ++
                (txdataF.map fun o => o.getD []).flatten) 60 92) <;>
            simp only [hm, Bool.false_eq_true, eq_self_iff_true, if_true, if_false]
  · unfold do_decompress
    rw [hrw]
    dsimp only
    rw [hv]
    simp only [Bool.false_eq_true, if_false]
    cases hbw : cm && badWork (GH hdr) <;>
      simp only [hbw, Bool.false_eq_true, eq_self_iff_true, if_true, if_false]
    cases hrl : decompressReadLoop wire n 80 12 with
    | error e => rfl
    | ok v =>
      rcases v with ⟨recs, fp, wb⟩
      dsimp only
      rcases hrm : decompressRemoveLoop (tweak_sort (decompressPtrs recs))
          st.recv_tx_cache (recs.map DecompressTxRecord.data) with ⟨res, cache'⟩
      rcases res with e | txdataF
      · rfl
      · dsimp only
        cases hm : cm && !merkleRootMatches DS2 (txdataF.map fun o => DS (o.getD []))
            (slice (List.replicate 24 0 ++ hdr ++ varint n ++
              (txdataF.map fun o => o.getD []).flatten) 60 92) <;>
          simp only [hm, Bool.false_eq_true, eq_self_iff_true, if_true, if_false]

/-- Refutation of C9 as stated: with `check_merkle = true` a seen hash that
fails the difficulty screen yields `BAD_WORK`, not `SEEN`. -/
theorem claim_C9_counterexample :
    (maybe_compress_block DS0 DS20 (List.replicate 32 1) blockA true
        ⟨⟨[]⟩, ⟨[]⟩, [List.replicate 32 1]⟩).1 = .error "BAD_WORK" ∧
    "BAD_WORK" ≠ "SEEN" := ⟨rfl, by decide⟩

/-- Closed instance of C9: a seen hash with `check_merkle = false` fails
with `SEEN`. -/
theorem claim_C9_witness :
    maybe_compress_block DS0 DS20 txA blockTrail false ⟨⟨[]⟩, ⟨[]⟩, [txA]⟩ =
      (.error "SEEN", ⟨⟨[]⟩, ⟨[]⟩, [txA]⟩) :=
  (claim_C9 DS0 DS20 GH0 txA blockTrail [] false ⟨⟨[]⟩, ⟨[]⟩, [txA]⟩
    ⟨[]⟩ ⟨[]⟩ [] [] 0).1 (fun h => Bool.noConfusion h) (by decide)

theorem readLoop_wb (wire : Blob) : ∀ (n pos wb : Nat)
    {recs : List DecompressTxRecord} {fp fwb : Nat},
    decompressReadLoop wire n pos wb = .ok (recs, fp, fwb) →
    fwb = wb + (recs.map decompressRecordCost).sum := by
  intro n
  induction n with
  | zero =>
    intro pos wb recs fp fwb h
    unfold decompressReadLoop at h
    have h' := Except.ok.inj h
    rw [Prod.mk.injEq, Prod.mk.injEq] at h'
    obtain ⟨h1, -, h3⟩ := h'
    subst h1
    simp [← h3]
  | succ n ih =>
    intro pos wb recs fp fwb h
    unfold decompressReadLoop at h
    split at h
    · exact Except.noConfusion h
    · split at h
      · split at h
        · exact Except.noConfusion h
        · split at h
          · exact Except.noConfusion h
          · split at h
            · exact Except.noConfusion h
            · rename_i data heq
              split at h
              · exact Except.noConfusion h
              · rename_i recs' fp' fwb' heq2
                have h' := Except.ok.inj h
                rw [Prod.mk.injEq, Prod.mk.injEq] at h'
                obtain ⟨h1, -, h3⟩ := h'
                subst h1 h3
                have := ih _ _ heq2
                simp only [List.map_cons, List.sum_cons, decompressRecordCost]
                omega
      · split at h
        · exact Except.noConfusion h
        · rename_i recs' fp' fwb' heq2
          have h' := Except.ok.inj h
          rw [Prod.mk.injEq, Prod.mk.injEq] at h'
          obtain ⟨h1, -, h3⟩ := h'
          subst h1 h3
          have := ih _ _ heq2
          simp only [List.map_cons, List.sum_cons, decompressRecordCost]
          omega

/-- C10: the wire-byte count a successful `decompress_relay_block` returns
is `4*3` (relayprocess.cpp:239) plus, for each transaction read, 2 bytes of
index plus, for an inline transaction, 3 length bytes and the transaction
data (relayprocess.cpp:302, 322); the 80 header bytes are not counted. -/
theorem claim_C10 (DS : Blob → Blob) (DS2 : Blob → Blob → Blob) (GH : Blob → Blob)
    (wire : Blob) (n : Nat) (cm : Bool) (st : RelayNodeState)
    (out : DecompressOut) (st' : RelayNodeState)
    (recs : List DecompressTxRecord) (fp fwb : Nat)
    (hok : decompress_relay_block DS DS2 GH wire n cm st = (.ok out, st'))
    (hrl : decompressReadLoop wire n 80 12 = .ok (recs, fp, fwb)) :
    out.wire_bytes = 12 + (recs.map decompressRecordCost).sum := by
  unfold decompress_relay_block at hok
  split at hok
  · exact Except.noConfusion ((Prod.mk.injEq _ _ _ _ ▸ hok).1)
  · unfold do_decompress at hok
    split at hok
    · exact Except.noConfusion ((Prod.mk.injEq _ _ _ _ ▸ hok).1)
    · split at hok
      · exact Except.noConfusion ((Prod.mk.injEq _ _ _ _ ▸ hok).1)
      · split at hok
        · exact Except.noConfusion ((Prod.mk.injEq _ _ _ _ ▸ hok).1)
        · rw [hrl] at hok
          dsimp only at hok
          split at hok
          · exact Except.noConfusion ((Prod.mk.injEq _ _ _ _ ▸ hok).1)
          · split at hok
            · exact Except.noConfusion ((Prod.mk.injEq _ _ _ _ ▸ hok).1)
            · have hout := Except.ok.inj (Prod.mk.injEq _ _ _ _ ▸ hok).1
              have : out.wire_bytes = fwb := by rw [← hout]
              rw [this]
              exact readLoop_wb wire n 80 12 hrl

/-- Closed instance of C10: the zero-transaction decompression counts
exactly the 12 header-slot bytes. -/
theorem claim_C10_witness :
    decompress_relay_block DS0 DS20 GH0 hdrV4 0 false stEmpty =
      (.ok ⟨12, List.replicate 24 0 ++ hdrV4 ++ [0], []⟩, ⟨⟨[]⟩, ⟨[]⟩, [[]]⟩) ∧
    decompressReadLoop hdrV4 0 80 12 = .ok ([], 80, 12) ∧
    (⟨12, List.replicate 24 0 ++ hdrV4 ++ [0], []⟩ : DecompressOut).wire_bytes =
      12 + (([] : List DecompressTxRecord).map decompressRecordCost).sum :=
  ⟨rfl, rfl, claim_C10 DS0 DS20 GH0 hdrV4 0 false stEmpty _ _ [] 80 12 rfl rfl⟩

/-- C2 (amended): `decompress_relay_block` never touches the send cache,
and every error raised before the cache removal loop — short reads, bad
version, difficulty, oversize inline transaction, count cap — leaves the
receive cache unchanged; only the missing-reference and merkle-mismatch
errors can leave it depleted. -/
theorem claim_C2 (DS : Blob → Blob) (DS2 : Blob → Blob → Blob) (GH : Blob → Blob)
    (wire : Blob) (n : Nat) (cm : Bool) (st : RelayNodeState) :
    ((decompress_relay_block DS DS2 GH wire n cm st).2.send_tx_cache =
      st.send_tx_cache) ∧
    (∀ e, (decompress_relay_block DS DS2 GH wire n cm st).1 = .error e →
      e ≠ "failed to find referenced transaction" →
      e ≠ "merkle tree root did not match" →
      (decompress_relay_block DS DS2 GH wire n cm st).2.recv_tx_cache =
        st.recv_tx_cache) := by
  unfold decompress_relay_block
  split
  · exact ⟨rfl, fun e _ _ _ => rfl⟩
  · unfold do_decompress
    split
    · exact ⟨rfl, fun e _ _ _ => rfl⟩
    · split
      · exact ⟨rfl, fun e _ _ _ => rfl⟩
      · split
        · exact ⟨rfl, fun e _ _ _ => rfl⟩
        · split
          · exact ⟨rfl, fun e _ _ _ => rfl⟩
          · split
            · rename_i heq
              refine ⟨rfl, fun e he hne _ => ?_⟩
              have he' := Except.error.inj he
              exact absurd (he' ▸ removeLoop_error_cases _ _ _ heq) hne
            · split
              · refine ⟨rfl, fun e he _ hne => ?_⟩
                exact absurd (Except.error.inj he).symm hne
              · exact ⟨rfl, fun e he _ _ => Except.noConfusion he⟩

/-- Refutation of C2 as stated: a wire with two references to cache index 0
against a one-entry receive cache fails with the missing-reference error
after the first removal has already evicted the entry. -/
theorem claim_C2_counterexample :
    decompress_relay_block DS0 DS20 GH0 wireRefs 2 false ⟨⟨[]⟩, cacheA, []⟩ =
      (.error "failed to find referenced transaction", ⟨⟨[]⟩, ⟨[]⟩, [[]]⟩) ∧
    (⟨[]⟩ : TxCache) ≠ cacheA := ⟨rfl, by decide⟩

/-- Closed instance of C2: a header short-read error leaves both caches
unchanged. -/
theorem claim_C2_witness :
    (decompress_relay_block DS0 DS20 GH0 [] 1 false ⟨⟨[]⟩, cacheA, []⟩).1 =
      .error "failed to read block header" ∧
    (decompress_relay_block DS0 DS20 GH0 [] 1 false ⟨⟨[]⟩, cacheA, []⟩).2.send_tx_cache =
      (⟨[]⟩ : TxCache) ∧
    (decompress_relay_block DS0 DS20 GH0 [] 1 false ⟨⟨[]⟩, cacheA, []⟩).2.recv_tx_cache =
      cacheA :=
  ⟨rfl, (claim_C2 DS0 DS20 GH0 [] 1 false ⟨⟨[]⟩, cacheA, []⟩).1,
    (claim_C2 DS0 DS20 GH0 [] 1 false ⟨⟨[]⟩, cacheA, []⟩).2
      "failed to read block header" rfl (by decide) (by decide)⟩

/-! ### Byte-range algebra for the round-trip proof -/

theorem slice_length {l : Blob} {a b : Nat} (hb : b ≤ l.length) (hab : a ≤ b) :
    (slice l a b).length = b - a := by
  unfold slice
  rw [List.length_drop, List.length_take]
  omega

theorem slice_getD {l : Blob} {a b i : Nat} (h1 : a + i < b) (h2 : a + i < l.length) :
    (slice l a b).getD i 0 = l.getD (a + i) 0 := by
  unfold slice
  have hlen : i < ((l.take b).drop a).length := by
    rw [List.length_drop, List.length_take]
    omega
  rw [List.getD_eq_getElem _ _ hlen, List.getElem_drop, List.getElem_take,
    List.getD_eq_getElem _ _ h2]

theorem slice_cat {l : Blob} {a b c : Nat} (hab : a ≤ b) (hbc : b ≤ c)
    (hbl : b ≤ l.length) :
    slice l a b ++ slice l b c = slice l a c := by
  unfold slice
  have h1 : l.take b = (l.take c).take b := by
    rw [List.take_take, Nat.min_eq_left hbc]
  rw [h1]
  conv_rhs => rw [← List.take_append_drop b (l.take c)]
  rw [List.drop_append_eq_append_drop]
  have h3 : ((l.take c).take b).length = b := by
    rw [List.length_take, List.length_take]
    omega
  rw [h3, show a - b = 0 from by omega, List.drop_zero]

theorem slice_to_end (l : Blob) (a : Nat) : slice l a l.length = l.drop a := by
  unfold slice
  rw [List.take_length]

theorem slice_zero (l : Blob) (k : Nat) : slice l 0 k = l.take k := by
  unfold slice
  rw [List.drop_zero]

theorem slice_nil {l : Blob} {a b : Nat} (h : b ≤ a) : slice l a b = [] := by
  unfold slice
  apply List.drop_eq_nil_of_le
  rw [List.length_take]
  omega

theorem take_all_of_len_le {α : Type} {l : List α} {n : Nat} (h : l.length ≤ n) :
    l.take n = l := by
  have := List.take_append_drop n l
  rw [List.drop_eq_nil_of_le h, List.append_nil] at this
  exact this

theorem slice_append_left (pre rest : Blob) (k : Nat) :
    slice (pre ++ rest) pre.length (pre.length + k) = rest.take k := by
  unfold slice
  rw [List.take_append_eq_append_take, show pre.length + k - pre.length = k from by omega,
    take_all_of_len_le (by omega), List.drop_append_eq_append_drop, List.drop_length,
    show pre.length - pre.length = 0 from by omega, List.drop_zero, List.nil_append]

theorem readWire_at (pre rest : Blob) (k : Nat) (hk : k ≤ rest.length) :
    readWire (pre ++ rest) pre.length k = some (rest.take k) := by
  unfold readWire
  rw [if_pos (by rw [List.length_append]; omega), slice_append_left]

/-! ### `findIdx?` inversion -/

theorem findIdx?_go {α : Type} (p : α → Bool) : ∀ (l : List α) (s i : Nat),
    List.findIdx? p l s = some i →
    s ≤ i ∧ i - s < l.length ∧ ∀ d, p (l.getD (i - s) d) = true := by
  intro l
  induction l with
  | nil =>
    intro s i h
    exact absurd h (by simp [List.findIdx?])
  | cons a as ih =>
    intro s i h
    rw [List.findIdx?] at h
    split at h
    · rename_i hpa
      have : s = i := Option.some.inj h
      subst this
      exact ⟨Nat.le_refl _, by simp, fun d => by simpa using hpa⟩
    · obtain ⟨h1, h2, h3⟩ := ih (s + 1) i h
      refine ⟨by omega, by simp; omega, fun d => ?_⟩
      rw [show i - s = (i - (s + 1)) + 1 from by omega, List.getD_cons_succ]
      exact h3 d

theorem findIdx?_some {α : Type} {p : α → Bool} {l : List α} {i : Nat}
    (h : List.findIdx? p l = some i) : i < l.length ∧ ∀ d, p (l.getD i d) = true := by
  have := findIdx?_go p l 0 i h
  simpa using this

/-! ### The depleted-cache view `cacheOf` -/

theorem map_getD_range {α : Type} [Inhabited α] (l : List α) :
    (List.range l.length).map (fun i => l.getD i default) = l := by
  apply List.ext_getElem
  · simp
  · intro i h1 h2
    simp only [List.getElem_map, List.getElem_range]
    rw [List.getD_eq_getElem _ _ h2]

theorem cacheOf_nil (S : TxCache) : cacheOf S [] = S := by
  obtain ⟨es⟩ := S
  unfold cacheOf
  congr 1
  have h : notInUpTo [] (TxCache.mk es).entries.length = List.range es.length := by
    unfold notInUpTo
    apply List.filter_eq_self.mpr
    intro a _
    simp
  rw [h]
  exact map_getD_range es

theorem notInUpTo_cons (q : Nat) (R : List Nat) (n : Nat) :
    notInUpTo (q :: R) n = (notInUpTo R n).filter (fun x => decide (x ≠ q)) := by
  unfold notInUpTo
  rw [List.filter_filter]
  apply List.filter_congr
  intro a _
  by_cases h1 : a = q <;> by_cases h2 : a ∈ R <;> simp [h1, h2]

theorem eraseIdx_nodup_filter : ∀ (l : List Nat), l.Nodup → ∀ (i : Nat), i < l.length →
    l.eraseIdx i = l.filter (fun x => decide (x ≠ l.getD i 0)) := by
  intro l
  induction l with
  | nil =>
    intro _ i h
    simp at h
  | cons a as ih =>
    intro hnd i hi
    cases i with
    | zero =>
      simp only [List.eraseIdx_cons_zero, List.getD_cons_zero, List.filter_cons]
      rw [show (decide (a ≠ a)) = false from by simp, if_neg (by simp)]
      symm
      apply List.filter_eq_self.mpr
      intro x hx
      have hxa : x ≠ a := fun hc => (List.nodup_cons.mp hnd).1 (hc ▸ hx)
      simp [hxa]
    | succ i =>
      have hii : i < as.length := by simpa using hi
      rw [List.eraseIdx_cons_succ, List.getD_cons_succ, List.filter_cons]
      have hq : as.getD i 0 ∈ as := by
        rw [List.getD_eq_getElem _ _ hii]
        exact List.getElem_mem _
      have hcond : (decide (a ≠ as.getD i 0)) = true := by
        simp only [decide_eq_true_eq]
        intro hc
        exact (List.nodup_cons.mp hnd).1 (hc ▸ hq)
      rw [hcond, if_pos rfl]
      congr 1
      exact ih (List.nodup_cons.mp hnd).2 i hii

theorem eraseIdx_map {α β : Type} (f : α → β) : ∀ (l : List α) (i : Nat),
    (l.map f).eraseIdx i = (l.eraseIdx i).map f := by
  intro l
  induction l with
  | nil => intro i; simp
  | cons a as ih =>
    intro i
    cases i with
    | zero => simp
    | succ i => simp [ih]

theorem cacheOf_erase {S : TxCache} {R : List Nat} {v : Nat}
    (hv : v < (notInUpTo R S.entries.length).length) :
    (cacheOf S R).entries.eraseIdx v =
      (cacheOf S ((notInUpTo R S.entries.length).getD v 0 :: R)).entries := by
  unfold cacheOf
  rw [eraseIdx_map]
  congr 1
  rw [eraseIdx_nodup_filter _ (notInUpTo_nodup _ _) v hv]
  exact (notInUpTo_cons _ _ _).symm

theorem cacheOf_getD {S : TxCache} {R : List Nat} {v : Nat}
    (hv : v < (notInUpTo R S.entries.length).length) :
    (cacheOf S R).entries.getD v default =
      S.entries.getD ((notInUpTo R S.entries.length).getD v 0) default := by
  unfold cacheOf
  rw [List.getD_eq_getElem _ _ (by rw [List.length_map]; exact hv), List.getElem_map,
    List.getD_eq_getElem _ _ hv]

theorem removeContent_hit {S : TxCache} {R : List Nat} {tx : Blob} {v : Nat} {C' : TxCache}
    (h : (cacheOf S R).removeContent tx = (some v, C')) :
    v < (notInUpTo R S.entries.length).length ∧
    (S.entries.getD ((notInUpTo R S.entries.length).getD v 0) default).blob = tx ∧
    C' = cacheOf S ((notInUpTo R S.entries.length).getD v 0 :: R) := by
  unfold TxCache.removeContent at h
  split at h
  · exact Option.noConfusion (Prod.mk.injEq _ _ _ _ ▸ h).1
  · rename_i i hfind
    obtain ⟨h1, h2⟩ := Prod.mk.injEq _ _ _ _ ▸ h
    have hv : i = v := Option.some.inj h1
    subst hv
    obtain ⟨hlt, hp⟩ := findIdx?_some hfind
    have hlen : (cacheOf S R).entries.length = (notInUpTo R S.entries.length).length := by
      unfold cacheOf
      rw [List.length_map]
    rw [hlen] at hlt
    refine ⟨hlt, ?_, ?_⟩
    · have hpd := hp default
      rw [cacheOf_getD hlt] at hpd
      exact of_decide_eq_true hpd
    · rw [← h2, cacheOf_erase hlt]

theorem removeContent_miss {c : TxCache} {tx : Blob} {C' : TxCache}
    (h : c.removeContent tx = (none, C')) : C' = c := by
  unfold TxCache.removeContent at h
  split at h
  · exact (Prod.mk.injEq _ _ _ _ ▸ h).2.symm
  · exact Option.noConfusion (Prod.mk.injEq _ _ _ _ ▸ h).1

theorem removeIndex_cacheOf {S : TxCache} {R : List Nat} {key : Nat}
    (hkR : key ∉ R) (hkN : key < S.entries.length) :
    (cacheOf S R).removeIndex (cntNotBelow R key) =
      (some (S.entries.getD key default).blob, cacheOf S (key :: R)) := by
  unfold TxCache.removeIndex
  have hlen : (cacheOf S R).entries.length = (notInUpTo R S.entries.length).length := by
    unfold cacheOf
    rw [List.length_map]
  have hlt : cntNotBelow R key < (notInUpTo R S.entries.length).length :=
    cntNotBelow_lt_length hkR hkN
  rw [if_pos (by rw [hlen]; exact hlt)]
  have hgetD : (notInUpTo R S.entries.length).getD (cntNotBelow R key) 0 = key :=
    getD_notInUpTo_of_not_mem hkR hkN
  have e1 : (cacheOf S R).entries.getD (cntNotBelow R key) default =
      S.entries.getD key default := by
    rw [cacheOf_getD hlt, hgetD]
  have e2 := cacheOf_erase (S := S) (R := R) (v := cntNotBelow R key) hlt
  rw [hgetD] at e2
  rw [e1, e2]

/-! ### Bounds of the transaction-skipping parser -/

theorem read_varint_bounds {blk : Blob} {pos v pos' : Nat}
    (h : read_varint blk pos = some (v, pos')) : pos < pos' ∧ pos' ≤ blk.length := by
  unfold read_varint at h
  split at h
  · rename_i hpos
    split at h
    · have := (Prod.mk.injEq _ _ _ _ ▸ Option.some.inj h).2
      omega
    · split at h
      · split at h
        · have := (Prod.mk.injEq _ _ _ _ ▸ Option.some.inj h).2
          rename_i hb
          omega
        · exact Option.noConfusion h
      · split at h
        · split at h
          · have := (Prod.mk.injEq _ _ _ _ ▸ Option.some.inj h).2
            rename_i hb
            omega
          · exact Option.noConfusion h
        · split at h
          · have := (Prod.mk.injEq _ _ _ _ ▸ Option.some.inj h).2
            rename_i hb
            omega
          · exact Option.noConfusion h
  · exact Option.noConfusion h

theorem skipTxInsGo_bounds {blk : Blob} : ∀ (j pos pos' : Nat),
    skipTxInsGo blk j pos = some pos' →
    pos ≤ pos' ∧ (pos' ≤ blk.length ∨ pos' = pos) := by
  intro j
  induction j with
  | zero =>
    intro pos pos' h
    unfold skipTxInsGo at h
    have := Option.some.inj h
    exact ⟨le_of_eq this, Or.inr this.symm⟩
  | succ j ih =>
    intro pos pos' h
    unfold skipTxInsGo at h
    rw [Option.bind_eq_some] at h
    obtain ⟨pos1, hm1, h⟩ := h
    rw [Option.bind_eq_some] at h
    obtain ⟨sl, hrv, h⟩ := h
    rw [Option.bind_eq_some] at h
    obtain ⟨pos2, hm2, h⟩ := h
    obtain ⟨hp1, hb1⟩ := move_forward_inv hm1
    obtain ⟨hp2, hb2⟩ := read_varint_bounds hrv
    obtain ⟨hp3, hb3⟩ := move_forward_inv hm2
    obtain ⟨hp4, hb4⟩ := ih pos2 pos' h
    refine ⟨by omega, Or.inl ?_⟩
    rcases hb4 with hb4 | hb4 <;> omega

theorem skipTxOutsGo_bounds {blk : Blob} : ∀ (j pos pos' : Nat),
    skipTxOutsGo blk j pos = some pos' →
    pos ≤ pos' ∧ (pos' ≤ blk.length ∨ pos' = pos) := by
  intro j
  induction j with
  | zero =>
    intro pos pos' h
    unfold skipTxOutsGo at h
    have := Option.some.inj h
    exact ⟨le_of_eq this, Or.inr this.symm⟩
  | succ j ih =>
    intro pos pos' h
    unfold skipTxOutsGo at h
    rw [Option.bind_eq_some] at h
    obtain ⟨pos1, hm1, h⟩ := h
    rw [Option.bind_eq_some] at h
    obtain ⟨sl, hrv, h⟩ := h
    rw [Option.bind_eq_some] at h
    obtain ⟨pos2, hm2, h⟩ := h
    obtain ⟨hp1, hb1⟩ := move_forward_inv hm1
    obtain ⟨hp2, hb2⟩ := read_varint_bounds hrv
    obtain ⟨hp3, hb3⟩ := move_forward_inv hm2
    obtain ⟨hp4, hb4⟩ := ih pos2 pos' h
    refine ⟨by omega, Or.inl ?_⟩
    rcases hb4 with hb4 | hb4 <;> omega

theorem skipTx_bounds {blk : Blob} {pos pos' : Nat} (h : skipTx blk pos = some pos') :
    pos ≤ pos' ∧ pos' ≤ blk.length := by
  unfold skipTx at h
  rw [Option.bind_eq_some] at h
  obtain ⟨pos1, hm1, h⟩ := h
  rw [Option.bind_eq_some] at h
  obtain ⟨ins, hrv1, h⟩ := h
  rw [Option.bind_eq_some] at h
  obtain ⟨pos2, hins, h⟩ := h
  rw [Option.bind_eq_some] at h
  obtain ⟨outs, hrv2, h⟩ := h
  rw [Option.bind_eq_some] at h
  obtain ⟨pos3, houts, h⟩ := h
  obtain ⟨hp1, hb1⟩ := move_forward_inv hm1
  obtain ⟨hp2, hb2⟩ := read_varint_bounds hrv1
  obtain ⟨hp3, hb3⟩ := skipTxInsGo_bounds _ _ _ hins
  obtain ⟨hp4, hb4⟩ := read_varint_bounds hrv2
  obtain ⟨hp5, hb5⟩ := skipTxOutsGo_bounds _ _ _ houts
  obtain ⟨hp6, hb6⟩ := move_forward_inv h
  omega

theorem compressLoop_basic {blk : Blob} : ∀ (n pos : Nat) (cache : TxCache)
    {recs : List CompressTxRecord} {fin : Nat} {cacheF : TxCache},
    compressTxLoop blk n pos cache = (some (recs, fin), cacheF) →
    recs.length = n ∧ pos ≤ fin ∧ (fin ≤ blk.length ∨ fin = pos) ∧
    (recs.map CompressTxRecord.bytes).flatten = slice blk pos fin := by
  intro n
  induction n with
  | zero =>
    intro pos cache recs fin cacheF h
    unfold compressTxLoop at h
    obtain ⟨h1, -⟩ := Prod.mk.injEq _ _ _ _ ▸ h
    obtain ⟨h2, h3⟩ := Prod.mk.injEq _ _ _ _ ▸ Option.some.inj h1
    subst h2
    refine ⟨rfl, le_of_eq h3, Or.inr h3.symm, ?_⟩
    rw [← h3]
    exact (slice_nil (Nat.le_refl _)).symm
  | succ n ih =>
    intro pos cache recs fin cacheF h
    unfold compressTxLoop at h
    split at h
    · exact Option.noConfusion (Prod.mk.injEq _ _ _ _ ▸ h).1
    · rename_i txend hsk
      rcases hrc : cache.removeContent (slice blk pos txend) with ⟨idx, cache'⟩
      rw [hrc] at h
      dsimp only at h
      split at h
      · exact Option.noConfusion (Prod.mk.injEq _ _ _ _ ▸ h).1
      · rename_i recs' fin' cacheF' heq
        obtain ⟨h1, -⟩ := Prod.mk.injEq _ _ _ _ ▸ h
        obtain ⟨h2, h3⟩ := Prod.mk.injEq _ _ _ _ ▸ Option.some.inj h1
        subst h3
        rw [← h2]
        obtain ⟨hl, hf1, hf2, hflat⟩ := ih txend cache' heq
        obtain ⟨hs1, hs2⟩ := skipTx_bounds hsk
        refine ⟨by simp [hl], by omega, Or.inl (by omega), ?_⟩
        simp only [List.map_cons, List.flatten_cons, hflat]
        exact slice_cat hs1 hf1 hs2

theorem notInUpTo_cons_le (q : Nat) (T : List Nat) (n : Nat) :
    (notInUpTo (q :: T) n).length ≤ (notInUpTo T n).length := by
  rw [notInUpTo_cons]
  exact List.length_filter_le _ _

/-- The compression loop over the depleted-cache view: the decoded original
positions of its cache hits are in range, each one holds exactly the bytes
of the transaction that hit it, and every emitted hit index is an index
into the starting cache. -/
theorem compressLoop_ghost {blk : Blob} {S : TxCache} : ∀ (n pos : Nat) (T : List Nat)
    {recs : List CompressTxRecord} {fin : Nat} {cacheF : TxCache},
    compressTxLoop blk n pos (cacheOf S T) = (some (recs, fin), cacheF) →
    (∀ p ∈ decodeP T (recs.filterMap CompressTxRecord.cacheIdx), p < S.entries.length) ∧
    List.Forall₂ (fun p b => (S.entries.getD p default).blob = b)
      (decodeP T (recs.filterMap CompressTxRecord.cacheIdx))
      (recs.filterMap fun r => r.cacheIdx.map fun _ => r.bytes) ∧
    (∀ r ∈ recs, ∀ v, r.cacheIdx = some v →
      v < (notInUpTo T S.entries.length).length) := by
  intro n
  induction n with
  | zero =>
    intro pos T recs fin cacheF h
    unfold compressTxLoop at h
    obtain ⟨h1, -⟩ := Prod.mk.injEq _ _ _ _ ▸ h
    obtain ⟨h2, -⟩ := Prod.mk.injEq _ _ _ _ ▸ Option.some.inj h1
    subst h2
    exact ⟨by simp [decodeP], by simp [decodeP], by simp⟩
  | succ n ih =>
    intro pos T recs fin cacheF h
    unfold compressTxLoop at h
    split at h
    · exact Option.noConfusion (Prod.mk.injEq _ _ _ _ ▸ h).1
    · rename_i txend hsk
      rcases hrc : (cacheOf S T).removeContent (slice blk pos txend) with ⟨idx, cache'⟩
      rw [hrc] at h
      dsimp only at h
      split at h
      · exact Option.noConfusion (Prod.mk.injEq _ _ _ _ ▸ h).1
      · rename_i recs' fin' cacheF' heq
        obtain ⟨h1, -⟩ := Prod.mk.injEq _ _ _ _ ▸ h
        obtain ⟨h2, -⟩ := Prod.mk.injEq _ _ _ _ ▸ Option.some.inj h1
        rw [← h2]
        cases idx with
        | none =>
          have hc' : cache' = cacheOf S T := removeContent_miss hrc
          rw [hc'] at heq
          obtain ⟨g1, g2, g3⟩ := ih txend T heq
          refine ⟨?_, ?_, ?_⟩
          · simpa [List.filterMap_cons] using g1
          · simpa [List.filterMap_cons] using g2
          · intro r hr v hv
            rcases List.mem_cons.mp hr with hr | hr
            · rw [hr] at hv
              exact Option.noConfusion hv
            · exact g3 r hr v hv
        | some v =>
          obtain ⟨hvlt, hblob, hC'⟩ := removeContent_hit hrc
          rw [hC'] at heq
          obtain ⟨g1, g2, g3⟩ := ih txend _ heq
          have hq : nthNotIn T v = (notInUpTo T S.entries.length).getD v 0 :=
            nthNotIn_eq_getD hvlt
          have hqmem : (notInUpTo T S.entries.length).getD v 0 ∈
              notInUpTo T S.entries.length := by
            rw [List.getD_eq_getElem _ _ hvlt]
            exact List.getElem_mem _
          have hqlt : (notInUpTo T S.entries.length).getD v 0 < S.entries.length :=
            (mem_notInUpTo.mp hqmem).1
          refine ⟨?_, ?_, ?_⟩
          · intro p hp
            simp only [List.filterMap_cons, Option.some.injEq] at hp
            rw [decodeP] at hp
            rcases List.mem_cons.mp hp with hp | hp
            · rw [hp, hq]
              exact hqlt
            · rw [hq] at hp
              exact g1 p hp
          · simp only [List.filterMap_cons]
            rw [decodeP]
            refine List.Forall₂.cons ?_ ?_
            · rw [hq]
              exact hblob
            · rw [hq]
              exact g2
          · intro r hr v' hv'
            rcases List.mem_cons.mp hr with hr | hr
            · rw [hr] at hv'
              have : v = v' := Option.some.inj hv'
              rw [← this]
              exact hvlt
            · exact Nat.lt_of_lt_of_le (g3 r hr v' hv') (notInUpTo_cons_le _ _ _)

/-! ### The read loop recovers the emitted pieces -/

theorem be16_decode {v : Nat} (h : v < 65536) :
    (be16 v).getD 0 0 % 256 * 256 + (be16 v).getD 1 0 % 256 = v := by
  unfold be16
  simp only [List.getD_cons_zero, List.getD_cons_succ]
  omega

theorem be24_decode {L : Nat} (h : L < 16777216) :
    (be24 L).getD 0 0 % 256 * 65536 + (be24 L).getD 1 0 % 256 * 256 +
      (be24 L).getD 2 0 % 256 = L := by
  unfold be24
  simp only [List.getD_cons_zero, List.getD_cons_succ]
  omega

theorem readLoop_pieces : ∀ (recs : List CompressTxRecord) (pre : Blob) (wb : Nat),
    (∀ r ∈ recs, (∀ v, r.cacheIdx = some v → v < 65535) ∧
      (r.cacheIdx = none → r.bytes.length ≤ 1000000)) →
    ∃ fp fwb, decompressReadLoop (pre ++ (recs.map txPiece).flatten) recs.length
      pre.length wb = .ok (recs.map recToDec, fp, fwb) := by
  intro recs
  induction recs with
  | nil =>
    intro pre wb _
    exact ⟨pre.length, wb, rfl⟩
  | cons r rs ih =>
    intro pre wb hwf
    have hrs : ∀ r' ∈ rs, (∀ v, r'.cacheIdx = some v → v < 65535) ∧
        (r'.cacheIdx = none → r'.bytes.length ≤ 1000000) :=
      fun r' hr' => hwf r' (List.mem_cons_of_mem _ hr')
    cases hidx : r.cacheIdx with
    | some v =>
      have hv : v < 65535 := (hwf r (List.mem_cons_self _ _)).1 v hidx
      have hpiece : txPiece r = be16 v := by
        unfold txPiece
        rw [hidx]
      have hflat : (List.map txPiece (r :: rs)).flatten =
          be16 v ++ (List.map txPiece rs).flatten := by
        simp [hpiece]
      have hread : readWire (pre ++ (List.map txPiece (r :: rs)).flatten) pre.length 2 =
          some (be16 v) := by
        rw [hflat, readWire_at _ _ 2 (by simp [be16]),
          show (2 : Nat) = (be16 v).length from by simp [be16], List.take_left]
      have hdec : (be16 v).getD 0 0 % 256 * 256 + (be16 v).getD 1 0 % 256 = v :=
        be16_decode (by omega)
      have hwire : (pre ++ be16 v) ++ (List.map txPiece rs).flatten =
          pre ++ (List.map txPiece (r :: rs)).flatten := by
        rw [hflat, List.append_assoc]
      have hlen : (pre ++ be16 v).length = pre.length + 2 := by
        simp [be16]
      obtain ⟨fp, fwb, hrec⟩ := ih (pre ++ be16 v) (wb + 2) hrs
      rw [hwire, hlen] at hrec
      refine ⟨fp, fwb, ?_⟩
      show decompressReadLoop _ (rs.length + 1) _ _ = _
      unfold decompressReadLoop
      rw [hread]
      dsimp only
      rw [if_neg (by rw [hdec]; omega), hrec]
      dsimp only
      rw [List.map_cons, show recToDec r = ⟨v, none⟩ from by unfold recToDec; rw [hidx],
        hdec]
    | none =>
      have hL : r.bytes.length ≤ 1000000 := (hwf r (List.mem_cons_self _ _)).2 hidx
      have hpiece : txPiece r = [255, 255] ++ be24 r.bytes.length ++ r.bytes := by
        unfold txPiece
        rw [hidx]
      have hflat : (List.map txPiece (r :: rs)).flatten =
          [255, 255] ++ (be24 r.bytes.length ++ (r.bytes ++
            (List.map txPiece rs).flatten)) := by
        simp [hpiece]
      have hread1 : readWire (pre ++ (List.map txPiece (r :: rs)).flatten) pre.length 2 =
          some [255, 255] := by
        rw [hflat, readWire_at _ _ 2 (by simp),
          show (2 : Nat) = ([255, 255] : Blob).length from rfl, List.take_left]
      have hread2 : readWire (pre ++ (List.map txPiece (r :: rs)).flatten)
          (pre.length + 2) 3 = some (be24 r.bytes.length) := by
        have hw : pre ++ (List.map txPiece (r :: rs)).flatten =
            (pre ++ [255, 255]) ++ (be24 r.bytes.length ++
              (r.bytes ++ (List.map txPiece rs).flatten)) := by
          rw [hflat]
          simp [List.append_assoc]
        have hl2 : (pre ++ [255, 255]).length = pre.length + 2 := by simp
        rw [hw, ← hl2, readWire_at _ _ 3 (by simp [be24]),
          show (3 : Nat) = (be24 r.bytes.length).length from by simp [be24],
          List.take_left]
      have hdec24 : (be24 r.bytes.length).getD 0 0 % 256 * 65536 +
          (be24 r.bytes.length).getD 1 0 % 256 * 256 +
          (be24 r.bytes.length).getD 2 0 % 256 = r.bytes.length :=
        be24_decode (by omega)
      have htl : (txPiece r).length = 5 + r.bytes.length := by
        rw [hpiece]
        simp [be24]
        omega
      have hread3 : readWire (pre ++ (List.map txPiece (r :: rs)).flatten)
          (pre.length + 5) r.bytes.length = some r.bytes := by
        have hw : pre ++ (List.map txPiece (r :: rs)).flatten =
            (pre ++ ([255, 255] ++ be24 r.bytes.length)) ++
              (r.bytes ++ (List.map txPiece rs).flatten) := by
          rw [hflat]
          simp [List.append_assoc]
        have hl5 : (pre ++ ([255, 255] ++ be24 r.bytes.length)).length = pre.length + 5 := by
          simp [be24]
        rw [hw, ← hl5, readWire_at _ _ _ (by simp), List.take_left]
      have hwire : (pre ++ txPiece r) ++ (List.map txPiece rs).flatten =
          pre ++ (List.map txPiece (r :: rs)).flatten := by
        rw [hflat, hpiece]
        simp [List.append_assoc]
      have hlen : (pre ++ txPiece r).length = pre.length + 5 + r.bytes.length := by
        rw [List.length_append, htl]
        omega
      obtain ⟨fp, fwb, hrec⟩ := ih (pre ++ txPiece r) (wb + 2 + 3 + r.bytes.length) hrs
      rw [hwire, hlen] at hrec
      refine ⟨fp, fwb, ?_⟩
      show decompressReadLoop _ (rs.length + 1) _ _ = _
      unfold decompressReadLoop
      rw [hread1]
      dsimp only
      rw [if_pos (by decide), hread2]
      dsimp only
      rw [hdec24, if_neg (by omega), hread3]
      dsimp only
      rw [hrec]
      dsimp only
      rw [List.map_cons,
        show recToDec r = ⟨65535, some r.bytes⟩ from by unfold recToDec; rw [hidx]]

/-! ### The reference list `txn_ptrs` of the recovered records -/

theorem decompressPtrs_cons (r : DecompressTxRecord) (rs : List DecompressTxRecord) :
    decompressPtrs (r :: rs) =
      (match r.data with
        | none => [(⟨r.index, 0⟩ : IndexPtr)]
        | some _ => []) ++
      (decompressPtrs rs).map (fun p => ⟨p.index, p.pos + 1⟩) := by
  unfold decompressPtrs
  rw [List.length_cons, List.range_succ_eq_map, List.zip_cons_cons, List.filterMap_cons,
    List.zip_map_left, List.filterMap_map, List.map_filterMap]
  have hfun : (fun ir : Nat × DecompressTxRecord =>
      (match ir.2.data with
        | none => some (⟨ir.2.index, ir.1⟩ : IndexPtr)
        | some _ => none).map (fun p : IndexPtr => ⟨p.index, p.pos + 1⟩)) =
      ((fun ir : Nat × DecompressTxRecord =>
        match ir.2.data with
        | none => some (⟨ir.2.index, ir.1⟩ : IndexPtr)
        | some _ => none) ∘ Prod.map Nat.succ id) := by
    funext ir
    rcases ir with ⟨i, rr⟩
    show (match rr.data with
      | none => some (⟨rr.index, i⟩ : IndexPtr)
      | some _ => none).map (fun p : IndexPtr => ⟨p.index, p.pos + 1⟩) =
      (match rr.data with
        | none => some (⟨rr.index, i + 1⟩ : IndexPtr)
        | some _ => none)
    cases hd : rr.data <;> simp [hd]
  rw [← hfun]
  cases hd : r.data <;> simp [hd]

theorem refs_bundle : ∀ (recs : List CompressTxRecord),
    ((decompressPtrs (recs.map recToDec)).map IndexPtr.index =
      recs.filterMap CompressTxRecord.cacheIdx) ∧
    ((decompressPtrs (recs.map recToDec)).map IndexPtr.pos).Pairwise (· < ·) ∧
    List.Forall₂ (fun (e : IndexPtr) (b : Blob) =>
      recs.getD e.pos default = ⟨b, some e.index⟩)
      (decompressPtrs (recs.map recToDec))
      (recs.filterMap fun r => r.cacheIdx.map fun _ => r.bytes) ∧
    (∀ e ∈ decompressPtrs (recs.map recToDec), e.pos < recs.length) ∧
    (∀ q, q < recs.length → (recs.getD q default).cacheIdx ≠ none →
      ∃ e ∈ decompressPtrs (recs.map recToDec), e.pos = q) := by
  intro recs
  induction recs with
  | nil =>
    refine ⟨rfl, ?_, ?_, ?_, ?_⟩
    · exact List.Pairwise.nil
    · exact List.Forall₂.nil
    · intro e he
      simp [decompressPtrs] at he
    · intro q hq
      simp at hq
  | cons r rs ih =>
    obtain ⟨ihA, ihB, ihC, ihD, ihE⟩ := ih
    rw [List.map_cons, decompressPtrs_cons]
    cases hidx : r.cacheIdx with
    | some v =>
      have hrd : (recToDec r).data = none := by
        unfold recToDec
        rw [hidx]
      have hri : (recToDec r).index = v := by
        unfold recToDec
        rw [hidx]
      rw [hrd, hri]
      simp only [List.cons_append, List.nil_append]
      refine ⟨?_, ?_, ?_, ?_, ?_⟩
      · rw [List.map_cons, List.map_map, List.filterMap_cons, hidx]
        refine congrArg₂ List.cons rfl ?_
        exact (List.map_congr_left fun e _ => rfl).trans ihA
      · rw [List.map_cons, List.map_map]
        refine List.Pairwise.cons ?_ ?_
        · intro b hb
          obtain ⟨e, -, hpe⟩ := List.mem_map.mp hb
          show (⟨v, 0⟩ : IndexPtr).pos < b
          have h0 : (⟨v, 0⟩ : IndexPtr).pos = 0 := rfl
          have h1 : (IndexPtr.pos ∘ fun p : IndexPtr => ⟨p.index, p.pos + 1⟩) e =
            e.pos + 1 := rfl
          omega
        · have := List.Pairwise.map (fun p : Nat => p + 1)
            (fun a b hab => by omega : ∀ a b : Nat, a < b → a + 1 < b + 1) ihB
          rw [List.map_map] at this
          exact this
      · have hfm : ((r :: rs).filterMap fun r' => r'.cacheIdx.map fun _ => r'.bytes) =
            r.bytes :: (rs.filterMap fun r' => r'.cacheIdx.map fun _ => r'.bytes) := by
          rw [List.filterMap_cons, hidx]
          rfl
        rw [hfm]
        refine List.Forall₂.cons ?_ ?_
        · show (r :: rs).getD 0 default = ⟨r.bytes, some v⟩
          rw [List.getD_cons_zero, ← hidx]
        · rw [List.forall₂_map_left_iff]
          refine ihC.imp ?_
          intro e b hr
          show (r :: rs).getD (e.pos + 1) default = _
          rw [List.getD_cons_succ]
          exact hr
      · intro e he
        rcases List.mem_cons.mp he with he | he
        · rw [he]
          simp
        · obtain ⟨e', he', hee⟩ := List.mem_map.mp he
          have := ihD e' he'
          rw [← hee]
          simp only [List.length_cons]
          omega
      · intro q hq hne
        cases q with
        | zero =>
          exact ⟨⟨v, 0⟩, List.mem_cons_self _ _, rfl⟩
        | succ q =>
          rw [List.getD_cons_succ] at hne
          obtain ⟨e, he, hpe⟩ := ihE q (by simpa using hq) hne
          exact ⟨⟨e.index, e.pos + 1⟩, List.mem_cons_of_mem _
            (List.mem_map.mpr ⟨e, he, rfl⟩), by simp [hpe]⟩
    | none =>
      have hrd : (recToDec r).data = some r.bytes := by
        unfold recToDec
        rw [hidx]
      rw [hrd]
      simp only [List.nil_append]
      refine ⟨?_, ?_, ?_, ?_, ?_⟩
      · rw [List.map_map, List.filterMap_cons, hidx]
        exact (List.map_congr_left fun e _ => rfl).trans ihA
      · rw [List.map_map]
        have := List.Pairwise.map (fun p : Nat => p + 1)
          (fun a b hab => by omega : ∀ a b : Nat, a < b → a + 1 < b + 1) ihB
        rw [List.map_map] at this
        exact this
      · have hfm : ((r :: rs).filterMap fun r' => r'.cacheIdx.map fun _ => r'.bytes) =
            rs.filterMap fun r' => r'.cacheIdx.map fun _ => r'.bytes := by
          rw [List.filterMap_cons, hidx]
          rfl
        rw [hfm, List.forall₂_map_left_iff]
        refine ihC.imp ?_
        intro e b hr
        show (r :: rs).getD (e.pos + 1) default = _
        rw [List.getD_cons_succ]
        exact hr
      · intro e he
        obtain ⟨e', he', hee⟩ := List.mem_map.mp he
        have := ihD e' he'
        rw [← hee]
        simp only [List.length_cons]
        omega
      · intro q hq hne
        cases q with
        | zero =>
          rw [List.getD_cons_zero] at hne
          exact absurd hidx hne
        | succ q =>
          rw [List.getD_cons_succ] at hne
          obtain ⟨e, he, hpe⟩ := ihE q (by simpa using hq) hne
          exact ⟨⟨e.index, e.pos + 1⟩, List.mem_map.mpr ⟨e, he, rfl⟩, by simp [hpe]⟩

/-! ### The removal loop retrieves the decoded originals -/

theorem cntNotBelow_congr_below {S T : List Nat} {x : Nat}
    (h : ∀ a, a < x → (a ∈ S ↔ a ∈ T)) : cntNotBelow S x = cntNotBelow T x := by
  unfold cntNotBelow notInUpTo
  congr 1
  apply List.filter_congr
  intro a ha
  rw [List.mem_range] at ha
  by_cases h1 : a ∈ S
  · simp [h1, (h a ha).mp h1]
  · have h2 : a ∉ T := fun hc => h1 ((h a ha).mpr hc)
    simp [h1, h2]

theorem pos_zipWith_mk (ks ps : List Nat) (h : ps.length ≤ ks.length) :
    (List.zipWith (fun k p => (⟨k, p⟩ : KeyedPtr)) ks ps).map KeyedPtr.pos = ps := by
  induction ks generalizing ps with
  | nil =>
    cases ps with
    | nil => rfl
    | cons p ps => simp at h
  | cons k ks ih =>
    cases ps with
    | nil => rfl
    | cons p ps =>
      simp only [List.length_cons] at h
      simp [ih ps (by omega)]

theorem map_adjust_eq_adjustedRefs (ps : List Nat) (hps : ps.Nodup) :
    ∀ (kl : List KeyedPtr) (R : List Nat),
    ((kl.map KeyedPtr.key).Pairwise (· < ·)) →
    (∀ a, a ∈ ps ↔ (a ∈ R ∨ a ∈ kl.map KeyedPtr.key)) →
    (∀ a ∈ R, a ∉ kl.map KeyedPtr.key) →
    R.Nodup →
    kl.map (adjustKey ps) = adjustedRefs R kl := by
  intro kl
  induction kl with
  | nil =>
    intro R _ _ _ _
    rfl
  | cons e es ih =>
    intro R hsort hmem hdisj hRnd
    rw [List.map_cons, adjustedRefs]
    rw [List.map_cons, List.pairwise_cons] at hsort
    obtain ⟨hlt, htail⟩ := hsort
    congr 1
    · rw [adjustKey_eq_cntNotBelow hps e]
      congr 1
      apply cntNotBelow_congr_below
      intro a ha
      constructor
      · intro hp
        rcases (hmem a).mp hp with hr | hk
        · exact hr
        · rcases List.mem_cons.mp hk with hk | hk
          · omega
          · have := hlt a hk
            omega
      · intro hr
        exact (hmem a).mpr (Or.inl hr)
    · apply ih (e.key :: R) htail
      · intro a
        rw [hmem a]
        simp only [List.map_cons, List.mem_cons]
        tauto
      · intro a ha hk
        rcases List.mem_cons.mp ha with ha | ha
        · rw [ha] at hk
          exact absurd (hlt e.key hk) (lt_irrefl _)
        · exact hdisj a ha (List.mem_cons_of_mem _ hk)
      · refine List.nodup_cons.mpr ⟨?_, hRnd⟩
        intro hc
        exact hdisj e.key hc (List.mem_cons_self _ _)

theorem removeLoop_go (S : TxCache) : ∀ (kl : List KeyedPtr) (R : List Nat)
    (td : List (Option Blob)),
    ((kl.map KeyedPtr.key).Pairwise (· < ·)) →
    (∀ e ∈ kl, e.key < S.entries.length) →
    (∀ e ∈ kl, e.key ∉ R) →
    ∃ C', decompressRemoveLoop (adjustedRefs R kl) (cacheOf S R) td =
      (.ok (kl.foldl (fun td' e =>
        td'.set e.pos (some (S.entries.getD e.key default).blob)) td), C') := by
  intro kl
  induction kl with
  | nil =>
    intro R td _ _ _
    exact ⟨cacheOf S R, rfl⟩
  | cons e es ih =>
    intro R td hsort hlt hnotR
    rw [List.map_cons, List.pairwise_cons] at hsort
    obtain ⟨hhd, htail⟩ := hsort
    rw [adjustedRefs]
    unfold decompressRemoveLoop
    have hri := removeIndex_cacheOf (S := S)
      (hnotR e (List.mem_cons_self _ _)) (hlt e (List.mem_cons_self _ _))
    rw [show ((⟨cntNotBelow R e.key, e.pos⟩ : IndexPtr)).index = cntNotBelow R e.key
      from rfl, hri]
    dsimp only
    obtain ⟨C', hC'⟩ := ih (e.key :: R)
      (td.set (⟨cntNotBelow R e.key, e.pos⟩ : IndexPtr).pos
        (some (S.entries.getD e.key default).blob))
      htail
      (fun e' he' => hlt e' (List.mem_cons_of_mem _ he'))
      (fun e' he' => by
        rw [List.mem_cons, not_or]
        exact ⟨fun hc => absurd (hc ▸ hhd e'.key (List.mem_map_of_mem _ he'))
          (lt_irrefl _), hnotR e' (List.mem_cons_of_mem _ he')⟩)
    rw [hC', List.foldl_cons]
    exact ⟨C', rfl⟩

theorem foldl_set_eq {β : Type} (d : β) (f : KeyedPtr → β) :
    ∀ (l : List KeyedPtr) (td tgt : List β),
    (l.map KeyedPtr.pos).Nodup →
    td.length = tgt.length →
    (∀ e ∈ l, e.pos < tgt.length ∧ f e = tgt.getD e.pos d) →
    (∀ q, q < tgt.length → (∀ e ∈ l, e.pos ≠ q) → td.getD q d = tgt.getD q d) →
    l.foldl (fun td' e => td'.set e.pos (f e)) td = tgt := by
  intro l
  induction l with
  | nil =>
    intro td tgt _ hlen hmem hoff
    apply List.ext_getElem hlen
    intro i h1 h2
    have := hoff i h2 (by simp)
    rw [List.getD_eq_getElem _ _ h1, List.getD_eq_getElem _ _ h2] at this
    exact this
  | cons e es ih =>
    intro td tgt hnd hlen hmem hoff
    rw [List.map_cons, List.nodup_cons] at hnd
    obtain ⟨hnd1, hnd2⟩ := hnd
    rw [List.foldl_cons]
    apply ih (td.set e.pos (f e)) tgt hnd2
    · rw [List.length_set]
      exact hlen
    · exact fun e' he' => hmem e' (List.mem_cons_of_mem _ he')
    · intro q hq hoffq
      by_cases hqe : e.pos = q
      · subst hqe
        rw [getD_set_self (by rw [hlen]; exact (hmem e (List.mem_cons_self _ _)).1)]
        exact (hmem e (List.mem_cons_self _ _)).2
      · rw [getD_set_ne hqe]
        apply hoff q hq
        intro e' he'
        rcases List.mem_cons.mp he' with he' | he'
        · rw [he']
          exact hqe
        · exact hoffq e' he'

theorem getD_map_of_lt {α β : Type} (g : α → β) {l : List α} {i : Nat} (d : β) (dd : α)
    (h : i < l.length) : (l.map g).getD i d = g (l.getD i dd) := by
  rw [List.getD_eq_getElem _ _ (by rw [List.length_map]; exact h), List.getElem_map,
    List.getD_eq_getElem _ _ h]

theorem annotate_getElem (l : List IndexPtr) (i : Nat) (h : i < (annotate l).length) :
    (annotate l)[i] = ⟨(decodeP [] (l.map IndexPtr.index)).getD i 0,
      (l.map IndexPtr.pos).getD i 0⟩ := by
  have hlen : (annotate l).length = l.length := by
    unfold annotate
    rw [List.length_zipWith, decodeP_length]
    simp
  have h1 : i < (decodeP [] (l.map IndexPtr.index)).length := by
    rw [decodeP_length]
    simp
    omega
  have h2 : i < (l.map IndexPtr.pos).length := by
    simp
    omega
  unfold annotate
  rw [List.getElem_zipWith]
  rw [List.getD_eq_getElem _ _ h1, List.getD_eq_getElem _ _ h2]

/-- A successful compression emits the relay header, the 80 block-header
bytes, and the per-transaction pieces of its cache-removal loop. -/
theorem maybe_compress_ok_shape {DS : Blob → Blob} {DS2 : Blob → Blob → Blob}
    {hash block : Blob} {cm : Bool} {st : RelayNodeState} {comp : Blob}
    {st' : RelayNodeState}
    (h : maybe_compress_block DS DS2 hash block cm st = (.ok comp, st'))
    {txcount pos5 : Nat} (hp : compressParseHeader block = .ok (txcount, pos5))
    {recs : List CompressTxRecord} {fin : Nat} {cacheF : TxCache}
    (hl : compressTxLoop block txcount pos5 st.send_tx_cache =
      (some (recs, fin), cacheF)) :
    comp = RELAY_MAGIC_BYTES ++ BLOCK_TYPE ++ be32 txcount ++ slice block 24 104 ++
      (recs.map txPiece).flatten := by
  unfold maybe_compress_block at h
  split at h
  · exact Except.noConfusion (Prod.mk.injEq _ _ _ _ ▸ h).1
  · split at h
    · exact Except.noConfusion (Prod.mk.injEq _ _ _ _ ▸ h).1
    · rw [hp] at h
      dsimp only at h
      rw [hl] at h
      dsimp only at h
      split at h
      · exact Except.noConfusion (Prod.mk.injEq _ _ _ _ ▸ h).1
      · exact (Except.ok.inj (Prod.mk.injEq _ _ _ _ ▸ h).1).symm

/-- C1 (amended): the round trip.  If `maybe_compress_block` accepts `B`
— with the transaction-count varint canonically encoded, the parse
consuming the whole block, every inline transaction within the 1000000-byte
decompression cap, and the send cache within the 16-bit index range — then
feeding the compressed body to `decompress_relay_block` (count from the
relay header, `check_merkle = false`) against a receive cache equal in
content and order to the send cache succeeds and rebuilds `B` byte-equal
from the 80-byte header onward. -/
theorem claim_C1 (DS : Blob → Blob) (DS2 : Blob → Blob → Blob) (GH : Blob → Blob)
    (hash B : Blob) (cm : Bool) (st : RelayNodeState)
    (txcount pos5 : Nat) (recs : List CompressTxRecord) (cacheF : TxCache)
    (sc2 : TxCache) (seen2 : List Blob) (comp : Blob) (st' : RelayNodeState)
    (hparse : compressParseHeader B = .ok (txcount, pos5))
    (hcanon : slice B 104 pos5 = varint txcount)
    (hloop : compressTxLoop B txcount pos5 st.send_tx_cache =
      (some (recs, B.length), cacheF))
    (hinline : ∀ r ∈ recs, r.cacheIdx = none → r.bytes.length ≤ 1000000)
    (hcache : st.send_tx_cache.entries.length ≤ 65535)
    (hcomp : maybe_compress_block DS DS2 hash B cm st = (.ok comp, st')) :
    ∃ out st2,
      decompress_relay_block DS DS2 GH (comp.drop 12) txcount false
        ⟨sc2, st.send_tx_cache, seen2⟩ = (.ok out, st2) ∧
      out.block.drop 24 = B.drop 24 := by
  set S := st.send_tx_cache with hS
  -- parse facts
  have hcases := compressParseHeader_cases B hparse
  rcases hcases with ⟨-, hc⟩ | ⟨-, -, hc⟩ | ⟨-, -, -, hc⟩ | ⟨-, -, -, -, hc⟩ |
    ⟨t, p, -, -, -, -, -, hc⟩ | ⟨t, p, h28, hvf, h104, hrv, ht1, ht2, hc⟩
  · exact Except.noConfusion hc
  · exact Except.noConfusion hc
  · exact Except.noConfusion hc
  · exact Except.noConfusion hc
  · exact Except.noConfusion hc
  have htp := Except.ok.inj hc
  have htc : txcount = t := congrArg Prod.fst htp
  have hpc : pos5 = p := congrArg Prod.snd htp
  subst htc
  subst hpc
  obtain ⟨hrv1, hrv2⟩ := read_varint_bounds hrv
  -- compression loop facts
  have hloop' : compressTxLoop B txcount pos5 (cacheOf S []) =
      (some (recs, B.length), cacheF) := by
    rw [cacheOf_nil]
    exact hloop
  obtain ⟨hrlen, hposfin, -, hflatten⟩ := compressLoop_basic txcount pos5 S hloop
  obtain ⟨gBound, gF2, gIdx⟩ := compressLoop_ghost txcount pos5 [] hloop'
  have hNlen : (notInUpTo [] S.entries.length).length = S.entries.length := by
    unfold notInUpTo
    rw [List.filter_eq_self.mpr (fun a _ => by simp), List.length_range]
  -- piece wellformedness
  have hwf : ∀ r ∈ recs, (∀ v, r.cacheIdx = some v → v < 65535) ∧
      (r.cacheIdx = none → r.bytes.length ≤ 1000000) := by
    intro r hr
    refine ⟨fun v hv => ?_, hinline r hr⟩
    have := gIdx r hr v hv
    rw [hNlen] at this
    omega
  -- the compressed body
  have hshape := maybe_compress_ok_shape hcomp hparse hloop
  have hbody : comp.drop 12 = slice B 24 104 ++ (recs.map txPiece).flatten := by
    rw [hshape]
    simp [RELAY_MAGIC_BYTES, BLOCK_TYPE, be32]
  have hhdrlen : (slice B 24 104).length = 80 :=
    slice_length (by omega) (by omega)
  -- the read loop
  obtain ⟨fp, fwb, hRL⟩ := readLoop_pieces recs (slice B 24 104) 12 hwf
  rw [hhdrlen, hrlen] at hRL
  -- the reference list
  obtain ⟨bA, bB, bC, bD, bE⟩ := refs_bundle recs
  have hidxlt : ∀ e ∈ decompressPtrs (recs.map recToDec), e.index < 65536 := by
    intro e he
    have hmem : e.index ∈ recs.filterMap CompressTxRecord.cacheIdx := by
      rw [← bA]
      exact List.mem_map_of_mem _ he
    obtain ⟨r, hr, hri⟩ := List.mem_filterMap.mp hmem
    have := gIdx r hr e.index hri
    rw [hNlen] at this
    omega
  have hts : tweak_sort (decompressPtrs (recs.map recToDec)) =
      tweakSpec (decompressPtrs (recs.map recToDec)) :=
    tweak_sort_eq_tweakSpec _ hidxlt
  -- keys of the sorted annotated references
  have hpsnodup : (decodeP [] (recs.filterMap CompressTxRecord.cacheIdx)).Nodup :=
    decodeP_nodup _ _
  have hannkeys : (annotate (decompressPtrs (recs.map recToDec))).map KeyedPtr.key =
      decodeP [] (recs.filterMap CompressTxRecord.cacheIdx) := by
    rw [annotate_keys, bA]
  have hklperm : ((sortByKey (annotate (decompressPtrs
      (recs.map recToDec)))).map KeyedPtr.key).Perm
      (decodeP [] (recs.filterMap CompressTxRecord.cacheIdx)) := by
    rw [← hannkeys]
    exact (sortByKey_perm _).map _
  have hklsorted : (((sortByKey (annotate (decompressPtrs
      (recs.map recToDec)))).map KeyedPtr.key).Pairwise (· < ·)) := by
    rw [List.pairwise_map]
    exact sortByKey_pairwise_lt (by rw [hannkeys]; exact hpsnodup)
  have hTS : tweakSpec (decompressPtrs (recs.map recToDec)) =
      adjustedRefs [] (sortByKey (annotate (decompressPtrs (recs.map recToDec)))) := by
    unfold tweakSpec
    rw [bA]
    apply map_adjust_eq_adjustedRefs _ hpsnodup _ [] hklsorted
    · intro a
      rw [hklperm.mem_iff]
      simp
    · intro a ha
      exact absurd ha (List.not_mem_nil a)
    · exact List.nodup_nil
  -- the removal loop
  have hkeyslt : ∀ e ∈ sortByKey (annotate (decompressPtrs (recs.map recToDec))),
      e.key < S.entries.length := by
    intro e he
    exact gBound e.key (hklperm.mem_iff.mp (List.mem_map_of_mem _ he))
  obtain ⟨C', hRM⟩ := removeLoop_go S
    (sortByKey (annotate (decompressPtrs (recs.map recToDec)))) []
    ((recs.map recToDec).map DecompressTxRecord.data)
    hklsorted hkeyslt (fun e _ => List.not_mem_nil _)
  rw [cacheOf_nil] at hRM
  -- the filled transaction table
  have hlens : (decodeP [] (recs.filterMap CompressTxRecord.cacheIdx)).length =
      (decompressPtrs (recs.map recToDec)).length := by
    rw [decodeP_length, ← bA, List.length_map]
  have hlenhb : (decompressPtrs (recs.map recToDec)).length =
      (recs.filterMap fun r => r.cacheIdx.map fun _ => r.bytes).length :=
    bC.length_eq
  have hannpos : (annotate (decompressPtrs (recs.map recToDec))).map KeyedPtr.pos =
      (decompressPtrs (recs.map recToDec)).map IndexPtr.pos := by
    unfold annotate
    apply pos_zipWith_mk
    rw [decodeP_length]
    simp
  have htd : (sortByKey (annotate (decompressPtrs (recs.map recToDec)))).foldl
      (fun td' e => td'.set e.pos (some (S.entries.getD e.key default).blob))
      ((recs.map recToDec).map DecompressTxRecord.data) =
      recs.map (fun r => some r.bytes) := by
    apply foldl_set_eq
    · -- positions of the sorted reference list are distinct
      have hperm : ((sortByKey (annotate (decompressPtrs
          (recs.map recToDec)))).map KeyedPtr.pos).Perm
          ((decompressPtrs (recs.map recToDec)).map IndexPtr.pos) := by
        rw [← hannpos]
        exact (sortByKey_perm _).map _
      refine hperm.nodup_iff.mpr ?_
      exact (bB.imp (fun hab => Nat.ne_of_lt hab))
    · simp
    · -- each reference stores the bytes its slot expects
      intro e he
      have he' : e ∈ annotate (decompressPtrs (recs.map recToDec)) :=
        (sortByKey_perm _).mem_iff.mp he
      obtain ⟨i, hi, hei⟩ := List.mem_iff_getElem.mp he'
      have hizip : i < (decompressPtrs (recs.map recToDec)).length := by
        have hlen : (annotate (decompressPtrs (recs.map recToDec))).length =
            (decompressPtrs (recs.map recToDec)).length := by
          unfold annotate
          rw [List.length_zipWith, decodeP_length]
          simp
        omega
      have hips : i < (decodeP [] (recs.filterMap CompressTxRecord.cacheIdx)).length := by
        rw [hlens]
        exact hizip
      have hihb : i < (recs.filterMap fun r => r.cacheIdx.map fun _ => r.bytes).length := by
        rw [← hlenhb]
        exact hizip
      have hanno := annotate_getElem (decompressPtrs (recs.map recToDec)) i hi
      rw [hanno] at hei
      have hkey : e.key =
          (decodeP [] (recs.filterMap CompressTxRecord.cacheIdx)).getD i 0 := by
        rw [← hei]
        show (decodeP [] ((decompressPtrs
          (recs.map recToDec)).map IndexPtr.index)).getD i 0 = _
        rw [bA]
      have hpos : e.pos =
          ((decompressPtrs (recs.map recToDec)).map IndexPtr.pos).getD i 0 := by
        rw [← hei]
      have hposr : e.pos = ((decompressPtrs (recs.map recToDec)).getD i default).pos := by
        rw [hpos, getD_map_of_lt IndexPtr.pos 0 default hizip]
      obtain ⟨hCeq, hCget⟩ := List.forall₂_iff_get.mp bC
      obtain ⟨hGeq, hGget⟩ := List.forall₂_iff_get.mp gF2
      have hrecq0 := hCget i hizip hihb
      have hghq0 := hGget i hips hihb
      rw [List.get_eq_getElem, List.get_eq_getElem] at hrecq0 hghq0
      have hrq : recs.getD
          ((decompressPtrs (recs.map recToDec)).getD i default).pos default =
          ⟨(recs.filterMap fun r => r.cacheIdx.map fun _ => r.bytes).getD i [],
            some ((decompressPtrs (recs.map recToDec)).getD i default).index⟩ := by
        rw [List.getD_eq_getElem _ _ hizip, List.getD_eq_getElem _ _ hihb]
        exact hrecq0
      have hgq : (S.entries.getD ((decodeP [] (recs.filterMap
          CompressTxRecord.cacheIdx)).getD i 0) default).blob =
          (recs.filterMap fun r => r.cacheIdx.map fun _ => r.bytes).getD i [] := by
        rw [List.getD_eq_getElem _ _ hips, List.getD_eq_getElem _ _ hihb]
        exact hghq0
      have hposlt : ((decompressPtrs (recs.map recToDec)).getD i default).pos <
          recs.length := by
        apply bD
        rw [List.getD_eq_getElem _ _ hizip]
        exact List.getElem_mem _
      refine ⟨?_, ?_⟩
      · rw [hposr, List.length_map]
        exact hposlt
      · rw [hposr, hkey, hgq,
          getD_map_of_lt (fun r => some r.bytes) none default hposlt, hrq]
    · -- slots without a reference hold their inline bytes already
      intro q hq hoffq
      rw [List.length_map] at hq
      have hnoref : ∀ e ∈ decompressPtrs (recs.map recToDec), e.pos ≠ q := by
        intro e he hc
        have hpq : q ∈ ((sortByKey (annotate (decompressPtrs
            (recs.map recToDec)))).map KeyedPtr.pos) := by
          have hmem : q ∈ (decompressPtrs (recs.map recToDec)).map IndexPtr.pos := by
            rw [← hc]
            exact List.mem_map_of_mem _ he
          rw [← hannpos] at hmem
          exact ((sortByKey_perm _).map KeyedPtr.pos).mem_iff.mpr hmem
        obtain ⟨e', he', hpe'⟩ := List.mem_map.mp hpq
        exact hoffq e' he' hpe'
      have hnone : (recs.getD q default).cacheIdx = none := by
        by_contra hc
        obtain ⟨e, he, hpe⟩ := bE q hq hc
        exact hnoref e he hpe
      rw [List.map_map, getD_map_of_lt _ none default hq,
        getD_map_of_lt (fun r => some r.bytes) none default hq]
      show (recToDec (recs.getD q default)).data = _
      unfold recToDec
      rw [hnone]
  -- run the decompressor
  have hreadhdr : readWire (slice B 24 104 ++ (recs.map txPiece).flatten) 0 80 =
      some (slice B 24 104) := by
    have htake : (slice B 24 104 ++ (recs.map txPiece).flatten).take 80 =
        slice B 24 104 := by
      rw [← hhdrlen]
      exact List.take_left _ _
    unfold readWire
    rw [if_pos (by rw [List.length_append, hhdrlen]; omega)]
    rw [show (0 + 80 : Nat) = 80 from rfl, slice_zero, htake]
  have hv0 : (slice B 24 104).getD 0 0 = B.getD 24 0 := by
    have := slice_getD (l := B) (a := 24) (b := 104) (i := 0) (by omega) (by omega)
    simpa using this
  have hv1 : (slice B 24 104).getD 1 0 = B.getD 25 0 := by
    have := slice_getD (l := B) (a := 24) (b := 104) (i := 1) (by omega) (by omega)
    simpa using this
  have hv2 : (slice B 24 104).getD 2 0 = B.getD 26 0 := by
    have := slice_getD (l := B) (a := 24) (b := 104) (i := 2) (by omega) (by omega)
    simpa using this
  have hv3 : (slice B 24 104).getD 3 0 = B.getD 27 0 := by
    have := slice_getD (l := B) (a := 24) (b := 104) (i := 3) (by omega) (by omega)
    simpa using this
  have hdecomp : decompress_relay_block DS DS2 GH (comp.drop 12) txcount false
      ⟨sc2, S, seen2⟩ =
      (.ok ⟨fwb, List.replicate 24 0 ++ slice B 24 104 ++ varint txcount ++
        ((recs.map fun r : CompressTxRecord => some r.bytes).map fun o : Option Blob => o.getD []).flatten,
        GH (slice B 24 104)⟩,
       ⟨sc2, C', insertSeen seen2 (GH (slice B 24 104))⟩) := by
    unfold decompress_relay_block
    rw [if_neg (by omega)]
    unfold do_decompress
    rw [hbody, hreadhdr]
    dsimp only
    rw [hv0, hv1, hv2, hv3, hvf]
    simp only [Bool.false_eq_true, if_false, Bool.false_and]
    rw [hRL]
    dsimp only
    rw [hts, hTS, hRM]
    dsimp only
    rw [htd]
  refine ⟨_, _, hdecomp, ?_⟩
  -- byte equality from offset 24 on
  show (List.replicate 24 0 ++ slice B 24 104 ++ varint txcount ++
      ((recs.map fun r : CompressTxRecord => some r.bytes).map fun o : Option Blob => o.getD []).flatten).drop 24 =
    B.drop 24
  have hflat2 : ((recs.map fun r : CompressTxRecord => some r.bytes).map fun o : Option Blob => o.getD []).flatten =
      (recs.map CompressTxRecord.bytes).flatten := by
    rw [List.map_map]
    rfl
  have hrep : (List.replicate 24 (0 : Nat) ++ (slice B 24 104 ++ (varint txcount ++
      ((recs.map fun r : CompressTxRecord => some r.bytes).map fun o : Option Blob => o.getD []).flatten))).drop 24 =
      slice B 24 104 ++ (varint txcount ++
        ((recs.map fun r : CompressTxRecord => some r.bytes).map fun o : Option Blob => o.getD []).flatten) := by
    rw [List.drop_append_eq_append_drop, List.length_replicate,
      List.drop_eq_nil_of_le (by rw [List.length_replicate]),
      show (24 - 24 : Nat) = 0 from by omega, List.drop_zero, List.nil_append]
  rw [show List.replicate 24 (0 : Nat) ++ slice B 24 104 ++ varint txcount ++
      ((recs.map fun r : CompressTxRecord => some r.bytes).map fun o : Option Blob => o.getD []).flatten =
      List.replicate 24 (0 : Nat) ++ (slice B 24 104 ++ (varint txcount ++
      ((recs.map fun r : CompressTxRecord => some r.bytes).map fun o : Option Blob => o.getD []).flatten)) from by
    simp [List.append_assoc]]
  rw [hrep, hflat2, hflatten, ← hcanon]
  rw [slice_cat (by omega) (by omega) hrv2, slice_cat (by omega) (by omega) (by omega),
    slice_to_end]

/-- Refutation of C1 as stated: compression ignores trailing bytes after
the last transaction, so a block with a stray byte compresses successfully
but decompresses to a block that is not byte-equal to the original. -/
theorem claim_C1_counterexample :
    (maybe_compress_block DS0 DS20 [] blockTrail false stEmpty).1 = .ok trailComp ∧
    (decompress_relay_block DS0 DS20 GH0 (trailComp.drop 12) 1 false stEmpty).1 =
      .ok trailOut ∧
    trailOut.block.drop 24 ≠ blockTrail.drop 24 := by
  refine ⟨rfl, rfl, ?_⟩
  decide

/-- Closed instance of C1: a one-transaction block whose transaction sits in
the shared cache round-trips byte-equal from the header onward. -/
theorem claim_C1_witness :
    ∃ out st2,
      decompress_relay_block DS0 DS20 GH0 (wComp.drop 12) 1 false
        ⟨⟨[]⟩, cacheA, []⟩ = (.ok out, st2) ∧
      out.block.drop 24 = blockA.drop 24 :=
  claim_C1 DS0 DS20 GH0 [] blockA false ⟨cacheA, ⟨[]⟩, []⟩ 1 105
    [⟨txA, some 0⟩] ⟨[]⟩ ⟨[]⟩ [] wComp wSt rfl rfl rfl (by decide) (by decide) rfl

end RelayNode
